import Mathlib

/-!
RSA_Encryption: a verification development.

A shallow embedding of the number-theoretic core of `secure_server.cpp` and
`secure_client.cpp`: primality test, Euclid's algorithm, the search for the public
exponent, the extended Euclidean algorithm, square-and-multiply modular
exponentiation, key generation and the chained per-character cipher; and of the
handshake and message loops of the two `main` functions.

Conventions of the embedding

* `long long` values are mathematical integers (`Int`); `/` and `%` of C++ truncate
  towards zero, so they are `Int.tdiv` and `Int.tmod`. The products of `repeatSquare` are
  exact; `repeatSquare64` is the same function with every product reduced to 64 bits, and
  the two agree for the moduli of the key generators (`2 ≤ n ≤ 15000 * 15000`). Where a
  value comes from the network or is not bounded by the claim, the 64-bit functions are
  used. A remainder by zero, on which the source traps, has no counterpart: the theorems
  assume a positive modulus.
* The process-wide globals become the fields of `ServerState` and `ClientState`, and a
  function that writes a global returns the new state.
* A `while` loop whose number of iterations is bounded by one of its variables is a
  structural recursion on an iteration budget computed from that variable
  (`repeatSquare`, `isPrime`); the lemmas `repeatSquareLoop_budget` and
  `isPrimeLoop_budget` show that a larger budget never changes the result.
* Loops that may fail to terminate, or that may divide by zero, take an explicit
  `fuel` and return `Option`: `none` stands for "no value is returned".
* Values drawn from `uniform_int_distribution` are inputs of the model: the list
  `draws` for the candidates of `get_prime`, `seed` for the start of `get_e`, and `num`
  for `get_nonce`.
* A `char` is its integer value; the signedness of plain `char` is a parameter
  (`charSigned`) of the conversion `toChar`. The operator `^` on `long long` is `Int.xor`.
* A C string is the list of its `char` values. The records that `recv` delivers and the
  contents of `input_buffer` after `fgets` are inputs of the model; the buffers passed to
  `send` are its output. The C library functions that the loops call (`strncmp`, `strcmp`,
  `strtok`, `sscanf`, and the `%lld` conversion of `snprintf`) are in the namespace `cstd`.
-/

/-! ## The server: secure_server.cpp -/

namespace secure_server

/-- Process-wide variables of secure_server.cpp (lines 47-50). -/
structure ServerState where
  dCA : Int
  eCA : Int
  nCA : Int
  eServer : Int
  dServer : Int
  nServer : Int
  p : Int
  q : Int
  z : Int
  nonce : Int
deriving DecidableEq, Repr

/-- State at program start: `nCA = 0` explicitly, the other globals zero-initialised. -/
def ServerState.start : ServerState :=
  { dCA := 0, eCA := 0, nCA := 0, eServer := 0, dServer := 0, nServer := 0,
    p := 0, q := 0, z := 0, nonce := 0 }

/-- The `for (i = 2; i <= sqrt(num); i++)` loop of `isPrime`, from the current `i`.
The bound `sqrt(num)` is taken as the integer square root `⌊√num⌋`. -/
def isPrimeLoop : Nat → Int → Int → Bool
  | 0, _, _ => true
  | k + 1, num, i =>
    if i ≤ Int.sqrt num then
      if num.tmod i = 0 then false
      else isPrimeLoop k num (i + 1)
    else true

/-- Function `isPrime(num)`. The loop runs fewer than `num` times. -/
def isPrime (num : Int) : Bool :=
  if num ≤ 1 then false
  else if num ≤ 3 then true
  else isPrimeLoop num.toNat num 2

/-- Function `get_prime()`: candidates are taken from `draws`, the successive values of
`distribution(gen)`, until one is prime. Returns the prime and the unused draws. -/
def get_prime : List Int → Option (Int × List Int)
  | [] => none
  | randomNum :: rest =>
    if isPrime randomNum then some (randomNum, rest)
    else get_prime rest

/-- The `while(true)` loop of `euclidean`. A zero divisor (division by zero) gives no
value. -/
def euclideanLoop : Nat → Int → Int → Option Bool
  | 0, _, _ => none
  | fuel + 1, dividend, divisor =>
    if divisor = 0 then none
    else
      let remainder := dividend.tmod divisor
      if remainder = 0 then
        some (remainder == 0 && divisor == 1)
      else
        euclideanLoop fuel divisor remainder

/-- Function `euclidean(div)`, with the global `z` as a parameter. -/
def euclidean (fuel : Nat) (z div : Int) : Option Bool :=
  euclideanLoop fuel z div

/-- The `while(!valid)` loop of `get_e`, from the current candidate `local_e`. -/
def get_eLoop : Nat → Int → Int → Int → Int → Int → Option Int
  | 0, _, _, _, _, _ => none
  | fuel + 1, p, q, z, local_n, local_e =>
    if local_e < local_n ∨ (local_e ≠ q ∧ local_e ≠ p) then
      match euclidean fuel z local_e with
      | none => none
      | some true => some local_e
      | some false => get_eLoop fuel p q z local_n (local_e + 1)
    else
      get_eLoop fuel p q z local_n (local_e + 1)

/-- Function `get_e(local_n)`, with the globals `p`, `q`, `z` as parameters; `seed` is the
initial value `distribution(gen)` of `local_e`. -/
def get_e (fuel : Nat) (p q z local_n seed : Int) : Option Int :=
  get_eLoop fuel p q z local_n seed

/-- The four vectors and the index of `extended_euclidean`. -/
structure EEVectors where
  xValues : Array Int
  dValues : Array Int
  kValues : Array Int
  wValues : Array Int
  i : Nat
deriving DecidableEq, Repr

/-- One pass through the body of the `while (true)` loop of `extended_euclidean`: the
quotient is pushed on `kValues`, `i` is incremented, and the new `x`, `d` and `w` values
are pushed. -/
def extended_euclideanStep (v : EEVectors) : EEVectors :=
  let kValues := v.kValues.push ((v.wValues.getD (v.i - 1) 0).tdiv (v.wValues.getD v.i 0))
  let i := v.i + 1
  let xValues := v.xValues.push
    (v.xValues.getD (i - 2) 0 - kValues.getD (i - 1) 0 * v.xValues.getD (i - 1) 0)
  let dValues := v.dValues.push
    (v.dValues.getD (i - 2) 0 - kValues.getD (i - 1) 0 * v.dValues.getD (i - 1) 0)
  let wValues := v.wValues.push
    (v.wValues.getD (i - 2) 0 - kValues.getD (i - 1) 0 * v.wValues.getD (i - 1) 0)
  ⟨xValues, dValues, kValues, wValues, i⟩

/-- The `while (true)` loop of `extended_euclidean`, which stops when `wValues[i] == 1`.
A zero `wValues[i]` at the division gives no value (division by zero). -/
def extended_euclideanLoop : Nat → EEVectors → Option EEVectors
  | 0, _ => none
  | fuel + 1, v =>
    if v.wValues.getD v.i 0 = 0 then none
    else
      let v1 := extended_euclideanStep v
      if v1.wValues.getD v1.i 0 = 1 then some v1
      else extended_euclideanLoop fuel v1

/-- Function `extended_euclidean(local_e)`, with the global `z` as a parameter. -/
def extended_euclidean (fuel : Nat) (z local_e : Int) : Option Int :=
  match extended_euclideanLoop fuel ⟨#[1, 0], #[0, 1], #[0], #[z, local_e], 1⟩ with
  | none => none
  | some v =>
    let d := v.dValues.getD v.i 0
    some (if d < 0 then d + z else d)

/-- The loop `while(p == q) { q = get_prime(); }` of the key setters. -/
def redrawWhileEqual : Nat → Int → Int → List Int → Option (Int × List Int)
  | 0, _, _, _ => none
  | fuel + 1, p, q, draws =>
    if p = q then
      match get_prime draws with
      | none => none
      | some (q1, rest) => redrawWhileEqual fuel p q1 rest
    else some (q, draws)

/-- The loop `while(nCA < nServer)` of `set_CA_Keys`. -/
def set_CA_KeysLoop : Nat → List Int → ServerState → Option (ServerState × List Int)
  | 0, _, _ => none
  | fuel + 1, draws, s =>
    if s.nCA < s.nServer then
      match get_prime draws with
      | none => none
      | some (p, d1) =>
        match get_prime d1 with
        | none => none
        | some (q, d2) =>
          match redrawWhileEqual fuel p q d2 with
          | none => none
          | some (q1, d3) =>
            set_CA_KeysLoop fuel d3 { s with p := p, q := q1, nCA := p * q1 }
    else some (s, draws)

/-- Function `set_CA_Keys()`. -/
def set_CA_Keys (fuel : Nat) (draws : List Int) (seed : Int) (s : ServerState) :
    Option (ServerState × List Int) :=
  match set_CA_KeysLoop fuel draws s with
  | none => none
  | some (s1, rest) =>
    let z := (s1.p - 1) * (s1.q - 1)
    match get_e fuel s1.p s1.q z s1.nCA seed with
    | none => none
    | some eCA =>
      match extended_euclidean fuel z eCA with
      | none => none
      | some dCA => some ({ s1 with z := z, eCA := eCA, dCA := dCA }, rest)

/-- Function `set_server_keys()`. -/
def set_server_keys (fuel : Nat) (draws : List Int) (seed : Int) (s : ServerState) :
    Option (ServerState × List Int) :=
  match get_prime draws with
  | none => none
  | some (p, d1) =>
    match get_prime d1 with
    | none => none
    | some (q, d2) =>
      match redrawWhileEqual fuel p q d2 with
      | none => none
      | some (q1, d3) =>
        let nServer := p * q1
        let z := (p - 1) * (q1 - 1)
        match get_e fuel p q1 z nServer seed with
        | none => none
        | some eServer =>
          match extended_euclidean fuel z eServer with
          | none => none
          | some dServer =>
            some ({ s with p := p, q := q1, nServer := nServer, z := z,
                           eServer := eServer, dServer := dServer }, d3)

/-- Body of the `while(e > 0)` loop of `repeatSquare` (secure_server.cpp), with the
accumulator `y` as a loop variable. The first argument bounds the iterations. -/
def repeatSquareLoop : Nat → Int → Int → Int → Int → Int
  | 0, _, _, _, y => y
  | k + 1, x, e, local_n, y =>
    if e > 0 then
      if e.tmod 2 = 0 then
        repeatSquareLoop k ((x * x).tmod local_n) (e.tdiv 2) local_n y
      else
        repeatSquareLoop k x (e - 1) local_n ((x * y).tmod local_n)
    else y

/-- Function `repeatSquare(x, e, local_n)` of secure_server.cpp, with exact products (see
`repeatSquare64` for the products on 64 bits). Each iteration strictly decreases a positive
`e`, so `e` iterations are always enough. -/
def repeatSquare (x e local_n : Int) : Int :=
  repeatSquareLoop e.toNat x e local_n 1

/-- The conversion `static_cast<char>(result)`: the low 8 bits of `result`, read as a
two's-complement value when plain `char` is signed (`charSigned`), as an unsigned one
otherwise. The signedness of `char` is fixed by the platform. -/
def toChar (charSigned : Bool) (result : Int) : Int :=
  if charSigned then
    if result % 256 < 128 then result % 256 else result % 256 - 256
  else result % 256

/-- Function `cbc_decrypt(num)`: returns the character and the state with the new nonce. -/
def cbc_decrypt (charSigned : Bool) (s : ServerState) (num : Int) : Int × ServerState :=
  let decrypt_char := repeatSquare num s.dServer s.nServer
  let result := Int.xor decrypt_char s.nonce
  (toChar charSigned result, { s with nonce := num })

/-- Key generation of `main` (lines 456-457): the server keys first, then the CA keys. -/
def main_setKeys (fuel : Nat) (draws : List Int) (seedServer seedCA : Int) :
    Option (ServerState × List Int) :=
  match set_server_keys fuel draws seedServer ServerState.start with
  | none => none
  | some (s1, rest) => set_CA_Keys fuel rest seedCA s1

/-- The two integers of the `PUBLIC_KEY` record that `main` sends (lines 535-537). -/
def main_signPublicKey (s : ServerState) : Int × Int :=
  (repeatSquare s.eServer s.dCA s.nCA, repeatSquare s.nServer s.dCA s.nCA)

/-- The assignment to `nonce` on a `NONCE` record in `main` (line 591). -/
def main_receiveNonce (s : ServerState) (encrypt_nonce : Int) : ServerState :=
  { s with nonce := repeatSquare encrypt_nonce s.dServer s.nServer }

end secure_server

/-! ## The client: secure_client.cpp -/

namespace secure_client

/-- Process-wide variables of secure_client.cpp (lines 39-41). -/
structure ClientState where
  eServer : Int
  nServer : Int
  eCA : Int
  nCA : Int
  nonce : Int
deriving DecidableEq, Repr

/-- Body of the `while(e > 0)` loop of `repeatSquare` (secure_client.cpp). -/
def repeatSquareLoop : Nat → Int → Int → Int → Int → Int
  | 0, _, _, _, y => y
  | k + 1, x, e, n, y =>
    if e > 0 then
      if e.tmod 2 = 0 then
        repeatSquareLoop k ((x * x).tmod n) (e.tdiv 2) n y
      else
        repeatSquareLoop k x (e - 1) n ((x * y).tmod n)
    else y

/-- Function `repeatSquare(x, e, n)` of secure_client.cpp, with exact products (see
`repeatSquare64` for the products on 64 bits). -/
def repeatSquare (x e n : Int) : Int :=
  repeatSquareLoop e.toNat x e n 1

/-- Function `get_nonce()`: returns the value `num` drawn from
`uniform_int_distribution(1000, 5000)`. -/
def get_nonce (num : Int) : Int := num

/-- Function `cbc_encrypt(c)`: `c` is the value of the character, as
`static_cast<int>(c)` reads it. Returns the ciphertext and the state with the new
nonce. -/
def cbc_encrypt (s : ClientState) (c : Int) : Int × ClientState :=
  let ascii := c
  let result := Int.xor ascii s.nonce
  let encrypt_char := repeatSquare result s.eServer s.nServer
  (encrypt_char, { s with nonce := encrypt_char })

/-- The assignments to `eServer` and `nServer` on a `PUBLIC_KEY` record in `main`
(lines 343-344). -/
def main_recoverPublicKey (s : ClientState) (e_encryp n_encryp : Int) : ClientState :=
  { s with eServer := repeatSquare e_encryp s.eCA s.nCA,
           nServer := repeatSquare n_encryp s.eCA s.nCA }

/-- Nonce generation and encryption in `main` (lines 353-357): returns the integer of the
`NONCE` record and the state holding the plain nonce. `num` is the draw of `get_nonce`. -/
def main_sendNonce (s : ClientState) (num : Int) : Int × ClientState :=
  let nonce := get_nonce num
  let encrypted_nonce := repeatSquare nonce s.eServer s.nServer
  (encrypted_nonce, { s with nonce := nonce })

end secure_client

/-! ## Machine arithmetic of `repeatSquare` -/

namespace secure_server

/-- The value a signed 64-bit `long long` holds after an operation whose exact result is
`v`: `v` reduced modulo `2^64` into `[-2^63, 2^63)`. -/
def wrap64 (v : Int) : Int := (v + 2 ^ 63) % 2 ^ 64 - 2 ^ 63

/-- The loop of `repeatSquare` with every product held in a signed 64-bit `long long`. -/
def repeatSquareLoop64 : Nat → Int → Int → Int → Int → Int
  | 0, _, _, _, y => y
  | k + 1, x, e, local_n, y =>
    if e > 0 then
      if e.tmod 2 = 0 then
        repeatSquareLoop64 k ((wrap64 (x * x)).tmod local_n) (e.tdiv 2) local_n y
      else
        repeatSquareLoop64 k x (e - 1) local_n ((wrap64 (x * y)).tmod local_n)
    else y

/-- Function `repeatSquare` with every product held in a signed 64-bit `long long`. -/
def repeatSquare64 (x e local_n : Int) : Int :=
  repeatSquareLoop64 e.toNat x e local_n 1

/-- The exact values of the products `x * x` and `x * y` that the loop of `repeatSquare`
forms, in the order in which it forms them. -/
def repeatSquareProducts : Nat → Int → Int → Int → Int → List Int
  | 0, _, _, _, _ => []
  | k + 1, x, e, local_n, y =>
    if e > 0 then
      if e.tmod 2 = 0 then
        (x * x) :: repeatSquareProducts k ((x * x).tmod local_n) (e.tdiv 2) local_n y
      else
        (x * y) :: repeatSquareProducts k x (e - 1) local_n ((x * y).tmod local_n)
    else []

end secure_server

namespace secure_server

/-- Function `cbc_decrypt(num)` with every product of `repeatSquare` held in a signed
64-bit `long long`. -/
def cbc_decrypt64 (charSigned : Bool) (s : ServerState) (num : Int) : Int × ServerState :=
  let decrypt_char := repeatSquare64 num s.dServer s.nServer
  let result := Int.xor decrypt_char s.nonce
  (toChar charSigned result, { s with nonce := num })

end secure_server

namespace secure_server

/-- The assignment to `nonce` on a `NONCE` record in `main` (line 591) with every product
of `repeatSquare` held in a signed 64-bit `long long`: the value received is any
`long long`. -/
def main_receiveNonce64 (s : ServerState) (encrypt_nonce : Int) : ServerState :=
  { s with nonce := repeatSquare64 encrypt_nonce s.dServer s.nServer }

end secure_server

namespace secure_client

/-- The loop of the client's `repeatSquare` with every product held in a signed 64-bit
`long long`. -/
def repeatSquareLoop64 : Nat → Int → Int → Int → Int → Int
  | 0, _, _, _, y => y
  | k + 1, x, e, local_n, y =>
    if e > 0 then
      if e.tmod 2 = 0 then
        repeatSquareLoop64 k ((secure_server.wrap64 (x * x)).tmod local_n) (e.tdiv 2) local_n y
      else
        repeatSquareLoop64 k x (e - 1) local_n ((secure_server.wrap64 (x * y)).tmod local_n)
    else y

/-- The client's `repeatSquare` with every product held in a signed 64-bit `long long`. -/
def repeatSquare64 (x e local_n : Int) : Int :=
  repeatSquareLoop64 e.toNat x e local_n 1

/-- Function `cbc_encrypt(c)` with every product of `repeatSquare` held in a signed 64-bit
`long long`. -/
def cbc_encrypt64 (s : ClientState) (c : Int) : Int × ClientState :=
  let ascii := c
  let result := Int.xor ascii s.nonce
  let encrypt_char := repeatSquare64 result s.eServer s.nServer
  (encrypt_char, { s with nonce := encrypt_char })

end secure_client

/-! ## Text, and the C library functions the two programs call

A C string is the list of its `char` values, without the terminating NUL. The functions
below follow the C standard for the arguments that the programs pass. -/

namespace cstd

/-- The characters of a string literal of the source, as `char` values (ASCII). -/
def ascii (s : String) : List Int := s.toList.map (fun ch => (ch.toNat : Int))

/-- Library function `isspace` in the "C" locale: space, and `\t`, `\n`, `\v`, `\f`, `\r`. -/
def isspace (c : Int) : Bool := c == 32 || (decide (9 ≤ c) && decide (c ≤ 13))

/-- Library function `isdigit`. -/
def isdigit (c : Int) : Bool := decide (48 ≤ c) && decide (c ≤ 57)

/-- Library function `strncmp(s1, s2, n)`: zero when the first `n` characters agree, else
the difference of the first two characters that differ, the end of a string counting as
NUL. -/
def strncmp : List Int → List Int → Nat → Int
  | _, _, 0 => 0
  | [], [], _ + 1 => 0
  | [], b :: _, _ + 1 => -b
  | a :: _, [], _ + 1 => a
  | a :: s1, b :: s2, n + 1 => if a = b then strncmp s1 s2 n else a - b

/-- Library function `strcmp(s1, s2)`. -/
def strcmp : List Int → List Int → Int
  | [], [] => 0
  | [], b :: _ => -b
  | a :: _, [] => a
  | a :: s1, b :: s2 => if a = b then strcmp s1 s2 else a - b

/-- Library function `strtok` with the delimiter string `" "`, called on a buffer and then
with `NULL` until it returns `NULL`: the successive tokens, which are the maximal runs of
characters other than the space. -/
def strtokAll (buffer : List Int) : List (List Int) :=
  (buffer.splitOn 32).filter (fun token => token ≠ [])

/-- The digits of `n`, most significant first, put in front of `acc`. The first argument
bounds the number of digits. -/
def printDigits : Nat → Nat → List Int → List Int
  | 0, _, acc => acc
  | k + 1, n, acc =>
    if n < 10 then (48 + (n : Int)) :: acc
    else printDigits k (n / 10) ((48 + ((n % 10 : Nat) : Int)) :: acc)

/-- The decimal digits of `n`, most significant first: a number has at most `n + 1`
digits. -/
def printNat (n : Nat) : List Int := printDigits (n + 1) n []

/-- The text that the conversion `%lld` of `snprintf`, and `to_string`, produce for `v`:
a minus sign for a negative value, then the decimal digits. -/
def printDecimal (v : Int) : List Int :=
  if v < 0 then 45 :: printNat (-v).toNat
  else printNat v.toNat

/-- The longest run of decimal digits at the start of the input, read as a number that
continues `acc`, and the input left. -/
def scanDigits : List Int → Int → Int × List Int
  | [], acc => (acc, [])
  | c :: cs, acc =>
    if isdigit c then scanDigits cs (acc * 10 + (c - 48))
    else (acc, c :: cs)

/-- The conversions `%d` and `%lld` of `sscanf` on input without leading white space: an
optional sign and a nonempty run of decimal digits. No value when the input does not start
that way. The value is the number that the digits denote; `storedValue` gives what is
stored in the target. -/
def scanInteger : List Int → Option (Int × List Int)
  | [] => none
  | c :: cs =>
    if c = 45 then
      match cs with
      | [] => none
      | d :: ds =>
        if isdigit d then some (-(scanDigits (d :: ds) 0).1, (scanDigits (d :: ds) 0).2)
        else none
    else if c = 43 then
      match cs with
      | [] => none
      | d :: ds => if isdigit d then some (scanDigits (d :: ds) 0) else none
    else if isdigit c then some (scanDigits (c :: cs) 0)
    else none

/-- The value that `strtol` and `strtoll` return for digits that denote `v`, where `long`
and `long long` have 64 bits: `v` when it is in `[-2^63, 2^63)`, else the nearest bound. -/
def clamp64 (v : Int) : Int :=
  if v < -(2 ^ 63) then -(2 ^ 63) else if 2 ^ 63 - 1 < v then 2 ^ 63 - 1 else v

/-- The conversion of a `long` to `int`: the low 32 bits, read as a two's-complement
value. -/
def wrap32 (v : Int) : Int := (v + 2 ^ 31) % 2 ^ 32 - 2 ^ 31

/-- What an integer conversion of `sscanf` stores for digits that denote `v`, as the C
library of the platform does (glibc, 64-bit `long`): the digits are converted as by
`strtoll` for `%lld` (`longLong`) and the result is stored in the `long long`; they are
converted as by `strtol` for `%d` and the result is stored in the `int` by a cast. The two
agree with `v` when `v` is a value of the target type; for other values the C standard
leaves the behaviour undefined. -/
def storedValue (longLong : Bool) (v : Int) : Int :=
  if longLong then clamp64 v else wrap32 (clamp64 v)

/-- The directives of the format strings of `sscanf` that occur in the programs. -/
inductive Directive where
  | ordinary (c : Int)
  | whiteSpace
  | integer (longLong : Bool)
deriving DecidableEq, Repr

/-- The directives of a format string: `%d` is a conversion to `int` and `%lld` one to
`long long`, a white-space character is a white-space directive, any other character stands
for itself. -/
def directives : List Int → List Directive
  | [] => []
  | 37 :: 100 :: rest => Directive.integer false :: directives rest
  | 37 :: 108 :: 108 :: 100 :: rest => Directive.integer true :: directives rest
  | c :: rest =>
    if isspace c then Directive.whiteSpace :: directives rest
    else Directive.ordinary c :: directives rest

/-- The value `EOF` that `sscanf` returns when the input ends before the first
conversion. -/
def EOF : Int := -1

/-- Execution of the directives of `sscanf` on the input: returns the return value of
`sscanf` (the number of values assigned, or `EOF`) and the values assigned, in order. -/
def sscanfRun : List Directive → List Int → List Int → Int × List Int
  | [], _, assigned => (assigned.length, assigned)
  | Directive.ordinary c :: fmt, input, assigned =>
    match input with
    | [] => (if assigned = [] then EOF else assigned.length, assigned)
    | x :: xs =>
      if x = c then sscanfRun fmt xs assigned
      else (assigned.length, assigned)
  | Directive.whiteSpace :: fmt, input, assigned =>
    sscanfRun fmt (input.dropWhile isspace) assigned
  | Directive.integer longLong :: fmt, input, assigned =>
    match input.dropWhile isspace with
    | [] => (if assigned = [] then EOF else assigned.length, assigned)
    | x :: xs =>
      match scanInteger (x :: xs) with
      | none => (assigned.length, assigned)
      | some (v, rest) => sscanfRun fmt rest (assigned ++ [storedValue longLong v])

/-- Library function `sscanf(buffer, format, ...)`: the return value and the values
assigned to the arguments, in order. -/
def sscanf (buffer format : List Int) : Int × List Int :=
  sscanfRun (directives format) buffer []

/-- The line-reading loop that both programs run on `recv`, one byte at a time: a line
ends at LF and CRs are dropped. The records are the complete lines of the byte stream; the
bytes after the last LF are not a record. The second argument is the line read so far, in
reverse. -/
def recvRecords : List Int → List Int → List (List Int)
  | [], _ => []
  | b :: bytes, line =>
    if b = 10 then line.reverse :: recvRecords bytes []
    else if b ≠ 13 then recvRecords bytes (b :: line)
    else recvRecords bytes line

end cstd

/-! ## The client's handshake and message phase (`main` of secure_client.cpp)

The records received from the server are an input of the model: the list of the complete
lines that `recv` delivers, in order; when the list is exhausted `recv` fails. The lines
typed by the user are an input too: the successive contents of `input_buffer` after
`fgets`, which stores a line with its newline character. Every `send` succeeds, and the test
`count >= 0 && count < BUFFER_SIZE` on the result of `snprintf` always holds (the text of a
`long long` has at most 20 characters), so the branches for their failure are not
modelled. The recovery of the server's key and the encryption of the nonce use the exact
`repeatSquare`: these are the source's values when the moduli received are moduli of the
key generators; a modulus 0, on which the source divides by zero, is not modelled. -/

namespace secure_client

open cstd

/-- State at program start: the globals are zero-initialised. -/
def ClientState.start : ClientState :=
  { eServer := 0, nServer := 0, eCA := 0, nCA := 0, nonce := 0 }

/-- How the handshake loop of `main` ends: by `exit(1)` when `recv` fails (`recvFailed`), by
`exit(1)` after a diagnostic on a malformed record, or by `break` after an `ACK` record,
with the code 220 (`ackOk`) or after the diagnostic
`ERROR:   failed to receive a positive ACK from the server` (`ackFailed`). -/
inductive HandshakeExit where
  | recvFailed
  | exit1 (diagnostic : String)
  | ackOk
  | ackFailed
deriving DecidableEq, Repr

/-- The block `if(strncmp(receive_buffer, "CA", 2) == 0)` of the handshake loop
(lines 316-326). `sscanf` stores the values it converts in `eCA` and `nCA`. -/
def main_onCA (cl : ClientState) (receive_buffer : List Int) :
    ClientState × Option HandshakeExit :=
  if strncmp receive_buffer (ascii "CA") 2 = 0 then
    let scanned := sscanf receive_buffer (ascii "CA %lld %lld")
    let cl1 := { cl with eCA := scanned.2.getD 0 cl.eCA, nCA := scanned.2.getD 1 cl.nCA }
    if scanned.1 ≠ 2 then
      (cl1, some (HandshakeExit.exit1 "ERROR:  retireval of CA keys was unsuccessful. Exiting."))
    else (cl1, none)
  else (cl, none)

/-- The block `if(strncmp(receive_buffer, "PUBLIC_KEY", 10) == 0)` of the handshake loop
(lines 330-369): returns the buffers sent and the new state. `num` is the value that
`get_nonce` draws. -/
def main_onPublicKey (num : Int) (cl : ClientState) (receive_buffer : List Int) :
    List (List Int) × ClientState × Option HandshakeExit :=
  if strncmp receive_buffer (ascii "PUBLIC_KEY") 10 = 0 then
    let scanned := sscanf receive_buffer (ascii "PUBLIC_KEY %lld %lld")
    if scanned.1 ≠ 2 then
      ([], cl, some (HandshakeExit.exit1
        "ERROR:  retireval of Public Keys was unsuccessful. Exiting."))
    else
      let e_encryp := scanned.2.getD 0 0
      let n_encryp := scanned.2.getD 1 0
      let cl1 := main_recoverPublicKey cl e_encryp n_encryp
      let ack := ascii "ACK 226\n"
      let sentNonce := main_sendNonce cl1 num
      ([ack, ascii "NONCE " ++ printDecimal sentNonce.1 ++ ascii "\n"], sentNonce.2, none)
  else ([], cl, none)

/-- The block `if(strncmp(receive_buffer, "ACK", 3) == 0)` of the handshake loop
(lines 372-384): both branches leave the loop by `break`. -/
def main_onAck (receive_buffer : List Int) : Option HandshakeExit :=
  if strncmp receive_buffer (ascii "ACK") 3 = 0 then
    let scanned := sscanf receive_buffer (ascii "ACK %d")
    if scanned.1 = 1 ∧ scanned.2.getD 0 0 = 220 then some HandshakeExit.ackOk
    else some HandshakeExit.ackFailed
  else none

/-- One pass through the body of the handshake loop of `main` for the record in
`receive_buffer`: the three `if` blocks in sequence. Returns the buffers sent, the new state
and, when the loop is left, how. -/
def main_handshakeRecord (num : Int) (cl : ClientState) (receive_buffer : List Int) :
    List (List Int) × ClientState × Option HandshakeExit :=
  match main_onCA cl receive_buffer with
  | (cl1, some x) => ([], cl1, some x)
  | (cl1, none) =>
    match main_onPublicKey num cl1 receive_buffer with
    | (sent, cl2, some x) => (sent, cl2, some x)
    | (sent, cl2, none) => (sent, cl2, main_onAck receive_buffer)

/-- What the handshake of the client did: the buffers passed to `send`, in order, the
state, and how the loop ended. -/
structure HandshakeRun where
  sent : List (List Int)
  state : ClientState
  exit : HandshakeExit
deriving DecidableEq, Repr

/-- The handshake loop of `main` (lines 291-385) on the records received. `num i` is the
value that `get_nonce` draws if it is called for record number `i`. -/
def main_handshake (num : Nat → Int) : Nat → ClientState → List (List Int) → HandshakeRun
  | _, cl, [] => { sent := [], state := cl, exit := HandshakeExit.recvFailed }
  | i, cl, receive_buffer :: records =>
    match main_handshakeRecord (num i) cl receive_buffer with
    | (sent, cl1, some x) => { sent := sent, state := cl1, exit := x }
    | (sent, cl1, none) =>
      let run := main_handshake num (i + 1) cl1 records
      { run with sent := sent ++ run.sent }

/-- The `for` loop over the characters of one token (lines 417-434): each character is
encrypted by `cbc_encrypt` and sent as a decimal line. -/
def main_sendToken (cl : ClientState) : List Int → List (List Int) × ClientState
  | [] => ([], cl)
  | c :: token =>
    let encrypted := cbc_encrypt cl c
    let send_buffer := printDecimal encrypted.1 ++ ascii "\n"
    let rest := main_sendToken encrypted.2 token
    (send_buffer :: rest.1, rest.2)

/-- The loop `while(token != NULL)` (lines 416-462) on the tokens that `strtok` returns:
after a token, if there is another one, a space is encrypted in line and sent. -/
def main_sendTokens (cl : ClientState) : List (List Int) → List (List Int) × ClientState
  | [] => ([], cl)
  | [token] => main_sendToken cl token
  | token :: next :: tokens =>
    let first := main_sendToken cl token
    let cl1 := first.2
    let space_ascii : Int := 32
    let result := Int.xor space_ascii cl1.nonce
    let encrypted_space := repeatSquare result cl1.eServer cl1.nServer
    let cl2 := { cl1 with nonce := encrypted_space }
    let rest := main_sendTokens cl2 (next :: tokens)
    (first.1 ++ (printDecimal encrypted_space ++ ascii "\n") :: rest.1, rest.2)

/-- The body of the loop `while ((strncmp(input_buffer, ".", 1) != 0))` up to the sending of
the delimiter (lines 414-472): the tokens of the buffer are sent, then the line `\r\n`. -/
def main_sendMessage (cl : ClientState) (input_buffer : List Int) :
    List (List Int) × ClientState :=
  let tokens := main_sendTokens cl (strtokAll input_buffer)
  (tokens.1 ++ [ascii "\r\n"], tokens.2)

/-- How the message phase of the client ends: `exit(1)` when `fgets` fails, or the shutdown
after an input that starts with `.`. -/
inductive MessagePhaseExit where
  | exit1 (diagnostic : String)
  | shutDown
deriving DecidableEq, Repr

/-- What the message phase of the client did. -/
structure MessagePhaseRun where
  sent : List (List Int)
  state : ClientState
  exit : MessagePhaseExit
deriving DecidableEq, Repr

/-- The message phase of `main` (lines 392-495) on the successive contents of
`input_buffer`; when the list is exhausted `fgets` returns `NULL`. -/
def main_messagePhase : ClientState → List (List Int) → MessagePhaseRun
  | cl, [] => { sent := [], state := cl, exit := MessagePhaseExit.exit1 "error using fgets()" }
  | cl, input_buffer :: inputs =>
    if strncmp input_buffer (ascii ".") 1 ≠ 0 then
      let message := main_sendMessage cl input_buffer
      let run := main_messagePhase message.2 inputs
      { run with sent := message.1 ++ run.sent }
    else { sent := [], state := cl, exit := MessagePhaseExit.shutDown }

/-- What a run of the client did: the buffers passed to `send`, in order, whether the
message phase was entered, and the final state. -/
structure ClientRun where
  sent : List (List Int)
  enteredMessagePhase : Bool
  state : ClientState
deriving DecidableEq, Repr

/-- Function `main` of the client from the handshake on (lines 291-495): the handshake
loop, and after it, unless the program has exited, the message phase. -/
def main (num : Nat → Int) (records inputs : List (List Int)) : ClientRun :=
  let handshake := main_handshake num 0 ClientState.start records
  match handshake.exit with
  | HandshakeExit.recvFailed =>
    { sent := handshake.sent, enteredMessagePhase := false, state := handshake.state }
  | HandshakeExit.exit1 _ =>
    { sent := handshake.sent, enteredMessagePhase := false, state := handshake.state }
  | _ =>
    let messages := main_messagePhase handshake.state inputs
    { sent := handshake.sent ++ messages.sent, enteredMessagePhase := true,
      state := messages.state }

end secure_client

/-! ## The server's session (`main` of secure_server.cpp, one accepted connection)

The records received from the client are an input of the model: the list of the complete
lines that `recv` delivers, in order. In the handshake loop the end of the list stands for
a server that has not left the loop after these lines (`main_handshakeStream` follows the
loop byte by byte, up to the failure of `recv`); in the message loop it stands for the end
of the connection. Every `send` succeeds. -/

namespace secure_server

open cstd

/-- How the handshake loop of the server ends: by `break` after a `NONCE` record was
accepted, by `break` after the diagnostic
`ERROR:  Failed to recieve a positive ACK from client`, or not yet (no record left). -/
inductive HandshakeExit where
  | nonceAccepted
  | ackFailed
  | waiting
deriving DecidableEq, Repr

/-- The block `if(strncmp(receive_buffer, "ACK", 3) == 0)` of the handshake loop
(lines 571-581): `true` when the loop is left by `break`. -/
def main_onAck (receive_buffer : List Int) : Bool :=
  if strncmp receive_buffer (ascii "ACK") 3 = 0 then
    let scanned := sscanf receive_buffer (ascii "ACK %d")
    if scanned.1 = 1 ∧ scanned.2.getD 0 0 = 226 then false
    else true
  else false

/-- The block `if(strncmp(receive_buffer, "NONCE", 5) == 0)` of the handshake loop
(lines 584-610): when `sscanf` converts an integer the nonce is decrypted, on 64-bit
`long long` values, and stored, `ACK 220` is sent and the loop is left. -/
def main_onNonce (s : ServerState) (receive_buffer : List Int) :
    List (List Int) × ServerState × Bool :=
  if strncmp receive_buffer (ascii "NONCE") 5 = 0 then
    let scanned := sscanf receive_buffer (ascii "NONCE %lld")
    if scanned.1 = 1 then
      ([ascii "ACK 220\n"], main_receiveNonce64 s (scanned.2.getD 0 0), true)
    else ([], s, false)
  else ([], s, false)

/-- What the handshake loop of the server did: the buffers sent, the state, how the loop
ended, and the records not yet read. -/
structure HandshakeRun where
  sent : List (List Int)
  state : ServerState
  exit : HandshakeExit
  unread : List (List Int)
deriving DecidableEq, Repr

/-- The handshake loop of `main` (lines 555-611) on the records received: the passes of
the loop that follow the complete lines. The exit `waiting` says that the loop has not been
left after these records; what the loop does when `recv` fails is the subject of
`main_handshakeStream`. -/
def main_handshake : ServerState → List (List Int) → HandshakeRun
  | s, [] => { sent := [], state := s, exit := HandshakeExit.waiting, unread := [] }
  | s, receive_buffer :: records =>
    if main_onAck receive_buffer then
      { sent := [], state := s, exit := HandshakeExit.ackFailed, unread := records }
    else
      match main_onNonce s receive_buffer with
      | (sent, s1, true) =>
        { sent := sent, state := s1, exit := HandshakeExit.nonceAccepted, unread := records }
      | (_, s1, false) => main_handshake s1 records

/-- What the message loop of the server did: the pairs of strings (encrypted message,
decrypted message) printed at the end-of-message markers, every character returned by
`cbc_decrypt`, in order, the two strings being built, and the state. -/
structure MessageRun where
  printed : List (List Int × List Int)
  decrypted : List Int
  encrypted_message : List Int
  decrypted_message : List Int
  state : ServerState
deriving DecidableEq, Repr

/-- The message loop of `main` (lines 627-688) on the records received. An empty record is
the end-of-message marker; any other record is scanned with `%lld` and decrypted by
`cbc_decrypt`; a record without an integer ends the loop. -/
def main_messageLoop (charSigned : Bool) :
    ServerState → List Int → List Int → List (List Int) → MessageRun
  | s, encrypted_message, decrypted_message, [] =>
    { printed := [], decrypted := [], encrypted_message := encrypted_message,
      decrypted_message := decrypted_message, state := s }
  | s, encrypted_message, decrypted_message, receive_buffer :: records =>
    if strcmp receive_buffer [] = 0 then
      let run := main_messageLoop charSigned s [] [] records
      { run with printed := (encrypted_message, decrypted_message) :: run.printed }
    else
      let scanned := sscanf receive_buffer (ascii "%lld")
      if scanned.1 = 1 then
        let encrypted_char := scanned.2.getD 0 0
        let decrypted_char := cbc_decrypt charSigned s encrypted_char
        let run := main_messageLoop charSigned decrypted_char.2
          (encrypted_message ++ printDecimal encrypted_char)
          (decrypted_message ++ [decrypted_char.1]) records
        { run with decrypted := decrypted_char.1 :: run.decrypted }
      else
        { printed := [], decrypted := [], encrypted_message := encrypted_message,
          decrypted_message := decrypted_message, state := s }

/-- What a session of the server did: the buffers passed to `send`, in order, how the
handshake loop ended, and the run of the message loop when it was entered. -/
structure SessionRun where
  sent : List (List Int)
  handshakeExit : HandshakeExit
  messages : Option MessageRun
deriving DecidableEq, Repr

/-- One iteration of the accept loop of `main` from the sending of the CA key on
(lines 523-688): the records `CA` and `PUBLIC_KEY` are sent, the handshake loop runs, and
when it has been left the message loop runs on the records that follow. -/
def main_session (charSigned : Bool) (s : ServerState) (records : List (List Int)) :
    SessionRun :=
  let ca := ascii "CA " ++ printDecimal s.eCA ++ ascii " " ++ printDecimal s.nCA ++ ascii "\n"
  let signed := main_signPublicKey s
  let publicKey := ascii "PUBLIC_KEY " ++ printDecimal signed.1 ++ ascii " " ++
    printDecimal signed.2 ++ ascii "\n"
  let handshake := main_handshake s records
  match handshake.exit with
  | HandshakeExit.waiting =>
    { sent := [ca, publicKey] ++ handshake.sent, handshakeExit := handshake.exit,
      messages := none }
  | _ =>
    { sent := [ca, publicKey] ++ handshake.sent, handshakeExit := handshake.exit,
      messages := some (main_messageLoop charSigned handshake.state [] [] handshake.unread) }

end secure_server

/-! ## The server's handshake loop on the byte stream

The record-level `main_handshake` above describes the passes of the loop that follow a
complete line. The definitions below follow the loop byte by byte (lines 555-611), with
the array `receive_buffer` as part of the state, up to the point where `recv` fails: the
inner loop is then left without a terminator being stored, the blocks run on whatever the
array holds, and the outer loop goes on. -/

namespace cstd

/-- The C string that starts at the beginning of a `char` array: the cells before the
first NUL. -/
def cString (cells : List Int) : List Int := cells.takeWhile (fun c => decide (c ≠ 0))

end cstd

namespace secure_server

open cstd

/-- The size of the array `receive_buffer` of the server. -/
def RBUFFER_SIZE : Nat := 256

/-- How the handshake loop of the server ends on a byte stream: by `break` after a `NONCE`
buffer was accepted; by `break` after the diagnostic
`ERROR:  Failed to recieve a positive ACK from client`; not at all (`neverLeft`: `recv`
fails, the blocks do not leave the loop, and every later pass finds the same array and
the same failure); or outside of the model (`overrun`: a byte is stored past the end of
the array, or the array holds no NUL when the blocks read it). -/
inductive StreamExit where
  | nonceAccepted
  | ackFailed
  | neverLeft
  | overrun
deriving DecidableEq, Repr

/-- What the handshake loop did on a byte stream: the C strings on which the blocks ran, in
order (for `neverLeft` the last one stands for all the later passes), the buffers sent,
the state, how the loop ended, the array, and the bytes not yet read. -/
structure StreamRun where
  processed : List (List Int)
  sent : List (List Int)
  state : ServerState
  exit : StreamExit
  receive_buffer : List Int
  unread : List Int
deriving DecidableEq, Repr

/-- The handshake loop of `main` (lines 555-611) on the bytes that `recv` delivers, one per
call; at the end of the list `recv` fails. The arguments are the state, the array
`receive_buffer`, the index `i` of the inner loop and the bytes. -/
def main_handshakeStream : ServerState → List Int → Nat → List Int → StreamRun
  | s, receive_buffer, _, [] =>
    if (0 : Int) ∉ receive_buffer then
      { processed := [], sent := [], state := s, exit := StreamExit.overrun,
        receive_buffer := receive_buffer, unread := [] }
    else if main_onAck (cString receive_buffer) then
      { processed := [cString receive_buffer], sent := [], state := s,
        exit := StreamExit.ackFailed, receive_buffer := receive_buffer, unread := [] }
    else
      match main_onNonce s (cString receive_buffer) with
      | (sent, s1, true) =>
        { processed := [cString receive_buffer], sent := sent, state := s1,
          exit := StreamExit.nonceAccepted, receive_buffer := receive_buffer, unread := [] }
      | (_, s1, false) =>
        { processed := [cString receive_buffer], sent := [], state := s1,
          exit := StreamExit.neverLeft, receive_buffer := receive_buffer, unread := [] }
  | s, receive_buffer, i, b :: bytes =>
    if RBUFFER_SIZE ≤ i then
      { processed := [], sent := [], state := s, exit := StreamExit.overrun,
        receive_buffer := receive_buffer, unread := b :: bytes }
    else if b = 10 then
      let terminated := receive_buffer.set i 0
      if main_onAck (cString terminated) then
        { processed := [cString terminated], sent := [], state := s,
          exit := StreamExit.ackFailed, receive_buffer := terminated, unread := bytes }
      else
        match main_onNonce s (cString terminated) with
        | (sent, s1, true) =>
          { processed := [cString terminated], sent := sent, state := s1,
            exit := StreamExit.nonceAccepted, receive_buffer := terminated, unread := bytes }
        | (_, s1, false) =>
          let run := main_handshakeStream s1 terminated 0 bytes
          { run with processed := cString terminated :: run.processed }
    else if b ≠ 13 then main_handshakeStream s (receive_buffer.set i b) (i + 1) bytes
    else main_handshakeStream s (receive_buffer.set i b) i bytes

end secure_server

/-! ## Definitions that follow the words of the specification -/

namespace secure_client

/-- The characters of `t1, ' ', t2, ' ', ..., tk` for the tokens `t1 .. tk`. -/
def messageChars : List (List Int) → List Int
  | [] => []
  | [token] => token
  | token :: next :: tokens => token ++ 32 :: messageChars (next :: tokens)

/-- The chained encryption of a sequence of characters: each character is XORed with the
current nonce, the result is raised to `eServer` modulo `nServer`, and the ciphertext
becomes the nonce. Returns the ciphertexts and the final state. -/
def chainedEncryption (cl : ClientState) : List Int → List Int × ClientState
  | [] => ([], cl)
  | c :: chars =>
    let ciphertext := repeatSquare (Int.xor c cl.nonce) cl.eServer cl.nServer
    let rest := chainedEncryption { cl with nonce := ciphertext } chars
    (ciphertext :: rest.1, rest.2)

/-- Along the chained encryption of the characters from the given nonce, every masked
value `c XOR nonce` is below the modulus `n` in absolute value. -/
def chainFits (e n : Int) : Int → List Int → Bool
  | _, [] => true
  | nonce, c :: chars =>
    decide (-n < Int.xor c nonce ∧ Int.xor c nonce < n) &&
      chainFits e n (repeatSquare (Int.xor c nonce) e n) chars

end secure_client

/-! ## Predicates and example states used in the theorems -/

namespace secure_server

/-- Loop invariant of `extended_euclidean` for the inputs `z` and `e`, at loop entry:
all four vectors have the lengths the indices assume, the last two `w` values are
combinations of `z` and `e` with the recorded coefficients, they are coprime, and the last
two `d` values alternate in sign with `w[i-1] * |d[i]| + w[i] * |d[i-1]| = z`. -/
structure EEInv (z e : Int) (v : EEVectors) : Prop where
  hi : 1 ≤ v.i
  sx : v.xValues.size = v.i + 1
  sd : v.dValues.size = v.i + 1
  sw : v.wValues.size = v.i + 1
  sk : v.kValues.size = v.i
  bez_a : v.wValues.getD (v.i - 1) 0
    = v.xValues.getD (v.i - 1) 0 * z + v.dValues.getD (v.i - 1) 0 * e
  bez_b : v.wValues.getD v.i 0 = v.xValues.getD v.i 0 * z + v.dValues.getD v.i 0 * e
  ha : 0 ≤ v.wValues.getD (v.i - 1) 0
  hb : 2 ≤ v.wValues.getD v.i 0
  cop : IsCoprime (v.wValues.getD (v.i - 1) 0) (v.wValues.getD v.i 0)
  mag : ∃ σ : Int, (σ = 1 ∨ σ = -1) ∧ 0 ≤ σ * v.dValues.getD v.i 0 ∧ σ * v.dValues.getD (v.i - 1) 0 ≤ 0 ∧
    v.wValues.getD (v.i - 1) 0 * (σ * v.dValues.getD v.i 0)
      - v.wValues.getD v.i 0 * (σ * v.dValues.getD (v.i - 1) 0) = z

/-- An RSA key `(e, d, n)` as the key setters build it: `n` is the product of two
distinct primes `p`, `q` of the range `[5000, 15000]` of `get_prime`, the public exponent
`e` is at least 5000 and coprime with `z = (p - 1) * (q - 1)`, and the private exponent
`d` lies in `(0, z)` with `e * d = 1` modulo `z`. -/
def IsKeyPair (e d n : Int) : Prop :=
  ∃ p q : ℕ, p.Prime ∧ q.Prime ∧ p ≠ q ∧ (5000 ≤ p ∧ p ≤ 15000) ∧ (5000 ≤ q ∧ q ≤ 15000) ∧
    n = (p : Int) * (q : Int) ∧ 5000 ≤ e ∧
    Int.gcd (((p : Int) - 1) * ((q : Int) - 1)) e = 1 ∧
    0 < d ∧ d < ((p : Int) - 1) * ((q : Int) - 1) ∧
    (e * d) % (((p : Int) - 1) * ((q : Int) - 1)) = 1

/-- The range of values of a `char`: `-128 .. 127` when plain `char` is signed, `0 .. 255`
otherwise. -/
def IsCharValue (charSigned : Bool) (c : Int) : Prop :=
  if charSigned then -128 ≤ c ∧ c ≤ 127 else 0 ≤ c ∧ c ≤ 255

instance (charSigned : Bool) (c : Int) : Decidable (IsCharValue charSigned c) := by
  unfold IsCharValue
  exact inferInstance

/-- The server state after `set_server_keys` when `get_prime` draws 5003 and 5009 and
`get_e` starts from 5000. -/
def exampleServerKeys : ServerState :=
  { dCA := 0, eCA := 0, nCA := 0, eServer := 5001, dServer := 17892153,
    nServer := 25060027, p := 5003, q := 5009, z := 25050016, nonce := 0 }

/-- The server state after `set_CA_Keys` run from `exampleServerKeys` when `get_prime`
draws 10007 and 10009 and `get_e` starts from 5000. -/
def exampleCAKeys : ServerState :=
  { dCA := 62585029, eCA := 5005, nCA := 100160063, eServer := 5001, dServer := 17892153,
    nServer := 25060027, p := 10007, q := 10009, z := 100140048, nonce := 0 }

/-- The server state after `set_CA_Keys` run from `exampleServerKeys` when `get_prime`
draws 5003 and 5009 again and `get_e` starts from 5000. -/
def exampleEqualModuli : ServerState :=
  { dCA := 17892153, eCA := 5001, nCA := 25060027, eServer := 5001, dServer := 17892153,
    nServer := 25060027, p := 5003, q := 5009, z := 25050016, nonce := 0 }

/-- What holds of the vectors when the loop of `extended_euclidean` stops: the last `w`
value is 1, it is the recorded combination of `z` and `e`, and twice the last `d` value
is at most `z` in absolute value. -/
structure EEFinal (z e : Int) (v : EEVectors) : Prop where
  bez : 1 = v.xValues.getD v.i 0 * z + v.dValues.getD v.i 0 * e
  lo : -z ≤ 2 * v.dValues.getD v.i 0
  hi : 2 * v.dValues.getD v.i 0 ≤ z

end secure_server

/-! ## Modular exponentiation -/

namespace secure_server

/-- Once the exponent is not positive the loop returns the accumulator. -/
theorem repeatSquareLoop_nonpos (k : Nat) (x e n y : Int) (he : e ≤ 0) :
    repeatSquareLoop k x e n y = y := by
  cases k with
  | zero => rfl
  | succ k =>
    have : ¬ e > 0 := by omega
    simp [repeatSquareLoop, this]

/-- For an even positive exponent truncated halving is exact halving. -/
theorem tdiv_two_of_pos {e : Int} (he : 0 < e) : e.tdiv 2 = e / 2 :=
  Int.tdiv_eq_ediv (by omega) (by norm_num)

/-- For a nonnegative exponent the truncated remainder is the Euclidean one. -/
theorem tmod_two_of_pos {e : Int} (he : 0 < e) : e.tmod 2 = e % 2 :=
  Int.tmod_eq_emod (by omega) (by norm_num)

/-- A budget of at least `e` iterations gives the same result as any larger one. -/
theorem repeatSquareLoop_budget (k : Nat) :
    ∀ (j : Nat) (x e n y : Int), e.toNat ≤ k →
      repeatSquareLoop (k + j) x e n y = repeatSquareLoop k x e n y := by
  induction k with
  | zero =>
    intro j x e n y h
    have he : e ≤ 0 := by omega
    rw [repeatSquareLoop_nonpos _ _ _ _ _ he, repeatSquareLoop_nonpos _ _ _ _ _ he]
  | succ k ih =>
    intro j x e n y h
    rw [show k + 1 + j = (k + j) + 1 by omega]
    by_cases he : e > 0
    · by_cases hpar : e.tmod 2 = 0
      · simp only [repeatSquareLoop, he, hpar, if_true]
        apply ih
        rw [tdiv_two_of_pos he]
        omega
      · simp only [repeatSquareLoop, he, hpar, if_true, if_false]
        apply ih
        omega
    · simp [repeatSquareLoop, he]

/-- Loop invariant of square-and-multiply on nonnegative data: the loop started with
accumulator `y` returns `y * x ^ e` reduced modulo `n` (and `y` itself when no
iteration runs). -/
theorem repeatSquareLoop_spec (k : Nat) :
    ∀ (x e n y : Int), 0 ≤ x → 0 ≤ y → 0 < n → 0 ≤ e → e.toNat ≤ k →
      repeatSquareLoop k x e n y = if e = 0 then y else (y * x ^ e.toNat) % n := by
  induction k with
  | zero =>
    intro x e n y _ _ _ he hk
    have : e = 0 := by omega
    simp [repeatSquareLoop, this]
  | succ k ih =>
    intro x e n y hx hy hn he hk
    by_cases hpos : e > 0
    · have hne : e ≠ 0 := by omega
      by_cases hpar : e.tmod 2 = 0
      · simp only [repeatSquareLoop, hpos, hpar, if_true, hne, if_false]
        have hmod : e % 2 = 0 := by rw [← tmod_two_of_pos hpos]; exact hpar
        have hxx : (x * x).tmod n = (x * x) % n :=
          Int.tmod_eq_emod (mul_nonneg hx hx) (le_of_lt hn)
        rw [tdiv_two_of_pos hpos, hxx]
        have hhalf : e / 2 ≠ 0 := by omega
        rw [ih ((x * x) % n) (e / 2) n y (Int.emod_nonneg _ (by omega)) hy hn (by omega)
          (by omega), if_neg hhalf]
        have hexp : e.toNat = 2 * (e / 2).toNat := by omega
        rw [hexp, pow_mul]
        have h1 : (x * x) % n ≡ x ^ 2 [ZMOD n] := by
          rw [pow_two]; exact Int.mod_modEq _ _
        exact (h1.pow _).mul_left y
      · simp only [repeatSquareLoop, hpos, hpar, if_true, if_false, hne]
        have hxy : (x * y).tmod n = (x * y) % n :=
          Int.tmod_eq_emod (mul_nonneg hx hy) (le_of_lt hn)
        rw [hxy, ih x (e - 1) n ((x * y) % n) hx (Int.emod_nonneg _ (by omega)) hn (by omega)
          (by omega)]
        have hexp : e.toNat = (e - 1).toNat + 1 := by omega
        by_cases h1 : e - 1 = 0
        · have : e.toNat = 1 := by omega
          rw [if_pos h1, this, pow_one, mul_comm]
        · rw [if_neg h1, hexp, pow_succ]
          have h2 : (x * y) % n * x ^ (e - 1).toNat ≡ (x * y) * x ^ (e - 1).toNat [ZMOD n] :=
            (Int.mod_modEq _ _).mul_right _
          have h3 : (x * y) * x ^ (e - 1).toNat = y * (x ^ (e - 1).toNat * x) := by ring
          rw [← h3]
          exact h2
    · have h0 : e = 0 := by omega
      simp [repeatSquareLoop, h0]

/-- On nonnegative data `repeatSquare` is modular exponentiation. -/
theorem repeatSquare_eq_pow (x e n : Int) (hx : 0 ≤ x) (he : 0 ≤ e) (hn : 2 ≤ n) :
    repeatSquare x e n = x ^ e.toNat % n := by
  unfold repeatSquare
  rw [repeatSquareLoop_spec e.toNat x e n 1 hx (by norm_num) (by omega) he le_rfl]
  by_cases h0 : e = 0
  · subst h0
    simp only [if_true, Int.toNat_zero, pow_zero]
    exact (Int.emod_eq_of_lt (by norm_num) (by omega)).symm
  · rw [if_neg h0, one_mul]

end secure_server

/-- The client's copy of the loop is the server's. -/
theorem client_repeatSquareLoop_eq (k : Nat) :
    ∀ (x e n y : Int),
      secure_client.repeatSquareLoop k x e n y = secure_server.repeatSquareLoop k x e n y := by
  induction k with
  | zero => intro x e n y; rfl
  | succ k ih =>
    intro x e n y
    simp only [secure_client.repeatSquareLoop, secure_server.repeatSquareLoop, ih]

/-- The client's copy of `repeatSquare` is the server's. -/
theorem client_repeatSquare_eq (x e n : Int) :
    secure_client.repeatSquare x e n = secure_server.repeatSquare x e n := by
  unfold secure_client.repeatSquare secure_server.repeatSquare
  exact client_repeatSquareLoop_eq _ _ _ _ _

/-- Claim C5. For every base `x ≥ 0`, exponent `e ≥ 0` and modulus `n ≥ 2`, in exact integer
arithmetic, `repeatSquare x e n` is `x ^ e mod n`; for `e = 0` it returns `1`; and the
client's copy of `repeatSquare` computes the same function as the server's. -/
theorem C5_repeatSquare_is_modular_exponentiation (x e n : Int)
    (hx : 0 ≤ x) (he : 0 ≤ e) (hn : 2 ≤ n) :
    secure_server.repeatSquare x e n = x ^ e.toNat % n ∧
    secure_server.repeatSquare x 0 n = 1 ∧
    (∀ a b m : Int, secure_client.repeatSquare a b m = secure_server.repeatSquare a b m) :=
  ⟨secure_server.repeatSquare_eq_pow x e n hx he hn, rfl, client_repeatSquare_eq⟩

/-- Witness of C5 at the textbook values: base 65, exponent 17, modulus 3233. -/
theorem C5_witness :
    ((0 : Int) ≤ 65 ∧ (0 : Int) ≤ 17 ∧ (2 : Int) ≤ 3233) ∧
    (secure_server.repeatSquare 65 17 3233 = (65 : Int) ^ (17 : Int).toNat % 3233 ∧
     secure_server.repeatSquare 65 0 3233 = 1 ∧
     (∀ a b m : Int, secure_client.repeatSquare a b m = secure_server.repeatSquare a b m)) :=
  ⟨by decide, C5_repeatSquare_is_modular_exponentiation 65 17 3233 (by decide) (by decide)
    (by decide)⟩

/-! ## Primality test -/

namespace secure_server

/-- Characterisation of the trial-division loop: it answers `true` exactly when no
candidate from `i` up to `⌊√num⌋` divides `num`. -/
theorem isPrimeLoop_iff (k : Nat) :
    ∀ (num i : Int), 2 ≤ i → 0 ≤ num → (Int.sqrt num + 1 - i).toNat ≤ k →
      (isPrimeLoop k num i = true ↔ ∀ m : Int, i ≤ m → m ≤ Int.sqrt num → ¬ m ∣ num) := by
  induction k with
  | zero =>
    intro num i _ _ hk
    have hgt : Int.sqrt num < i := by omega
    simp only [isPrimeLoop, true_iff]
    intro m h1 h2
    omega
  | succ k ih =>
    intro num i hi hnum hk
    by_cases hle : i ≤ Int.sqrt num
    · have hmod : num.tmod i = num % i := Int.tmod_eq_emod hnum (by omega)
      by_cases hdiv : num.tmod i = 0
      · simp only [isPrimeLoop, hle, hdiv, if_true]
        constructor
        · intro h; exact absurd h (by decide)
        · intro h
          exact absurd (Int.dvd_of_emod_eq_zero (hmod ▸ hdiv)) (h i le_rfl hle)
      · simp only [isPrimeLoop, hle, hdiv, if_true, if_false]
        rw [ih num (i + 1) (by omega) hnum (by omega)]
        constructor
        · intro h m h1 h2
          rcases eq_or_lt_of_le h1 with heq | hlt
          · subst heq
            intro hd
            exact hdiv (hmod ▸ Int.emod_eq_zero_of_dvd hd)
          · exact h m (by omega) h2
        · intro h m h1 h2
          exact h m (by omega) h2
    · simp only [isPrimeLoop, hle, if_false, true_iff]
      intro m h1 h2
      omega

/-- A budget covering the candidates up to `⌊√num⌋` gives the same answer as any larger
one. -/
theorem isPrimeLoop_budget (k j : Nat) (num i : Int) (hi : 2 ≤ i) (hnum : 0 ≤ num)
    (hk : (Int.sqrt num + 1 - i).toNat ≤ k) :
    isPrimeLoop (k + j) num i = isPrimeLoop k num i := by
  have h1 := isPrimeLoop_iff (k + j) num i hi hnum (by omega)
  have h2 := isPrimeLoop_iff k num i hi hnum hk
  cases hb : isPrimeLoop k num i with
  | true => exact h1.mpr (h2.mp hb)
  | false =>
    cases hc : isPrimeLoop (k + j) num i with
    | false => rfl
    | true => rw [h2.mpr (h1.mp hc)] at hb; exact absurd hb (by decide)

/-- The integer square root is at most the number. -/
theorem int_sqrt_le_self (num : Int) (h : 0 ≤ num) : Int.sqrt num ≤ num := by
  unfold Int.sqrt
  have := Nat.sqrt_le_self num.toNat
  omega

/-- For every integer, `isPrime` answers `true` exactly on the primes. -/
theorem isPrime_iff_prime (num : Int) : isPrime num = true ↔ Nat.Prime num.toNat := by
  unfold isPrime
  by_cases h1 : num ≤ 1
  · simp only [h1, if_true]
    constructor
    · intro h; exact absurd h (by decide)
    · intro h
      have := h.two_le
      omega
  · by_cases h3 : num ≤ 3
    · simp only [h1, h3, if_true, if_false, true_iff]
      have : num.toNat = 2 ∨ num.toNat = 3 := by omega
      rcases this with h | h <;> rw [h] <;> norm_num
    · simp only [h1, h3, if_false]
      have hs := int_sqrt_le_self num (by omega)
      rw [isPrimeLoop_iff num.toNat num 2 le_rfl (by omega) (by omega),
        Nat.prime_def_le_sqrt]
      have hcast : ((num.toNat : Nat) : Int) = num := Int.toNat_of_nonneg (by omega)
      constructor
      · intro h
        refine ⟨by omega, fun m hm2 hms hd => ?_⟩
        apply h (m : Int) (by exact_mod_cast hm2)
        · unfold Int.sqrt; exact_mod_cast hms
        · rw [← hcast]; exact Int.natCast_dvd_natCast.mpr hd
      · intro h m hm2 hms hd
        have hm0 : 0 ≤ m := by omega
        obtain ⟨m', rfl⟩ := Int.eq_ofNat_of_zero_le hm0
        apply h.2 m' (by exact_mod_cast hm2)
        · unfold Int.sqrt at hms; exact_mod_cast hms
        · rw [← hcast] at hd; exact Int.natCast_dvd_natCast.mp hd

end secure_server

/-- Claim C7. With the loop bound taken as `⌊√x⌋`, for every integer `x` with
`0 ≤ x ≤ 20000`, `isPrime x` is `true` if and only if `x` is prime; in particular it is
`false` for 0 and 1 and `true` for 2 and 3. -/
theorem C7_isPrime_correct_on_supported_range (x : Int) (h0 : 0 ≤ x) (h1 : x ≤ 20000) :
    (secure_server.isPrime x = true ↔ Nat.Prime x.toNat) ∧
    secure_server.isPrime 0 = false ∧ secure_server.isPrime 1 = false ∧
    secure_server.isPrime 2 = true ∧ secure_server.isPrime 3 = true :=
  ⟨secure_server.isPrime_iff_prime x, rfl, rfl, rfl, rfl⟩

/-- Witness of C7 at the prime 5003. -/
theorem C7_witness :
    ((0 : Int) ≤ 5003 ∧ (5003 : Int) ≤ 20000) ∧
    ((secure_server.isPrime 5003 = true ↔ Nat.Prime (5003 : Int).toNat) ∧
     secure_server.isPrime 0 = false ∧ secure_server.isPrime 1 = false ∧
     secure_server.isPrime 2 = true ∧ secure_server.isPrime 3 = true) :=
  ⟨by decide, C7_isPrime_correct_on_supported_range 5003 (by decide) (by decide)⟩

/-! ## Extended Euclidean algorithm -/

namespace secure_server

/-- Reading an old position after `push_back`. -/
theorem getD_push_lt (a : Array Int) (x : Int) (i : Nat) (h : i < a.size) :
    (a.push x).getD i 0 = a.getD i 0 := by
  simp [Array.getD, Array.getElem_push, h, Nat.lt_succ_of_lt h]

/-- Reading the position just written by `push_back`. -/
theorem getD_push_size (a : Array Int) (x : Int) (n : Nat) (h : n = a.size) :
    (a.push x).getD n 0 = x := by
  subst h
  simp [Array.getD]

/-- The entries of the vectors after one pass of the loop body, under the length
invariant: the window `(w[i-1], w[i])` moves to `(w[i], w[i-1] - k * w[i])`, likewise
for `x` and `d`. -/
theorem extended_euclideanStep_entries (v : EEVectors) (hi : 1 ≤ v.i)
    (sx : v.xValues.size = v.i + 1) (sd : v.dValues.size = v.i + 1)
    (sw : v.wValues.size = v.i + 1) (sk : v.kValues.size = v.i) :
    (extended_euclideanStep v).i = v.i + 1 ∧
    (extended_euclideanStep v).xValues.size = v.i + 2 ∧
    (extended_euclideanStep v).dValues.size = v.i + 2 ∧
    (extended_euclideanStep v).wValues.size = v.i + 2 ∧
    (extended_euclideanStep v).kValues.size = v.i + 1 ∧
    (extended_euclideanStep v).wValues.getD v.i 0 = v.wValues.getD v.i 0 ∧
    (extended_euclideanStep v).xValues.getD v.i 0 = v.xValues.getD v.i 0 ∧
    (extended_euclideanStep v).dValues.getD v.i 0 = v.dValues.getD v.i 0 ∧
    (extended_euclideanStep v).wValues.getD (v.i + 1) 0 = v.wValues.getD (v.i - 1) 0
      - (v.wValues.getD (v.i - 1) 0).tdiv (v.wValues.getD v.i 0) * v.wValues.getD v.i 0 ∧
    (extended_euclideanStep v).xValues.getD (v.i + 1) 0 = v.xValues.getD (v.i - 1) 0
      - (v.wValues.getD (v.i - 1) 0).tdiv (v.wValues.getD v.i 0) * v.xValues.getD v.i 0 ∧
    (extended_euclideanStep v).dValues.getD (v.i + 1) 0 = v.dValues.getD (v.i - 1) 0
      - (v.wValues.getD (v.i - 1) 0).tdiv (v.wValues.getD v.i 0) * v.dValues.getD v.i 0 := by
  have hk : (v.kValues.push ((v.wValues.getD (v.i - 1) 0).tdiv (v.wValues.getD v.i 0))).getD
      (v.i + 1 - 1) 0 = (v.wValues.getD (v.i - 1) 0).tdiv (v.wValues.getD v.i 0) :=
    getD_push_size _ _ _ (by omega)
  have h2 : v.i + 1 - 2 = v.i - 1 := by omega
  have h1 : v.i + 1 - 1 = v.i := by omega
  refine ⟨rfl, ?_, ?_, ?_, ?_, ?_, ?_, ?_, ?_, ?_, ?_⟩
  · show (v.xValues.push _).size = _
    rw [Array.size_push, sx]
  · show (v.dValues.push _).size = _
    rw [Array.size_push, sd]
  · show (v.wValues.push _).size = _
    rw [Array.size_push, sw]
  · show (v.kValues.push _).size = _
    rw [Array.size_push, sk]
  · show (v.wValues.push _).getD v.i 0 = _
    exact getD_push_lt _ _ _ (by omega)
  · show (v.xValues.push _).getD v.i 0 = _
    exact getD_push_lt _ _ _ (by omega)
  · show (v.dValues.push _).getD v.i 0 = _
    exact getD_push_lt _ _ _ (by omega)
  · show (v.wValues.push _).getD (v.i + 1) 0 = _
    rw [getD_push_size _ _ _ (by omega), hk, h2, h1]
  · show (v.xValues.push _).getD (v.i + 1) 0 = _
    rw [getD_push_size _ _ _ (by omega), hk, h2, h1]
  · show (v.dValues.push _).getD (v.i + 1) 0 = _
    rw [getD_push_size _ _ _ (by omega), hk, h2, h1]

/-- One pass of the loop body from a state satisfying the invariant: the new last `w`
value is the remainder of the previous two, it is positive and smaller than the previous
one, and the new state either satisfies the stopping condition with `EEFinal`, or
satisfies the invariant again. -/
theorem extended_euclideanStep_inv (z e : Int) (v : EEVectors) (h : EEInv z e v) :
    1 ≤ (extended_euclideanStep v).wValues.getD (v.i + 1) 0 ∧
    (extended_euclideanStep v).wValues.getD (v.i + 1) 0 < v.wValues.getD v.i 0 ∧
    ((extended_euclideanStep v).wValues.getD (v.i + 1) 0 = 1 →
      EEFinal z e (extended_euclideanStep v)) ∧
    ((extended_euclideanStep v).wValues.getD (v.i + 1) 0 ≠ 1 →
      EEInv z e (extended_euclideanStep v)) := by
  obtain ⟨hi1, hsx, hsd, hsw, hsk, hwi, hxi, hdi, hw, hx, hd⟩ :=
    extended_euclideanStep_entries v h.hi h.sx h.sd h.sw h.sk
  have hidx : v.i + 1 - 1 = v.i := by omega
  obtain ⟨σ, hσ, hs1, hs2, hs3⟩ := h.mag
  -- abbreviations for the window
  generalize ha' : v.wValues.getD (v.i - 1) 0 = a at *
  generalize hb' : v.wValues.getD v.i 0 = b at *
  generalize hxa' : v.xValues.getD (v.i - 1) 0 = xa at *
  generalize hxb' : v.xValues.getD v.i 0 = xb at *
  generalize hda' : v.dValues.getD (v.i - 1) 0 = da at *
  generalize hdb' : v.dValues.getD v.i 0 = db at *
  have hapos := h.ha
  have hbpos := h.hb
  have hbez_a := h.bez_a
  have hbez_b := h.bez_b
  have hcop := h.cop
  rw [ha'] at hapos hbez_a hcop
  rw [hb'] at hbpos hbez_b hcop
  rw [hxa', hda'] at hbez_a
  rw [hxb', hdb'] at hbez_b
  have hk : a.tdiv b = a / b := Int.tdiv_eq_ediv hapos (by omega)
  have hk0 : 0 ≤ a / b := Int.ediv_nonneg hapos (by omega)
  have hr : a - a / b * b = a % b := by
    have := Int.ediv_add_emod a b
    linarith [mul_comm b (a / b)]
  rw [hk, hr] at hw
  rw [hk] at hx hd
  have hr0 : 0 ≤ a % b := Int.emod_nonneg a (by omega)
  have hrlt : a % b < b := Int.emod_lt_of_pos a (by omega)
  have hcop1 : IsCoprime b (a % b) := by
    have h1 : IsCoprime (a + b * (-(a / b))) b := hcop.add_mul_left_left _
    have h2 : a + b * (-(a / b)) = a % b := by linarith
    rw [h2] at h1
    exact h1.symm
  have hrne : a % b ≠ 0 := by
    intro h0
    rw [h0, isCoprime_zero_right, Int.isUnit_iff] at hcop1
    omega
  have hbez1 : a % b = (xa - a / b * xb) * z + (da - a / b * db) * e := by
    rw [← hr, hbez_a, hbez_b]; ring
  have hmag1 : 0 ≤ -σ * (da - a / b * db) := by
    have : 0 ≤ a / b * (σ * db) := mul_nonneg hk0 hs1
    nlinarith
  have hmag2 : -σ * db ≤ 0 := by linarith
  have hmag3 : b * (-σ * (da - a / b * db)) - a % b * (-σ * db) = z := by
    rw [← hr, ← hs3]; ring
  have hσ1 : (-σ = 1 ∨ -σ = -1) := by omega
  refine ⟨?_, ?_, ?_, ?_⟩
  · rw [hw]; omega
  · rw [hw]; exact hrlt
  · intro hone
    rw [hw] at hone
    rw [hone] at hmag3
    have hb2 : 2 * (-σ * (da - a / b * db)) ≤ b * (-σ * (da - a / b * db)) :=
      mul_le_mul_of_nonneg_right hbpos hmag1
    have hD : 2 * (-σ * (da - a / b * db)) ≤ z := by linarith
    refine ⟨?_, ?_, ?_⟩
    · rw [hi1, hx, hd, ← hone]; exact hbez1
    · rw [hi1, hd]
      rcases hσ1 with h1 | h1 <;> rw [h1] at hmag1 hD <;> linarith
    · rw [hi1, hd]
      rcases hσ1 with h1 | h1 <;> rw [h1] at hmag1 hD <;> linarith
  · intro hne
    rw [hw] at hne
    refine ⟨by rw [hi1]; omega, by rw [hi1, hsx], by rw [hi1, hsd], by rw [hi1, hsw],
      by rw [hi1, hsk], ?_, ?_, ?_, ?_, ?_, ?_⟩
    · rw [hi1, hidx, hwi, hxi, hdi]; exact hbez_b
    · rw [hi1, hw, hx, hd]; exact hbez1
    · rw [hi1, hidx, hwi]; omega
    · rw [hi1, hw]; omega
    · rw [hi1, hidx, hwi, hw]; exact hcop1
    · refine ⟨-σ, hσ1, ?_, ?_, ?_⟩
      · rw [hi1, hd]; exact hmag1
      · rw [hi1, hidx, hdi]; exact hmag2
      · rw [hi1, hidx, hwi, hw, hd, hdi]; exact hmag3

/-- From a state satisfying the invariant the loop returns only states satisfying
`EEFinal`, and it does return one when the fuel is at least the last `w` value. -/
theorem extended_euclideanLoop_spec (z e : Int) (fuel : Nat) :
    ∀ v : EEVectors, EEInv z e v →
      (∀ v1, extended_euclideanLoop fuel v = some v1 → EEFinal z e v1) ∧
      ((v.wValues.getD v.i 0).toNat ≤ fuel → ∃ v1, extended_euclideanLoop fuel v = some v1) := by
  induction fuel with
  | zero =>
    intro v h
    refine ⟨fun v1 hv => ?_, fun hle => ?_⟩
    · simp [extended_euclideanLoop] at hv
    · have := h.hb
      omega
  | succ fuel ih =>
    intro v h
    obtain ⟨hpos, hlt, hfin, hinv⟩ := extended_euclideanStep_inv z e v h
    have hb := h.hb
    have hne : ¬ v.wValues.getD v.i 0 = 0 := by omega
    have hstep : extended_euclideanLoop (fuel + 1) v =
        if (extended_euclideanStep v).wValues.getD (v.i + 1) 0 = 1 then
          some (extended_euclideanStep v)
        else extended_euclideanLoop fuel (extended_euclideanStep v) := by
      rw [extended_euclideanLoop, if_neg hne]
      rfl
    rw [hstep]
    by_cases hone : (extended_euclideanStep v).wValues.getD (v.i + 1) 0 = 1
    · rw [if_pos hone]
      refine ⟨fun v1 hv => ?_, fun _ => ⟨_, rfl⟩⟩
      have : extended_euclideanStep v = v1 := Option.some.inj hv
      rw [← this]
      exact hfin hone
    · rw [if_neg hone]
      obtain ⟨ih1, ih2⟩ := ih (extended_euclideanStep v) (hinv hone)
      refine ⟨ih1, fun hle => ih2 ?_⟩
      have : (extended_euclideanStep v).i = v.i + 1 := rfl
      rw [this]
      omega

/-- More fuel does not change a value returned by the loop of `extended_euclidean`. -/
theorem extended_euclideanLoop_mono (f : Nat) :
    ∀ (g : Nat) (v r : EEVectors), f ≤ g → extended_euclideanLoop f v = some r →
      extended_euclideanLoop g v = some r := by
  induction f with
  | zero => intro g v r _ h; simp [extended_euclideanLoop] at h
  | succ f ih =>
    intro g v r hfg h
    obtain ⟨g, rfl⟩ : ∃ g1, g = g1 + 1 := ⟨g - 1, by omega⟩
    rw [extended_euclideanLoop] at h ⊢
    by_cases h0 : v.wValues.getD v.i 0 = 0
    · rw [if_pos h0] at h; exact absurd h (by simp)
    · rw [if_neg h0] at h ⊢
      by_cases h1 : (extended_euclideanStep v).wValues.getD (extended_euclideanStep v).i 0 = 1
      · simp only [h1, if_true] at h ⊢
        exact h
      · simp only [h1, if_false] at h ⊢
        exact ih g _ r (by omega) h

/-- More fuel does not change a value returned by `extended_euclidean`, so the value
returned does not depend on the fuel. -/
theorem extended_euclidean_fuel (f g : Nat) (z e d1 d2 : Int)
    (h1 : extended_euclidean f z e = some d1) (h2 : extended_euclidean g z e = some d2) :
    d1 = d2 := by
  unfold extended_euclidean at h1 h2
  cases hf : extended_euclideanLoop f ⟨#[1, 0], #[0, 1], #[0], #[z, e], 1⟩ with
  | none => rw [hf] at h1; exact absurd h1 (by simp)
  | some v1 =>
    cases hg : extended_euclideanLoop g ⟨#[1, 0], #[0, 1], #[0], #[z, e], 1⟩ with
    | none => rw [hg] at h2; exact absurd h2 (by simp)
    | some v2 =>
      have e1 := extended_euclideanLoop_mono f (max f g) _ _ (le_max_left _ _) hf
      have e2 := extended_euclideanLoop_mono g (max f g) _ _ (le_max_right _ _) hg
      have hv : v1 = v2 := Option.some.inj (e1.symm.trans e2)
      rw [hf] at h1
      rw [hg] at h2
      subst hv
      exact Option.some.inj (h1.symm.trans h2)

/-- The vectors at the start of `extended_euclidean` satisfy the invariant when `z ≥ 0`,
`e ≥ 2` and the two are coprime. -/
theorem extended_euclidean_init (z e : Int) (hz : 0 ≤ z) (he : 2 ≤ e) (hcop : IsCoprime z e) :
    EEInv z e ⟨#[1, 0], #[0, 1], #[0], #[z, e], 1⟩ := by
  refine ⟨le_rfl, rfl, rfl, rfl, rfl, ?_, ?_, ?_, ?_, ?_, ⟨1, Or.inl rfl, ?_, ?_, ?_⟩⟩
  · show z = 1 * z + 0 * e
    ring
  · show e = 0 * z + 1 * e
    ring
  · exact hz
  · exact he
  · exact hcop
  · show (0 : Int) ≤ 1 * 1
    norm_num
  · show (1 : Int) * 0 ≤ 0
    norm_num
  · show z * (1 * 1) - e * (1 * 0) = z
    ring

/-- The extended Euclidean algorithm on coprime `z ≥ 2` and `e ≥ 2`: every value it
returns is the inverse of `e` modulo `z` in the range `(0, z)`, and it returns a value
whenever the fuel is at least `e`. -/
theorem extended_euclidean_spec (z e : Int) (hz : 2 ≤ z) (he : 2 ≤ e) (hcop : IsCoprime z e) :
    (∀ fuel d, extended_euclidean fuel z e = some d → 0 < d ∧ d < z ∧ (e * d) % z = 1) ∧
    (∀ fuel, e.toNat ≤ fuel → ∃ d, extended_euclidean fuel z e = some d) := by
  have hinit := extended_euclidean_init z e (by omega) he hcop
  constructor
  · intro fuel d hd
    unfold extended_euclidean at hd
    cases hloop : extended_euclideanLoop fuel ⟨#[1, 0], #[0, 1], #[0], #[z, e], 1⟩ with
    | none => rw [hloop] at hd; exact absurd hd (by simp)
    | some v =>
      rw [hloop] at hd
      have hfin := (extended_euclideanLoop_spec z e fuel _ hinit).1 v hloop
      obtain ⟨hbez, hlo, hhi⟩ := hfin
      simp only [Option.some.injEq] at hd
      generalize v.dValues.getD v.i 0 = d0 at hd hbez hlo hhi
      generalize v.xValues.getD v.i 0 = x0 at hbez
      have hd0 : d0 ≠ 0 := by
        intro h0
        rw [h0] at hbez
        have hdvd : z ∣ 1 := ⟨x0, by linarith⟩
        have := Int.le_of_dvd (by norm_num) hdvd
        omega
      have hone : (1 : Int) % z = 1 := Int.emod_eq_of_lt (by norm_num) (by omega)
      by_cases hneg : d0 < 0
      · rw [if_pos hneg] at hd
        subst hd
        refine ⟨by omega, by omega, ?_⟩
        have : e * (d0 + z) = 1 + z * (e - x0) := by linarith
        rw [this, Int.add_mul_emod_self_left, hone]
      · rw [if_neg hneg] at hd
        subst hd
        refine ⟨by omega, by omega, ?_⟩
        have : e * d0 = 1 + z * (-x0) := by linarith
        rw [this, Int.add_mul_emod_self_left, hone]
  · intro fuel hfuel
    obtain ⟨v, hv⟩ := (extended_euclideanLoop_spec z e fuel _ hinit).2 hfuel
    exact ⟨_, by unfold extended_euclidean; rw [hv]⟩

end secure_server

/-- Claim C6. For every `z > 1` and every `e` with `1 < e < z` and `gcd(e, z) = 1`,
`extended_euclidean(e)` terminates (it returns a value once the fuel reaches `e`) and the
value `d` it returns satisfies `0 < d < z` and `(e * d) mod z = 1`. -/
theorem C6_extended_euclidean_modular_inverse (z e : Int)
    (hz : 1 < z) (he1 : 1 < e) (hez : e < z) (hgcd : Int.gcd e z = 1) :
    ∃ d, secure_server.extended_euclidean e.toNat z e = some d ∧
      (∀ fuel d1, secure_server.extended_euclidean fuel z e = some d1 → d1 = d) ∧
      0 < d ∧ d < z ∧ (e * d) % z = 1 := by
  have hcop : IsCoprime z e := (Int.isCoprime_iff_gcd_eq_one.mpr hgcd).symm
  obtain ⟨hpart, htot⟩ := secure_server.extended_euclidean_spec z e (by omega) (by omega) hcop
  obtain ⟨d, hd⟩ := htot e.toNat le_rfl
  refine ⟨d, hd, ?_, hpart _ _ hd⟩
  intro fuel d1 hd1
  exact secure_server.extended_euclidean_fuel _ _ z e d1 d hd1 hd

/-- Witness of C6 at the textbook values `z = 3120`, `e = 17`. -/
theorem C6_witness :
    ((1 : Int) < 3120 ∧ (1 : Int) < 17 ∧ (17 : Int) < 3120 ∧ Int.gcd 17 3120 = 1) ∧
    ∃ d, secure_server.extended_euclidean (17 : Int).toNat 3120 17 = some d ∧
      (∀ fuel d1, secure_server.extended_euclidean fuel 3120 17 = some d1 → d1 = d) ∧
      0 < d ∧ d < 3120 ∧ (17 * d) % 3120 = 1 :=
  ⟨by decide, C6_extended_euclidean_modular_inverse 3120 17 (by decide) (by decide)
    (by decide) (by decide)⟩

/-! ## Euclid's algorithm and the search for the public exponent -/

namespace secure_server

/-- Euclid's loop on a nonnegative dividend and a positive divisor, with fuel at least the
divisor: it returns `true` exactly when the two are coprime. -/
theorem euclideanLoop_natCast (fuel : Nat) :
    ∀ (a b : Nat), 0 < b → b ≤ fuel →
      euclideanLoop fuel (a : Int) (b : Int) = some (decide (Nat.gcd a b = 1)) := by
  induction fuel with
  | zero => intro a b hb hle; omega
  | succ fuel ih =>
    intro a b hb hle
    have hb0 : ¬ ((b : Int) = 0) := by exact_mod_cast (by omega : b ≠ 0)
    have hrem : (a : Int).tmod (b : Int) = ((a % b : Nat) : Int) := (Int.ofNat_tmod a b).symm
    rw [euclideanLoop, if_neg hb0]
    simp only [hrem]
    by_cases h0 : a % b = 0
    · have hdvd : b ∣ a := Nat.dvd_of_mod_eq_zero h0
      have hg : Nat.gcd a b = b := Nat.gcd_eq_right hdvd
      have hc : ((a % b : Nat) : Int) = 0 := by exact_mod_cast h0
      rw [if_pos hc]
      congr 1
      by_cases hb1 : b = 1
      · subst hb1; simp
      · have : ¬ ((b : Int) = 1) := by exact_mod_cast hb1
        simp [hb1, this, hc, hg]
    · have hc : ¬ (((a % b : Nat) : Int) = 0) := by exact_mod_cast h0
      rw [if_neg hc]
      have hlt := Nat.mod_lt a hb
      rw [ih b (a % b) (Nat.pos_of_ne_zero h0) (by omega)]
      congr 2
      rw [Nat.gcd_comm b (a % b), ← Nat.gcd_rec, Nat.gcd_comm]

/-- More fuel does not change a value returned by Euclid's loop. -/
theorem euclideanLoop_mono (f : Nat) :
    ∀ (g : Nat) (a b : Int) (r : Bool), f ≤ g → euclideanLoop f a b = some r →
      euclideanLoop g a b = some r := by
  induction f with
  | zero => intro g a b r _ h; simp [euclideanLoop] at h
  | succ f ih =>
    intro g a b r hfg h
    obtain ⟨g, rfl⟩ : ∃ g1, g = g1 + 1 := ⟨g - 1, by omega⟩
    rw [euclideanLoop] at h ⊢
    by_cases h0 : b = 0
    · rw [if_pos h0] at h; exact absurd h (by simp)
    · rw [if_neg h0] at h ⊢
      by_cases h1 : a.tmod b = 0
      · simp only [h1, if_true] at h ⊢
        exact h
      · simp only [h1, if_false] at h ⊢
        exact ih g _ _ r (by omega) h

/-- Function `euclidean` on `z ≥ 0` and a positive candidate: with fuel at least the
candidate it returns whether the two are coprime. -/
theorem euclidean_eq (fuel : Nat) (z c : Int) (hz : 0 ≤ z) (hc : 0 < c) (hf : c.toNat ≤ fuel) :
    euclidean fuel z c = some (decide (Int.gcd z c = 1)) := by
  obtain ⟨a, rfl⟩ := Int.eq_ofNat_of_zero_le hz
  obtain ⟨b, rfl⟩ := Int.eq_ofNat_of_zero_le (le_of_lt hc)
  unfold euclidean
  rw [euclideanLoop_natCast fuel a b (by exact_mod_cast hc) (by simpa using hf),
    Int.gcd_natCast_natCast]

/-- Whatever the fuel, a value returned by `euclidean` on `z ≥ 0` and a positive candidate
says whether the two are coprime. -/
theorem euclidean_some (fuel : Nat) (z c : Int) (r : Bool) (hz : 0 ≤ z) (hc : 0 < c)
    (h : euclidean fuel z c = some r) : r = decide (Int.gcd z c = 1) := by
  have h1 := euclideanLoop_mono fuel (max fuel c.toNat) z c r (le_max_left _ _) h
  have h2 := euclidean_eq (max fuel c.toNat) z c hz hc (le_max_right _ _)
  unfold euclidean at h2
  exact Option.some.inj (h1.symm.trans h2)

/-- A value returned by the search loop of `get_e` is at least the starting candidate and
was accepted by `euclidean`. -/
theorem get_eLoop_some (fuel : Nat) :
    ∀ (p q z n c e : Int), get_eLoop fuel p q z n c = some e →
      c ≤ e ∧ ∃ f, euclidean f z e = some true := by
  induction fuel with
  | zero => intro p q z n c e h; simp [get_eLoop] at h
  | succ fuel ih =>
    intro p q z n c e h
    rw [get_eLoop] at h
    by_cases hg : c < n ∨ (c ≠ q ∧ c ≠ p)
    · rw [if_pos hg] at h
      cases he : euclidean fuel z c with
      | none => rw [he] at h; exact absurd h (by simp)
      | some b =>
        rw [he] at h
        cases b with
        | true =>
          have : c = e := Option.some.inj h
          subst this
          exact ⟨le_rfl, fuel, he⟩
        | false =>
          obtain ⟨h1, h2⟩ := ih p q z n (c + 1) e h
          exact ⟨by omega, h2⟩
    · rw [if_neg hg] at h
      obtain ⟨h1, h2⟩ := ih p q z n (c + 1) e h
      exact ⟨by omega, h2⟩

/-- More fuel does not change a value returned by the search loop of `get_e`. -/
theorem get_eLoop_mono (f : Nat) :
    ∀ (g : Nat) (p q z n c e : Int), f ≤ g → get_eLoop f p q z n c = some e →
      get_eLoop g p q z n c = some e := by
  induction f with
  | zero => intro g p q z n c e _ h; simp [get_eLoop] at h
  | succ f ih =>
    intro g p q z n c e hfg h
    obtain ⟨g, rfl⟩ : ∃ g1, g = g1 + 1 := ⟨g - 1, by omega⟩
    rw [get_eLoop] at h ⊢
    by_cases hg : c < n ∨ (c ≠ q ∧ c ≠ p)
    · rw [if_pos hg] at h ⊢
      cases he : euclidean f z c with
      | none => rw [he] at h; exact absurd h (by simp)
      | some b =>
        rw [he] at h
        have he1 : euclidean g z c = some b := euclideanLoop_mono f g z c b (by omega) he
        rw [he1]
        cases b with
        | true => exact h
        | false => exact ih g p q z n (c + 1) e (by omega) h
    · rw [if_neg hg] at h ⊢
      exact ih g p q z n (c + 1) e (by omega) h

/-- The search of `get_e` when the guard `local_e < local_n || (local_e != q && local_e != p)`
holds of every candidate: if `c + t` is the first candidate from `c` on that is coprime
with `z`, the loop returns it, given enough fuel. -/
theorem get_eLoop_first_coprime (p q z n : Int) (hz : 0 ≤ z)
    (hguard : ∀ c : Int, c < n ∨ (c ≠ q ∧ c ≠ p)) (t : Nat) :
    ∀ (fuel : Nat) (c : Int), 0 < c →
      (∀ j : Nat, j < t → Int.gcd z (c + j) ≠ 1) → Int.gcd z (c + t) = 1 →
      t + (c + t).toNat + 1 ≤ fuel →
      get_eLoop fuel p q z n c = some (c + t) := by
  induction t with
  | zero =>
    intro fuel c hc _ hco hf
    obtain ⟨fuel, rfl⟩ : ∃ f1, fuel = f1 + 1 := ⟨fuel - 1, by omega⟩
    have hco0 : Int.gcd z c = 1 := by simpa using hco
    rw [get_eLoop, if_pos (hguard c), euclidean_eq fuel z c hz hc (by omega)]
    simp [hco0]
  | succ t ih =>
    intro fuel c hc hnot hco hf
    obtain ⟨fuel, rfl⟩ : ∃ f1, fuel = f1 + 1 := ⟨fuel - 1, by omega⟩
    have hn0 : Int.gcd z c ≠ 1 := by simpa using hnot 0 (by omega)
    rw [get_eLoop, if_pos (hguard c), euclidean_eq fuel z c hz hc (by omega)]
    simp only [hn0, decide_False]
    have hcast : c + ((t + 1 : Nat) : Int) = (c + 1) + (t : Int) := by push_cast; ring
    rw [hcast] at hco hf ⊢
    apply ih fuel (c + 1) (by omega) _ hco (by omega)
    intro j hj
    have := hnot (j + 1) (by omega)
    have hc2 : c + ((j + 1 : Nat) : Int) = c + 1 + (j : Int) := by push_cast; ring
    rwa [hc2] at this

/-- From every positive candidate on there is a value coprime with `z ≥ 1`. -/
theorem exists_coprime_from (z c : Int) (hz : 1 ≤ z) (hc : 0 < c) :
    ∃ t : Nat, Int.gcd z (c + t) = 1 := by
  obtain ⟨a, rfl⟩ := Int.eq_ofNat_of_zero_le (by omega : 0 ≤ z)
  obtain ⟨b, rfl⟩ := Int.eq_ofNat_of_zero_le (le_of_lt hc)
  have ha : 1 ≤ a := by exact_mod_cast hz
  refine ⟨a * b + 1 - b, ?_⟩
  have hle : b ≤ a * b + 1 := by nlinarith
  have : (b : Int) + ((a * b + 1 - b : Nat) : Int) = ((a * b + 1 : Nat) : Int) := by
    push_cast [Nat.cast_sub hle]; ring
  rw [this, Int.gcd_natCast_natCast, Nat.gcd_mul_left_add_right]
  exact Nat.gcd_one_right a

/-- Termination of `get_e` under the guard: for `z ≥ 1` and a positive seed the search
returns the first candidate coprime with `z`. -/
theorem get_e_returns (p q z n seed : Int) (hz : 1 ≤ z) (hs : 0 < seed)
    (hguard : ∀ c : Int, c < n ∨ (c ≠ q ∧ c ≠ p)) :
    ∃ (fuel : Nat) (t : Nat), get_e fuel p q z n seed = some (seed + t) ∧
      Int.gcd z (seed + t) = 1 ∧ ∀ j : Nat, j < t → Int.gcd z (seed + j) ≠ 1 := by
  classical
  have hex := exists_coprime_from z seed hz hs
  refine ⟨Nat.find hex + (seed + (Nat.find hex : Nat)).toNat + 1, Nat.find hex, ?_,
    Nat.find_spec hex, fun j hj => Nat.find_min hex hj⟩
  exact get_eLoop_first_coprime p q z n (by omega) hguard _ _ seed hs
    (fun j hj => Nat.find_min hex hj) (Nat.find_spec hex) le_rfl

end secure_server

/-! ## RSA round trip -/

/-- Fermat's little theorem in the form used for RSA: raising to a power that is
`1` modulo `r - 1` fixes every residue modulo the prime `r`. -/
theorem pow_one_add_mul_pred_modEq (r x s : ℕ) (hr : r.Prime) :
    x ^ (1 + (r - 1) * s) ≡ x [MOD r] := by
  by_cases hdvd : r ∣ x
  · have h0 : x ≡ 0 [MOD r] := (Nat.modEq_zero_iff_dvd).mpr hdvd
    have h1 : x ^ (1 + (r - 1) * s) ≡ 0 [MOD r] := by
      apply (Nat.modEq_zero_iff_dvd).mpr
      exact Dvd.dvd.trans hdvd (dvd_pow_self x (by omega))
    exact h1.trans h0.symm
  · have hcop : x.Coprime r := ((Nat.Prime.coprime_iff_not_dvd hr).mpr hdvd).symm
    have hf : x ^ (r - 1) ≡ 1 [MOD r] := by
      have := Nat.ModEq.pow_totient hcop
      rwa [Nat.totient_prime hr] at this
    have h2 : (x ^ (r - 1)) ^ s ≡ 1 [MOD r] := by
      have := hf.pow s
      rwa [one_pow] at this
    have h3 : x ^ (1 + (r - 1) * s) = x * (x ^ (r - 1)) ^ s := by
      rw [pow_add, pow_one, pow_mul]
    rw [h3]
    have := h2.mul_left x
    rwa [mul_one] at this

/-- Correctness of RSA for a modulus that is the product of two distinct primes: if
`e * d` is `1` modulo `(p - 1) * (q - 1)` then `x ^ (e * d)` is `x` modulo `p * q`,
for every `x`. -/
theorem rsa_pow_modEq (p q e d x : ℕ) (hp : p.Prime) (hq : q.Prime) (hpq : p ≠ q)
    (hed : e * d % ((p - 1) * (q - 1)) = 1) :
    x ^ (e * d) ≡ x [MOD p * q] := by
  have hk : e * d = 1 + (p - 1) * (q - 1) * (e * d / ((p - 1) * (q - 1))) := by
    have := Nat.mod_add_div (e * d) ((p - 1) * (q - 1))
    rw [hed] at this
    exact this.symm
  have hcop : p.Coprime q := (Nat.coprime_primes hp hq).mpr hpq
  apply (Nat.modEq_and_modEq_iff_modEq_mul hcop).mp
  constructor
  · rw [hk, mul_assoc]
    exact pow_one_add_mul_pred_modEq p x _ hp
  · rw [hk, mul_comm (p - 1) (q - 1), mul_assoc]
    exact pow_one_add_mul_pred_modEq q x _ hq

namespace secure_server

/-- Encrypting with `e` and then decrypting with `d` returns every `x` of `[0, n)`, for
`n = p * q` with distinct primes `p`, `q` and `e * d` equal to `1` modulo
`(p - 1) * (q - 1)`. -/
theorem repeatSquare_round_trip (p q : ℕ) (e d x : Int) (hp : p.Prime) (hq : q.Prime)
    (hpq : p ≠ q) (he : 0 ≤ e) (hd : 0 ≤ d)
    (hed : (e * d) % (((p : Int) - 1) * ((q : Int) - 1)) = 1)
    (hx0 : 0 ≤ x) (hxn : x < (p : Int) * (q : Int)) :
    repeatSquare (repeatSquare x e ((p : Int) * (q : Int))) d ((p : Int) * (q : Int)) = x := by
  have hp2 := hp.two_le
  have hq2 := hq.two_le
  have hn : (2 : Int) ≤ (p : Int) * (q : Int) := by
    have : 2 * 2 ≤ p * q := Nat.mul_le_mul hp2 hq2
    have h4 : ((2 * 2 : Nat) : Int) ≤ ((p * q : Nat) : Int) := by exact_mod_cast this
    push_cast at h4
    omega
  obtain ⟨e', rfl⟩ := Int.eq_ofNat_of_zero_le he
  obtain ⟨d', rfl⟩ := Int.eq_ofNat_of_zero_le hd
  obtain ⟨x', rfl⟩ := Int.eq_ofNat_of_zero_le hx0
  have hed' : e' * d' % ((p - 1) * (q - 1)) = 1 := by
    have h1 : ((p : Int) - 1) = ((p - 1 : Nat) : Int) := by
      rw [Nat.cast_sub (by omega)]; rfl
    have h2 : ((q : Int) - 1) = ((q - 1 : Nat) : Int) := by
      rw [Nat.cast_sub (by omega)]; rfl
    rw [h1, h2] at hed
    exact_mod_cast hed
  have hrsa := rsa_pow_modEq p q e' d' x' hp hq hpq hed'
  rw [repeatSquare_eq_pow _ _ _ (Int.natCast_nonneg x') (Int.natCast_nonneg e') hn]
  have hc0 : (0 : Int) ≤ (x' : Int) ^ (e' : Int).toNat % ((p : Int) * (q : Int)) :=
    Int.emod_nonneg _ (by omega)
  rw [repeatSquare_eq_pow _ _ _ hc0 (Int.natCast_nonneg d') hn]
  simp only [Int.toNat_ofNat]
  have h1 : ((x' : Int) ^ e' % ((p : Int) * (q : Int))) ^ d' ≡ ((x' : Int) ^ e') ^ d'
      [ZMOD (p : Int) * (q : Int)] := (Int.mod_modEq _ _).pow _
  rw [h1, ← pow_mul]
  have h2 : ((x' ^ (e' * d') : Nat) : Int) % ((p * q : Nat) : Int) =
      ((x' : Nat) : Int) % ((p * q : Nat) : Int) := by
    rw [← Int.natCast_mod, ← Int.natCast_mod]
    exact_mod_cast hrsa
  push_cast at h2
  rw [h2]
  exact Int.emod_eq_of_lt (Int.natCast_nonneg x') hxn

end secure_server

namespace secure_server

/-- More fuel does not change a value returned by `extended_euclidean`. -/
theorem extended_euclidean_mono (f g : Nat) (z e d : Int) (hfg : f ≤ g)
    (h : extended_euclidean f z e = some d) : extended_euclidean g z e = some d := by
  unfold extended_euclidean at h ⊢
  cases hf : extended_euclideanLoop f ⟨#[1, 0], #[0, 1], #[0], #[z, e], 1⟩ with
  | none => rw [hf] at h; exact absurd h (by simp)
  | some v =>
    rw [hf] at h
    rw [extended_euclideanLoop_mono f g _ v hfg hf]
    exact h

/-- The truncated remainder is odd in the dividend. -/
theorem neg_tmod (a b : Int) : (-a).tmod b = -(a.tmod b) := by
  rw [Int.tmod_def, Int.tmod_def, Int.neg_tdiv]; ring

/-- Negating the accumulator negates the result of the loop. -/
theorem repeatSquareLoop_neg_acc (k : Nat) :
    ∀ (x e n y : Int), repeatSquareLoop k x e n (-y) = -repeatSquareLoop k x e n y := by
  induction k with
  | zero => intro x e n y; rfl
  | succ k ih =>
    intro x e n y
    by_cases hpos : e > 0
    · by_cases hpar : e.tmod 2 = 0
      · simp only [repeatSquareLoop, hpos, hpar, if_true]
        exact ih _ _ _ _
      · simp only [repeatSquareLoop, hpos, hpar, if_true, if_false]
        rw [mul_neg, neg_tmod]
        exact ih _ _ _ _
    · simp [repeatSquareLoop, hpos]

/-- With an even exponent the sign of the base does not matter. -/
theorem repeatSquareLoop_neg_base_even (k : Nat) (x e n y : Int) (hpar : e.tmod 2 = 0) :
    repeatSquareLoop k (-x) e n y = repeatSquareLoop k x e n y := by
  cases k with
  | zero => rfl
  | succ k =>
    by_cases hpos : e > 0
    · simp only [repeatSquareLoop, hpos, hpar, if_true, neg_mul_neg]
    · simp [repeatSquareLoop, hpos]

/-- With an odd positive exponent `repeatSquare` is an odd function of the base. -/
theorem repeatSquare_neg_base_odd (x e n : Int) (hpos : 0 < e) (hodd : e % 2 = 1) :
    repeatSquare (-x) e n = -repeatSquare x e n := by
  unfold repeatSquare
  obtain ⟨k, hk⟩ : ∃ k, e.toNat = k + 1 := ⟨e.toNat - 1, by omega⟩
  have hpar : ¬ e.tmod 2 = 0 := by rw [tmod_two_of_pos hpos]; omega
  have hpar1 : (e - 1).tmod 2 = 0 := by
    rw [Int.tmod_eq_emod (by omega) (by norm_num)]; omega
  rw [hk]
  simp only [repeatSquareLoop, hpos, hpar, gt_iff_lt, if_true, if_false]
  rw [neg_mul, neg_tmod, repeatSquareLoop_neg_acc, repeatSquareLoop_neg_base_even _ _ _ _ _ hpar1]

/-- The round trip for every `x` with `|x| < n`, negative ones included, when both
exponents are odd. -/
theorem repeatSquare_round_trip_abs (p q : ℕ) (e d x : Int) (hp : p.Prime) (hq : q.Prime)
    (hpq : p ≠ q) (he : 0 < e) (hd : 0 < d) (heo : e % 2 = 1) (hdo : d % 2 = 1)
    (hed : (e * d) % (((p : Int) - 1) * ((q : Int) - 1)) = 1)
    (hx0 : -((p : Int) * (q : Int)) < x) (hxn : x < (p : Int) * (q : Int)) :
    repeatSquare (repeatSquare x e ((p : Int) * (q : Int))) d ((p : Int) * (q : Int)) = x := by
  by_cases hneg : x < 0
  · have hx : x = -(-x) := by ring
    rw [hx, repeatSquare_neg_base_odd _ _ _ he heo, repeatSquare_neg_base_odd _ _ _ hd hdo,
      repeatSquare_round_trip p q e d (-x) hp hq hpq (le_of_lt he) (le_of_lt hd) hed
        (by omega) (by omega)]
  · exact repeatSquare_round_trip p q e d x hp hq hpq (le_of_lt he) (le_of_lt hd) hed
      (by omega) hxn

/-- The totient `(p - 1) * (q - 1)` of two primes of the generator's range is at least 2,
and both primes are below their product. -/
theorem key_range_facts (p q : ℕ) (hpr : 5000 ≤ p) (hqr : 5000 ≤ q) :
    (2 : Int) ≤ ((p : Int) - 1) * ((q : Int) - 1) ∧
    (p : Int) < (p : Int) * (q : Int) ∧ (q : Int) < (p : Int) * (q : Int) := by
  have h1 : (5000 : Int) ≤ (p : Int) := by exact_mod_cast hpr
  have h2 : (5000 : Int) ≤ (q : Int) := by exact_mod_cast hqr
  refine ⟨by nlinarith, by nlinarith, by nlinarith⟩

/-- What `get_e` and `extended_euclidean` return for a totient `z ≥ 2` and a seed of at
least 2: a public exponent `e ≥ seed` coprime with `z` and its inverse `d` modulo `z`. -/
theorem exponents_spec (p q z n seed e d : Int) (f1 f2 : Nat) (hz : 2 ≤ z) (hs : 2 ≤ seed)
    (h1 : get_e f1 p q z n seed = some e) (h2 : extended_euclidean f2 z e = some d) :
    seed ≤ e ∧ Int.gcd z e = 1 ∧ 0 < d ∧ d < z ∧ (e * d) % z = 1 := by
  obtain ⟨hle, f, hf⟩ := get_eLoop_some f1 p q z n seed e h1
  have hg := euclidean_some f z e true (by omega) (by omega) hf
  have hgcd : Int.gcd z e = 1 := by simpa using hg.symm
  have hcop : IsCoprime z e := Int.isCoprime_iff_gcd_eq_one.mpr hgcd
  have := (extended_euclidean_spec z e hz (by omega) hcop).1 f2 d h2
  exact ⟨hle, hgcd, this⟩

end secure_server

/-- Claim C1. For all distinct primes `p`, `q` of `[5000, 15000]`, with `n = p * q` and
`z = (p - 1) * (q - 1)`, and every seed of `[5000, 10000]`: `get_e` returns an exponent `e`
and `extended_euclidean(e)` returns a `d`; and for every `e` returned by `get_e` and
`d` returned by `extended_euclidean(e)`,
`repeatSquare(repeatSquare(x, e, n), d, n) = x` for every `x` with `0 ≤ x < n`. -/
theorem C1_rsa_round_trip (p q : ℕ) (seed : Int) (hp : p.Prime) (hq : q.Prime) (hpq : p ≠ q)
    (hpr : 5000 ≤ p ∧ p ≤ 15000) (hqr : 5000 ≤ q ∧ q ≤ 15000)
    (hseed : 5000 ≤ seed ∧ seed ≤ 10000) :
    (∃ fuel e d,
      secure_server.get_e fuel p q (((p : Int) - 1) * ((q : Int) - 1)) ((p : Int) * q) seed
        = some e ∧
      secure_server.extended_euclidean fuel (((p : Int) - 1) * ((q : Int) - 1)) e = some d) ∧
    (∀ f1 f2 e d,
      secure_server.get_e f1 p q (((p : Int) - 1) * ((q : Int) - 1)) ((p : Int) * q) seed
        = some e →
      secure_server.extended_euclidean f2 (((p : Int) - 1) * ((q : Int) - 1)) e = some d →
      ∀ x : Int, 0 ≤ x → x < (p : Int) * q →
        secure_server.repeatSquare (secure_server.repeatSquare x e ((p : Int) * q)) d
          ((p : Int) * q) = x) := by
  obtain ⟨hz, hpn, hqn⟩ := secure_server.key_range_facts p q hpr.1 hqr.1
  have hguard : ∀ c : Int, c < (p : Int) * q ∨ (c ≠ (q : Int) ∧ c ≠ (p : Int)) := by
    intro c
    by_cases hc : c < (p : Int) * q
    · exact Or.inl hc
    · exact Or.inr ⟨by omega, by omega⟩
  constructor
  · obtain ⟨f1, t, hget, hco, _⟩ := secure_server.get_e_returns p q
      (((p : Int) - 1) * ((q : Int) - 1)) ((p : Int) * q) seed (by omega) (by omega) hguard
    have hcop : IsCoprime (((p : Int) - 1) * ((q : Int) - 1)) (seed + t) :=
      Int.isCoprime_iff_gcd_eq_one.mpr hco
    obtain ⟨d, hd⟩ := (secure_server.extended_euclidean_spec _ (seed + t) hz (by omega) hcop).2
      (seed + t).toNat le_rfl
    refine ⟨max f1 (seed + t).toNat, seed + t, d, ?_, ?_⟩
    · exact secure_server.get_eLoop_mono f1 _ _ _ _ _ _ _ (le_max_left _ _) hget
    · exact secure_server.extended_euclidean_mono _ _ _ _ _ (le_max_right _ _) hd
  · intro f1 f2 e d h1 h2 x hx0 hxn
    obtain ⟨hle, _, hd0, _, hed⟩ :=
      secure_server.exponents_spec _ _ _ _ _ _ _ f1 f2 hz (by omega) h1 h2
    exact secure_server.repeatSquare_round_trip p q e d x hp hq hpq (by omega) (by omega) hed
      hx0 hxn

/-- Witness of C1 at `p = 5003`, `q = 5009`, seed 5000. -/
theorem C1_witness :
    (Nat.Prime 5003 ∧ Nat.Prime 5009 ∧ (5003 : ℕ) ≠ 5009 ∧
      (5000 ≤ 5003 ∧ 5003 ≤ 15000) ∧ (5000 ≤ 5009 ∧ 5009 ≤ 15000) ∧
      ((5000 : Int) ≤ 5000 ∧ (5000 : Int) ≤ 10000)) ∧
    ((∃ fuel e d,
      secure_server.get_e fuel (5003 : ℕ) (5009 : ℕ)
        ((((5003 : ℕ) : Int) - 1) * (((5009 : ℕ) : Int) - 1))
        (((5003 : ℕ) : Int) * (5009 : ℕ)) 5000 = some e ∧
      secure_server.extended_euclidean fuel
        ((((5003 : ℕ) : Int) - 1) * (((5009 : ℕ) : Int) - 1)) e = some d) ∧
    (∀ f1 f2 e d,
      secure_server.get_e f1 (5003 : ℕ) (5009 : ℕ)
        ((((5003 : ℕ) : Int) - 1) * (((5009 : ℕ) : Int) - 1))
        (((5003 : ℕ) : Int) * (5009 : ℕ)) 5000 = some e →
      secure_server.extended_euclidean f2
        ((((5003 : ℕ) : Int) - 1) * (((5009 : ℕ) : Int) - 1)) e = some d →
      ∀ x : Int, 0 ≤ x → x < ((5003 : ℕ) : Int) * (5009 : ℕ) →
        secure_server.repeatSquare
          (secure_server.repeatSquare x e (((5003 : ℕ) : Int) * (5009 : ℕ))) d
          (((5003 : ℕ) : Int) * (5009 : ℕ)) = x)) :=
  ⟨⟨by norm_num, by norm_num, by decide, by decide, by decide, by decide⟩,
   C1_rsa_round_trip 5003 5009 5000 (by norm_num) (by norm_num) (by decide) (by decide)
     (by decide) (by decide)⟩

/-! ## Key generation -/

namespace secure_server

/-- A value returned by `get_prime` passed `isPrime`, was one of the draws, and the draws
left over are among the given ones. -/
theorem get_prime_some :
    ∀ (draws : List Int) (r : Int) (rest : List Int), get_prime draws = some (r, rest) →
      isPrime r = true ∧ r ∈ draws ∧ ∀ y ∈ rest, y ∈ draws := by
  intro draws
  induction draws with
  | nil => intro r rest h; simp [get_prime] at h
  | cons a tl ih =>
    intro r rest h
    rw [get_prime] at h
    by_cases ha : isPrime a = true
    · rw [if_pos ha] at h
      simp only [Option.some.injEq, Prod.mk.injEq] at h
      obtain ⟨rfl, rfl⟩ := h
      exact ⟨ha, List.mem_cons_self _ _, fun y hy => List.mem_cons_of_mem _ hy⟩
    · rw [if_neg ha] at h
      obtain ⟨h1, h2, h3⟩ := ih r rest h
      exact ⟨h1, List.mem_cons_of_mem _ h2, fun y hy => List.mem_cons_of_mem _ (h3 y hy)⟩

/-- A first draw that is prime is what `get_prime` returns. -/
theorem get_prime_cons_prime (r : Int) (rest : List Int) (h : isPrime r = true) :
    get_prime (r :: rest) = some (r, rest) := by
  rw [get_prime, if_pos h]

/-- A value returned by the loop `while(p == q)` differs from `p`; it is the given `q` or
a prime among the draws; and the draws left over are among the given ones. -/
theorem redrawWhileEqual_some (fuel : Nat) :
    ∀ (p q : Int) (draws : List Int) (q1 : Int) (rest : List Int),
      redrawWhileEqual fuel p q draws = some (q1, rest) →
      p ≠ q1 ∧ (q1 = q ∨ (isPrime q1 = true ∧ q1 ∈ draws)) ∧ ∀ y ∈ rest, y ∈ draws := by
  induction fuel with
  | zero => intro p q draws q1 rest h; simp [redrawWhileEqual] at h
  | succ fuel ih =>
    intro p q draws q1 rest h
    rw [redrawWhileEqual] at h
    by_cases hpq : p = q
    · rw [if_pos hpq] at h
      cases hg : get_prime draws with
      | none => rw [hg] at h; exact absurd h (by simp)
      | some pr =>
        obtain ⟨q2, d2⟩ := pr
        rw [hg] at h
        obtain ⟨g1, g2, g3⟩ := get_prime_some draws q2 d2 hg
        obtain ⟨h1, h2, h3⟩ := ih p q2 d2 q1 rest h
        refine ⟨h1, Or.inr ?_, fun y hy => g3 y (h3 y hy)⟩
        rcases h2 with rfl | ⟨h4, h5⟩
        · exact ⟨g1, g2⟩
        · exact ⟨h4, g3 _ h5⟩
    · rw [if_neg hpq] at h
      simp only [Option.some.injEq, Prod.mk.injEq] at h
      obtain ⟨rfl, rfl⟩ := h
      exact ⟨hpq, Or.inl rfl, fun y hy => hy⟩

/-- More fuel does not change a value returned by the loop `while(p == q)`. -/
theorem redrawWhileEqual_mono (f : Nat) :
    ∀ (g : Nat) (p q : Int) (draws : List Int) (r : Int × List Int), f ≤ g →
      redrawWhileEqual f p q draws = some r → redrawWhileEqual g p q draws = some r := by
  induction f with
  | zero => intro g p q draws r _ h; simp [redrawWhileEqual] at h
  | succ f ih =>
    intro g p q draws r hfg h
    obtain ⟨g, rfl⟩ : ∃ g1, g = g1 + 1 := ⟨g - 1, by omega⟩
    rw [redrawWhileEqual] at h ⊢
    by_cases hpq : p = q
    · rw [if_pos hpq] at h ⊢
      cases hg : get_prime draws with
      | none => rw [hg] at h; exact absurd h (by simp)
      | some pr =>
        rw [hg] at h
        exact ih g p pr.1 pr.2 r (by omega) h
    · rw [if_neg hpq] at h ⊢
      exact h

/-- The three draws of a key setter, `p = get_prime()`, `q = get_prime()` and the loop
`while(p == q)`, give two distinct primes of the range of the distribution. -/
theorem two_primes_spec (fuel : Nat) (draws d1 d2 d3 : List Int) (p q q1 : Int)
    (hr : ∀ y ∈ draws, 5000 ≤ y ∧ y ≤ 15000)
    (h1 : get_prime draws = some (p, d1)) (h2 : get_prime d1 = some (q, d2))
    (h3 : redrawWhileEqual fuel p q d2 = some (q1, d3)) :
    (∃ a b : ℕ, a.Prime ∧ b.Prime ∧ a ≠ b ∧ (5000 ≤ a ∧ a ≤ 15000) ∧ (5000 ≤ b ∧ b ≤ 15000) ∧
      p = (a : Int) ∧ q1 = (b : Int)) ∧ ∀ y ∈ d3, y ∈ draws := by
  obtain ⟨p1, p2, p3⟩ := get_prime_some draws p d1 h1
  obtain ⟨q2, q3, q4⟩ := get_prime_some d1 q d2 h2
  obtain ⟨r1, r2, r3⟩ := redrawWhileEqual_some fuel p q d2 q1 d3 h3
  have hq1 : isPrime q1 = true ∧ q1 ∈ draws := by
    rcases r2 with rfl | ⟨h4, h5⟩
    · exact ⟨q2, p3 _ q3⟩
    · exact ⟨h4, p3 _ (q4 _ h5)⟩
  have hpr := hr p p2
  have hqr := hr q1 hq1.2
  refine ⟨⟨p.toNat, q1.toNat, (isPrime_iff_prime p).mp p1, (isPrime_iff_prime q1).mp hq1.1,
    by omega, by omega, by omega, by omega, by omega⟩, fun y hy => p3 _ (q4 _ (r3 _ hy))⟩

/-- Function `set_server_keys` with draws and seed in the ranges of their distributions:
the state it returns holds an RSA key in `eServer`, `dServer`, `nServer`, and the CA
fields and the nonce are unchanged. -/
theorem set_server_keys_spec (fuel : Nat) (draws rest : List Int) (seed : Int)
    (s s1 : ServerState) (hr : ∀ y ∈ draws, 5000 ≤ y ∧ y ≤ 15000) (hs : 5000 ≤ seed)
    (h : set_server_keys fuel draws seed s = some (s1, rest)) :
    IsKeyPair s1.eServer s1.dServer s1.nServer ∧
    s1.eCA = s.eCA ∧ s1.dCA = s.dCA ∧ s1.nCA = s.nCA ∧ s1.nonce = s.nonce ∧
    ∀ y ∈ rest, y ∈ draws := by
  unfold set_server_keys at h
  cases h1 : get_prime draws with
  | none => rw [h1] at h; exact absurd h (by simp)
  | some pr1 =>
    obtain ⟨p, d1⟩ := pr1
    rw [h1] at h
    simp only at h
    cases h2 : get_prime d1 with
    | none => rw [h2] at h; exact absurd h (by simp)
    | some pr2 =>
      obtain ⟨q, d2⟩ := pr2
      rw [h2] at h
      simp only at h
      cases h3 : redrawWhileEqual fuel p q d2 with
      | none => rw [h3] at h; exact absurd h (by simp)
      | some pr3 =>
        obtain ⟨q1, d3⟩ := pr3
        rw [h3] at h
        simp only at h
        obtain ⟨⟨a, b, ha, hb, hab, har, hbr, rfl, rfl⟩, hsub⟩ :=
          two_primes_spec fuel draws d1 d2 d3 p q q1 hr h1 h2 h3
        cases h4 : get_e fuel a b (((a : Int) - 1) * ((b : Int) - 1)) ((a : Int) * b) seed with
        | none => rw [h4] at h; exact absurd h (by simp)
        | some e =>
          rw [h4] at h
          simp only at h
          cases h5 : extended_euclidean fuel (((a : Int) - 1) * ((b : Int) - 1)) e with
          | none => rw [h5] at h; exact absurd h (by simp)
          | some d =>
            rw [h5] at h
            simp only [Option.some.injEq, Prod.mk.injEq] at h
            obtain ⟨rfl, rfl⟩ := h
            obtain ⟨hz, _, _⟩ := key_range_facts a b har.1 hbr.1
            obtain ⟨e1, e2, e3, e4, e5⟩ :=
              exponents_spec _ _ _ _ _ _ _ fuel fuel hz (by omega) h4 h5
            exact ⟨⟨a, b, ha, hb, hab, har, hbr, rfl, le_trans hs e1, e2, e3, e4, e5⟩,
              rfl, rfl, rfl, rfl, hsub⟩

end secure_server

namespace secure_server

/-- The loop `while(nCA < nServer)` of `set_CA_Keys`: if it is entered at least once, or
if `p`, `q` and `nCA` already hold two distinct primes of the range and their product,
then on exit they do, `nCA` is not below `nServer`, and the other fields are unchanged. -/
theorem set_CA_KeysLoop_spec (fuel : Nat) :
    ∀ (draws rest : List Int) (s s1 : ServerState),
      (∀ y ∈ draws, 5000 ≤ y ∧ y ≤ 15000) →
      (s.nCA < s.nServer ∨
        ∃ a b : ℕ, a.Prime ∧ b.Prime ∧ a ≠ b ∧ (5000 ≤ a ∧ a ≤ 15000) ∧
          (5000 ≤ b ∧ b ≤ 15000) ∧ s.p = (a : Int) ∧ s.q = (b : Int) ∧
          s.nCA = (a : Int) * (b : Int)) →
      set_CA_KeysLoop fuel draws s = some (s1, rest) →
      (∃ a b : ℕ, a.Prime ∧ b.Prime ∧ a ≠ b ∧ (5000 ≤ a ∧ a ≤ 15000) ∧
          (5000 ≤ b ∧ b ≤ 15000) ∧ s1.p = (a : Int) ∧ s1.q = (b : Int) ∧
          s1.nCA = (a : Int) * (b : Int)) ∧
      s1.nServer ≤ s1.nCA ∧
      s1.eServer = s.eServer ∧ s1.dServer = s.dServer ∧ s1.nServer = s.nServer ∧
      s1.nonce = s.nonce ∧ s1.eCA = s.eCA ∧ s1.dCA = s.dCA ∧ ∀ y ∈ rest, y ∈ draws := by
  induction fuel with
  | zero => intro draws rest s s1 _ _ h; simp [set_CA_KeysLoop] at h
  | succ fuel ih =>
    intro draws rest s s1 hr hpre h
    rw [set_CA_KeysLoop] at h
    by_cases hlt : s.nCA < s.nServer
    · rw [if_pos hlt] at h
      cases h1 : get_prime draws with
      | none => rw [h1] at h; exact absurd h (by simp)
      | some pr1 =>
        obtain ⟨p, d1⟩ := pr1
        rw [h1] at h
        simp only at h
        cases h2 : get_prime d1 with
        | none => rw [h2] at h; exact absurd h (by simp)
        | some pr2 =>
          obtain ⟨q, d2⟩ := pr2
          rw [h2] at h
          simp only at h
          cases h3 : redrawWhileEqual fuel p q d2 with
          | none => rw [h3] at h; exact absurd h (by simp)
          | some pr3 =>
            obtain ⟨q1, d3⟩ := pr3
            rw [h3] at h
            simp only at h
            obtain ⟨⟨a, b, ha, hb, hab, har, hbr, rfl, rfl⟩, hsub⟩ :=
              two_primes_spec fuel draws d1 d2 d3 p q q1 hr h1 h2 h3
            obtain ⟨g1, g2, g3, g4, g5, g6, g7, g8, g9⟩ :=
              ih d3 rest _ s1 (fun y hy => hr y (hsub y hy))
                (Or.inr ⟨a, b, ha, hb, hab, har, hbr, rfl, rfl, rfl⟩) h
            exact ⟨g1, g2, g3, g4, g5, g6, g7, g8, fun y hy => hsub y (g9 y hy)⟩
    · rw [if_neg hlt] at h
      simp only [Option.some.injEq, Prod.mk.injEq] at h
      obtain ⟨rfl, rfl⟩ := h
      rcases hpre with hpre | hpre
      · exact absurd hpre hlt
      · exact ⟨hpre, by omega, rfl, rfl, rfl, rfl, rfl, rfl, fun y hy => hy⟩

/-- Function `set_CA_Keys` when called with `nCA < nServer`, as `main` does, with draws and
seed in the ranges of their distributions: the state it returns holds an RSA key in `eCA`,
`dCA`, `nCA`, the modulus `nCA` is not below `nServer`, and the server key and the nonce are
unchanged. -/
theorem set_CA_Keys_spec (fuel : Nat) (draws rest : List Int) (seed : Int)
    (s s1 : ServerState) (hr : ∀ y ∈ draws, 5000 ≤ y ∧ y ≤ 15000) (hs : 5000 ≤ seed)
    (hlt : s.nCA < s.nServer)
    (h : set_CA_Keys fuel draws seed s = some (s1, rest)) :
    IsKeyPair s1.eCA s1.dCA s1.nCA ∧ s1.nServer ≤ s1.nCA ∧
    s1.eServer = s.eServer ∧ s1.dServer = s.dServer ∧ s1.nServer = s.nServer ∧
    s1.nonce = s.nonce ∧ ∀ y ∈ rest, y ∈ draws := by
  unfold set_CA_Keys at h
  cases h1 : set_CA_KeysLoop fuel draws s with
  | none => rw [h1] at h; exact absurd h (by simp)
  | some pr1 =>
    obtain ⟨s2, d1⟩ := pr1
    rw [h1] at h
    simp only at h
    obtain ⟨⟨a, b, ha, hb, hab, har, hbr, hp, hq, hn⟩, g2, g3, g4, g5, g6, _, _, g9⟩ :=
      set_CA_KeysLoop_spec fuel draws d1 s s2 hr (Or.inl hlt) h1
    rw [hp, hq, hn] at h
    cases h4 : get_e fuel a b (((a : Int) - 1) * ((b : Int) - 1)) ((a : Int) * b) seed with
    | none => rw [h4] at h; exact absurd h (by simp)
    | some e =>
      rw [h4] at h
      simp only at h
      cases h5 : extended_euclidean fuel (((a : Int) - 1) * ((b : Int) - 1)) e with
      | none => rw [h5] at h; exact absurd h (by simp)
      | some d =>
        rw [h5] at h
        simp only [Option.some.injEq, Prod.mk.injEq] at h
        obtain ⟨rfl, rfl⟩ := h
        obtain ⟨hz, _, _⟩ := key_range_facts a b har.1 hbr.1
        obtain ⟨e1, e2, e3, e4, e5⟩ :=
          exponents_spec _ _ _ _ _ _ _ fuel fuel hz (by omega) h4 h5
        have hle : s2.nServer ≤ (a : Int) * (b : Int) := hn ▸ g2
        exact ⟨⟨a, b, ha, hb, hab, har, hbr, rfl, le_trans hs e1, e2, e3, e4, e5⟩,
          hle, g3, g4, g5, g6, g9⟩

/-- The primes of the generator's range are odd. -/
theorem prime_range_odd (p : ℕ) (hp : p.Prime) (hr : 5000 ≤ p) : p % 2 = 1 := by
  rcases hp.eq_two_or_odd with h | h
  · omega
  · exact h

/-- Both exponents of an RSA key are odd and positive, and its modulus is at least 2. -/
theorem IsKeyPair.odd {e d n : Int} (h : IsKeyPair e d n) :
    0 < e ∧ 0 < d ∧ e % 2 = 1 ∧ d % 2 = 1 ∧ 2 ≤ n := by
  obtain ⟨p, q, hp, hq, hpq, hpr, hqr, hn, he, hgcd, hd0, hdz, hed⟩ := h
  have hp2 : ((p : Int) - 1) % 2 = 0 := by
    have := prime_range_odd p hp hpr.1
    omega
  have h2z : (2 : Int) ∣ ((p : Int) - 1) * ((q : Int) - 1) :=
    Dvd.dvd.mul_right (Int.dvd_of_emod_eq_zero hp2) _
  have heo : e % 2 = 1 := by
    by_contra hne
    have h2e : (2 : Int) ∣ e := Int.dvd_of_emod_eq_zero (by omega)
    have := Int.dvd_gcd h2z h2e
    rw [hgcd] at this
    have := Int.le_of_dvd (by norm_num) this
    omega
  have hdo : d % 2 = 1 := by
    have h1 : (e * d) % 2 = 1 := by
      have := Int.emod_emod_of_dvd (e * d) h2z
      rw [hed] at this
      omega
    by_contra hne
    have h0 : d % 2 = 0 := by omega
    rw [Int.mul_emod, h0] at h1
    simp at h1
  obtain ⟨_, hpn, _⟩ := key_range_facts p q hpr.1 hqr.1
  refine ⟨by omega, hd0, heo, hdo, ?_⟩
  rw [hn]
  have : (5000 : Int) ≤ (p : Int) := by exact_mod_cast hpr.1
  omega

/-- Private-key operation after public-key operation: returns every `x` with `|x| < n`. -/
theorem IsKeyPair.round_trip {e d n : Int} (h : IsKeyPair e d n) (x : Int)
    (hx0 : -n < x) (hxn : x < n) : repeatSquare (repeatSquare x e n) d n = x := by
  obtain ⟨he, hd, heo, hdo, _⟩ := h.odd
  obtain ⟨p, q, hp, hq, hpq, hpr, hqr, hn, _, hgcd, hd0, hdz, hed⟩ := h
  subst hn
  exact repeatSquare_round_trip_abs p q e d x hp hq hpq he hd heo hdo hed hx0 hxn

/-- Public-key operation after private-key operation (signing, then verifying): returns
every `x` with `|x| < n`. -/
theorem IsKeyPair.round_trip_sign {e d n : Int} (h : IsKeyPair e d n) (x : Int)
    (hx0 : -n < x) (hxn : x < n) : repeatSquare (repeatSquare x d n) e n = x := by
  obtain ⟨he, hd, heo, hdo, _⟩ := h.odd
  obtain ⟨p, q, hp, hq, hpq, hpr, hqr, hn, _, hgcd, hd0, hdz, hed⟩ := h
  subst hn
  rw [mul_comm] at hed
  exact repeatSquare_round_trip_abs p q d e x hp hq hpq hd he hdo heo hed hx0 hxn

end secure_server

/-! ## Running the key setters on given draws -/

namespace secure_server

/-- Function `set_server_keys` on draws that start with two distinct primes `p`, `q`: it
returns the state holding them, the exponent found by `get_e` and its inverse. -/
theorem set_server_keys_eval (fuel : Nat) (p q seed e d : Int) (rest : List Int)
    (s : ServerState) (hp : isPrime p = true) (hq : isPrime q = true) (hpq : p ≠ q)
    (he : get_e (fuel + 1) p q ((p - 1) * (q - 1)) (p * q) seed = some e)
    (hd : extended_euclidean (fuel + 1) ((p - 1) * (q - 1)) e = some d) :
    set_server_keys (fuel + 1) (p :: q :: rest) seed s =
      some ({ s with p := p, q := q, nServer := p * q, z := (p - 1) * (q - 1),
                     eServer := e, dServer := d }, rest) := by
  have hredraw : redrawWhileEqual (fuel + 1) p q rest = some (q, rest) := by
    rw [redrawWhileEqual, if_neg hpq]
  unfold set_server_keys
  rw [get_prime_cons_prime _ _ hp]
  simp only
  rw [get_prime_cons_prime _ _ hq]
  simp only [hredraw, he, hd]

/-- Function `set_CA_Keys` called with `nCA < nServer` on draws that start with two distinct
primes `p`, `q` whose product is not below `nServer`: the loop runs once and the state
returned holds `p`, `q`, their product, the exponent found by `get_e` and its inverse. -/
theorem set_CA_Keys_eval (fuel : Nat) (p q seed e d : Int) (rest : List Int)
    (s : ServerState) (hlt : s.nCA < s.nServer) (hp : isPrime p = true)
    (hq : isPrime q = true) (hpq : p ≠ q) (hge : ¬ p * q < s.nServer)
    (he : get_e (fuel + 2) p q ((p - 1) * (q - 1)) (p * q) seed = some e)
    (hd : extended_euclidean (fuel + 2) ((p - 1) * (q - 1)) e = some d) :
    set_CA_Keys (fuel + 2) (p :: q :: rest) seed s =
      some ({ s with p := p, q := q, nCA := p * q, z := (p - 1) * (q - 1),
                     eCA := e, dCA := d }, rest) := by
  have hredraw : redrawWhileEqual (fuel + 1) p q rest = some (q, rest) := by
    rw [redrawWhileEqual, if_neg hpq]
  have hloop : set_CA_KeysLoop (fuel + 2) (p :: q :: rest) s =
      some ({ s with p := p, q := q, nCA := p * q }, rest) := by
    rw [set_CA_KeysLoop, if_pos hlt, get_prime_cons_prime _ _ hp]
    simp only
    rw [get_prime_cons_prime _ _ hq]
    simp only [hredraw]
    rw [set_CA_KeysLoop, if_neg hge]
  unfold set_CA_Keys
  rw [hloop]
  simp only [he, hd]

/-- The draw 5003 is accepted by `isPrime`. -/
theorem isPrime_5003 : isPrime 5003 = true := (isPrime_iff_prime 5003).mpr (by show Nat.Prime 5003; norm_num)

/-- The draw 5009 is accepted by `isPrime`. -/
theorem isPrime_5009 : isPrime 5009 = true := (isPrime_iff_prime 5009).mpr (by show Nat.Prime 5009; norm_num)

/-- The draw 10007 is accepted by `isPrime`. -/
theorem isPrime_10007 : isPrime 10007 = true := (isPrime_iff_prime 10007).mpr (by show Nat.Prime 10007; norm_num)

/-- The draw 10009 is accepted by `isPrime`. -/
theorem isPrime_10009 : isPrime 10009 = true := (isPrime_iff_prime 10009).mpr (by show Nat.Prime 10009; norm_num)

/-- The run of `set_server_keys` behind `exampleServerKeys`. -/
theorem set_server_keys_example (s : ServerState) (rest : List Int) :
    set_server_keys 100 (5003 :: 5009 :: rest) 5000 s =
      some ({ s with p := 5003, q := 5009, nServer := 25060027, z := 25050016,
                     eServer := 5001, dServer := 17892153 }, rest) :=
  set_server_keys_eval 99 5003 5009 5000 5001 17892153 rest s isPrime_5003 isPrime_5009
    (by decide) (by decide) (by decide)

/-- Function `main_setKeys` is `set_server_keys` from the initial state followed by
`set_CA_Keys`. -/
theorem main_setKeys_of_steps (fuel : Nat) (draws rest rest2 : List Int)
    (seedServer seedCA : Int) (s1 s2 : ServerState)
    (h1 : set_server_keys fuel draws seedServer ServerState.start = some (s1, rest))
    (h2 : set_CA_Keys fuel rest seedCA s1 = some (s2, rest2)) :
    main_setKeys fuel draws seedServer seedCA = some (s2, rest2) := by
  unfold main_setKeys
  rw [h1]
  exact h2

/-- The run of `set_CA_Keys` behind `exampleCAKeys`. -/
theorem set_CA_Keys_example :
    set_CA_Keys 100 [10007, 10009] 5000 exampleServerKeys = some (exampleCAKeys, []) :=
  set_CA_Keys_eval 98 10007 10009 5000 5005 62585029 [] exampleServerKeys (by decide)
    isPrime_10007 isPrime_10009 (by decide) (by decide) (by decide) (by decide)

/-- The run of `set_CA_Keys` behind `exampleEqualModuli`. -/
theorem set_CA_Keys_example_equal :
    set_CA_Keys 100 [5003, 5009] 5000 exampleServerKeys = some (exampleEqualModuli, []) :=
  set_CA_Keys_eval 98 5003 5009 5000 5001 17892153 [] exampleServerKeys (by decide)
    isPrime_5003 isPrime_5009 (by decide) (by decide) (by decide) (by decide)

end secure_server

namespace secure_server

/-- More fuel does not change a value returned by `get_e`. -/
theorem get_e_mono (f g : Nat) (p q z n seed e : Int) (hfg : f ≤ g)
    (h : get_e f p q z n seed = some e) : get_e g p q z n seed = some e :=
  get_eLoop_mono f g p q z n seed e hfg h

/-- Termination of `set_server_keys`: on draws that start with two distinct primes of the
range, and for a seed of the range, it returns a state once the fuel is large enough. -/
theorem set_server_keys_returns (p q : ℕ) (seed : Int) (rest : List Int) (s : ServerState)
    (hp : p.Prime) (hq : q.Prime) (hpq : p ≠ q)
    (hpr : 5000 ≤ p ∧ p ≤ 15000) (hqr : 5000 ≤ q ∧ q ≤ 15000)
    (hseed : 5000 ≤ seed ∧ seed ≤ 10000) :
    ∃ (fuel : Nat) (s1 : ServerState),
      set_server_keys fuel ((p : Int) :: (q : Int) :: rest) seed s = some (s1, rest) := by
  obtain ⟨hz, hpn, hqn⟩ := key_range_facts p q hpr.1 hqr.1
  have hguard : ∀ c : Int, c < (p : Int) * q ∨ (c ≠ (q : Int) ∧ c ≠ (p : Int)) := by
    intro c
    by_cases hc : c < (p : Int) * q
    · exact Or.inl hc
    · exact Or.inr ⟨by omega, by omega⟩
  obtain ⟨f1, t, hget, hco, _⟩ := get_e_returns p q
    (((p : Int) - 1) * ((q : Int) - 1)) ((p : Int) * q) seed (by omega) (by omega) hguard
  have hcop : IsCoprime (((p : Int) - 1) * ((q : Int) - 1)) (seed + t) :=
    Int.isCoprime_iff_gcd_eq_one.mpr hco
  obtain ⟨d, hd⟩ := (extended_euclidean_spec _ (seed + t) hz (by omega) hcop).2
    (seed + t).toNat le_rfl
  have hpi : isPrime (p : Int) = true := (isPrime_iff_prime _).mpr (by simpa using hp)
  have hqi : isPrime (q : Int) = true := (isPrime_iff_prime _).mpr (by simpa using hq)
  have hne : (p : Int) ≠ (q : Int) := by exact_mod_cast hpq
  exact ⟨max f1 (seed + t).toNat + 1, _,
    set_server_keys_eval _ p q seed (seed + t) d rest s hpi hqi hne
      (get_e_mono f1 _ _ _ _ _ _ _ (by omega) hget)
      (extended_euclidean_mono _ _ _ _ _ (by omega) hd)⟩

end secure_server

/-! ## The chained cipher -/

/-- XOR with the same mask twice gives the value back. -/
theorem int_xor_xor_cancel (a s : Int) : Int.xor (Int.xor a s) s = a := by
  cases a <;> cases s <;> simp [Int.xor, Nat.xor_assoc]

/-- The conversion to `char` keeps the low 8 bits and gives a value of the range of
`char`. -/
theorem toChar_spec (charSigned : Bool) (v : Int) :
    secure_server.toChar charSigned v % 256 = v % 256 ∧
    secure_server.IsCharValue charSigned (secure_server.toChar charSigned v) := by
  cases charSigned
  · simp only [secure_server.toChar, secure_server.IsCharValue, Bool.false_eq_true, if_false]
    omega
  · simp only [secure_server.toChar, secure_server.IsCharValue, if_true]
    split <;> omega

/-- The conversion to `char` does not change a value of the range of `char`. -/
theorem toChar_of_isCharValue (charSigned : Bool) (c : Int)
    (h : secure_server.IsCharValue charSigned c) : secure_server.toChar charSigned c = c := by
  cases charSigned
  · simp only [secure_server.toChar, secure_server.IsCharValue, Bool.false_eq_true,
      if_false] at h ⊢
    omega
  · simp only [secure_server.toChar, secure_server.IsCharValue, if_true] at h ⊢
    split <;> omega

/-- Claim C8. For every character `c` and every prior nonce value, `cbc_encrypt(c)` returns
`repeatSquare(ascii(c) XOR nonce, eServer, nServer)` and leaves the client's nonce equal to
exactly that returned ciphertext; the keys it holds are unchanged. -/
theorem C8_encrypt_rule (cl : secure_client.ClientState) (c : Int) :
    (secure_client.cbc_encrypt cl c).1 =
      secure_client.repeatSquare (Int.xor c cl.nonce) cl.eServer cl.nServer ∧
    (secure_client.cbc_encrypt cl c).2.nonce = (secure_client.cbc_encrypt cl c).1 ∧
    (secure_client.cbc_encrypt cl c).2.eServer = cl.eServer ∧
    (secure_client.cbc_encrypt cl c).2.nServer = cl.nServer :=
  ⟨rfl, rfl, rfl, rfl⟩

/-- Claim C9. For every received ciphertext integer `num` and every prior nonce value,
`cbc_decrypt(num)` returns the character whose code is
`repeatSquare(num, dServer, nServer) XOR nonce` truncated to 8 bits, and leaves the
server's nonce equal to `num`, the received ciphertext; hence after the client encrypts
and the server decrypts the same record both nonces are equal. -/
theorem C9_decrypt_rule (charSigned : Bool) (sv : secure_server.ServerState) (num : Int) :
    (secure_server.cbc_decrypt charSigned sv num).1 =
      secure_server.toChar charSigned
        (Int.xor (secure_server.repeatSquare num sv.dServer sv.nServer) sv.nonce) ∧
    (secure_server.cbc_decrypt charSigned sv num).1 % 256 =
      Int.xor (secure_server.repeatSquare num sv.dServer sv.nServer) sv.nonce % 256 ∧
    secure_server.IsCharValue charSigned (secure_server.cbc_decrypt charSigned sv num).1 ∧
    (secure_server.cbc_decrypt charSigned sv num).2.nonce = num ∧
    (∀ (cl : secure_client.ClientState) (c : Int),
      (secure_server.cbc_decrypt charSigned sv (secure_client.cbc_encrypt cl c).1).2.nonce =
        (secure_client.cbc_encrypt cl c).2.nonce) :=
  ⟨rfl, (toChar_spec charSigned _).1, (toChar_spec charSigned _).2, rfl, fun _ _ => rfl⟩

/-- The round trip of one character through `cbc_encrypt` and `cbc_decrypt` for an RSA key
and a shared nonce, when the masked value `c XOR nonce` is below the modulus in absolute
value. -/
theorem cbc_round_trip (charSigned : Bool) (sv : secure_server.ServerState)
    (cl : secure_client.ClientState) (c : Int)
    (hkey : secure_server.IsKeyPair sv.eServer sv.dServer sv.nServer)
    (hce : cl.eServer = sv.eServer) (hcn : cl.nServer = sv.nServer)
    (hnonce : cl.nonce = sv.nonce) (hchar : secure_server.IsCharValue charSigned c)
    (hfit : -sv.nServer < Int.xor c cl.nonce ∧ Int.xor c cl.nonce < sv.nServer) :
    (secure_server.cbc_decrypt charSigned sv (secure_client.cbc_encrypt cl c).1).1 = c := by
  show secure_server.toChar charSigned
    (Int.xor (secure_server.repeatSquare
      (secure_client.repeatSquare (Int.xor c cl.nonce) cl.eServer cl.nServer)
      sv.dServer sv.nServer) sv.nonce) = c
  rw [client_repeatSquare_eq, hce, hcn, hkey.round_trip _ hfit.1 hfit.2, hnonce,
    int_xor_xor_cancel]
  exact toChar_of_isCharValue charSigned c hchar

set_option maxRecDepth 100000 in
/-- Counterexample to C2 as stated. With the server key generated from the draws 5003 and
5009 and the seed 5000, the shared nonce 25059968 (which is below `nServer = 25060027`)
and the character `'A'` (65): the masked value `65 XOR 25059968 = 25060033` is not below
`nServer`, and `cbc_decrypt` applied to the ciphertext of `cbc_encrypt` does not return
`'A'`, whatever the signedness of `char`. -/
theorem C2_counterexample :
    secure_server.set_server_keys 100 [5003, 5009] 5000 secure_server.ServerState.start =
      some (secure_server.exampleServerKeys, []) ∧
    ((0 : Int) ≤ 25059968 ∧ (25059968 : Int) < secure_server.exampleServerKeys.nServer) ∧
    ∀ charSigned : Bool,
      (secure_server.cbc_decrypt charSigned
        { secure_server.exampleServerKeys with nonce := 25059968 }
        (secure_client.cbc_encrypt
          { eServer := secure_server.exampleServerKeys.eServer,
            nServer := secure_server.exampleServerKeys.nServer,
            eCA := 0, nCA := 0, nonce := 25059968 } 65).1).1 ≠ 65 :=
  ⟨secure_server.set_server_keys_example _ _, by decide, by
    intro charSigned
    cases charSigned <;> decide⟩

/-- Claim C2, amended. For every server key pair produced by `set_server_keys`, every nonce
value held identically by client and server, and every character `c` whose masked value
`ascii(c) XOR nonce` is below `nServer` in absolute value, calling the client's
`cbc_encrypt(c)` and then the server's `cbc_decrypt` on the returned ciphertext
yields `c`. -/
theorem C2_char_round_trip_when_masked_value_fits (fuel : Nat) (draws rest : List Int)
    (seed : Int) (s0 s : secure_server.ServerState) (cl : secure_client.ClientState)
    (charSigned : Bool) (c : Int)
    (hdraws : ∀ y ∈ draws, 5000 ≤ y ∧ y ≤ 15000) (hseed : 5000 ≤ seed ∧ seed ≤ 10000)
    (hkeys : secure_server.set_server_keys fuel draws seed s0 = some (s, rest))
    (hce : cl.eServer = s.eServer) (hcn : cl.nServer = s.nServer)
    (hchar : secure_server.IsCharValue charSigned c)
    (hfit : -s.nServer < Int.xor c cl.nonce ∧ Int.xor c cl.nonce < s.nServer) :
    (secure_server.cbc_decrypt charSigned { s with nonce := cl.nonce }
      (secure_client.cbc_encrypt cl c).1).1 = c := by
  have hkey := (secure_server.set_server_keys_spec fuel draws rest seed s0 s hdraws hseed.1
    hkeys).1
  exact cbc_round_trip charSigned { s with nonce := cl.nonce } cl c hkey hce hcn rfl hchar hfit

/-- Witness of the amended C2: the key of `exampleServerKeys`, the nonce 4000 and the
character `'A'`. -/
theorem C2_witness :
    ((∀ y ∈ [(5003 : Int), 5009], 5000 ≤ y ∧ y ≤ 15000) ∧
      ((5000 : Int) ≤ 5000 ∧ (5000 : Int) ≤ 10000) ∧
      secure_server.set_server_keys 100 [5003, 5009] 5000 secure_server.ServerState.start =
        some (secure_server.exampleServerKeys, []) ∧
      secure_server.IsCharValue true 65 ∧
      (-secure_server.exampleServerKeys.nServer < Int.xor 65 4000 ∧
        Int.xor 65 4000 < secure_server.exampleServerKeys.nServer)) ∧
    (secure_server.cbc_decrypt true { secure_server.exampleServerKeys with nonce := 4000 }
      (secure_client.cbc_encrypt
        { eServer := 5001, nServer := 25060027, eCA := 0, nCA := 0, nonce := 4000 } 65).1).1
      = 65 :=
  ⟨⟨by decide, by decide, secure_server.set_server_keys_example _ _,
    (by show (-128 : Int) ≤ 65 ∧ (65 : Int) ≤ 127; decide), by decide⟩,
   C2_char_round_trip_when_masked_value_fits 100 [5003, 5009] [] 5000
     secure_server.ServerState.start secure_server.exampleServerKeys
     { eServer := 5001, nServer := 25060027, eCA := 0, nCA := 0, nonce := 4000 } true 65
     (by decide) (by decide) (secure_server.set_server_keys_example _ _) rfl rfl
     (by show (-128 : Int) ≤ 65 ∧ (65 : Int) ≤ 127; decide) (by decide)⟩

/-! ## Certificate and nonce exchange -/

/-- Claim C3. For every CA key `(eCA, dCA, nCA)` produced by `set_CA_Keys` (called with
`nCA < nServer`, as `main` does) and every integer `pub` with `0 ≤ pub < nCA`,
`repeatSquare(repeatSquare(pub, dCA, nCA), eCA, nCA) = pub`; so the values the client
computes from the `PUBLIC_KEY` record equal the server's `eServer` and `nServer` whenever
both are below `nCA`. -/
theorem C3_certificate_round_trip (fuel : Nat) (draws rest : List Int) (seed : Int)
    (s0 s : secure_server.ServerState)
    (hdraws : ∀ y ∈ draws, 5000 ≤ y ∧ y ≤ 15000) (hseed : 5000 ≤ seed ∧ seed ≤ 10000)
    (hlt : s0.nCA < s0.nServer)
    (hkeys : secure_server.set_CA_Keys fuel draws seed s0 = some (s, rest)) :
    (∀ pub : Int, 0 ≤ pub → pub < s.nCA →
      secure_server.repeatSquare (secure_server.repeatSquare pub s.dCA s.nCA) s.eCA s.nCA
        = pub) ∧
    (∀ cl : secure_client.ClientState, cl.eCA = s.eCA → cl.nCA = s.nCA →
      (0 ≤ s.eServer ∧ s.eServer < s.nCA) → (0 ≤ s.nServer ∧ s.nServer < s.nCA) →
      (secure_client.main_recoverPublicKey cl (secure_server.main_signPublicKey s).1
        (secure_server.main_signPublicKey s).2).eServer = s.eServer ∧
      (secure_client.main_recoverPublicKey cl (secure_server.main_signPublicKey s).1
        (secure_server.main_signPublicKey s).2).nServer = s.nServer) := by
  have hkey := (secure_server.set_CA_Keys_spec fuel draws rest seed s0 s hdraws hseed.1 hlt
    hkeys).1
  refine ⟨fun pub h0 h1 => hkey.round_trip_sign pub (by omega) h1, ?_⟩
  intro cl hce hcn he hn
  constructor
  · show secure_client.repeatSquare (secure_server.repeatSquare s.eServer s.dCA s.nCA)
      cl.eCA cl.nCA = s.eServer
    rw [client_repeatSquare_eq, hce, hcn]
    exact hkey.round_trip_sign _ (by omega) he.2
  · show secure_client.repeatSquare (secure_server.repeatSquare s.nServer s.dCA s.nCA)
      cl.eCA cl.nCA = s.nServer
    rw [client_repeatSquare_eq, hce, hcn]
    exact hkey.round_trip_sign _ (by omega) hn.2

/-- Witness of C3: the CA key of `exampleCAKeys`, generated from the draws 10007 and 10009
after the server key of `exampleServerKeys`. -/
theorem C3_witness :
    ((∀ y ∈ [(10007 : Int), 10009], 5000 ≤ y ∧ y ≤ 15000) ∧
      ((5000 : Int) ≤ 5000 ∧ (5000 : Int) ≤ 10000) ∧
      secure_server.exampleServerKeys.nCA < secure_server.exampleServerKeys.nServer ∧
      secure_server.set_CA_Keys 100 [10007, 10009] 5000 secure_server.exampleServerKeys =
        some (secure_server.exampleCAKeys, [])) ∧
    ((∀ pub : Int, 0 ≤ pub → pub < secure_server.exampleCAKeys.nCA →
      secure_server.repeatSquare
        (secure_server.repeatSquare pub secure_server.exampleCAKeys.dCA
          secure_server.exampleCAKeys.nCA)
        secure_server.exampleCAKeys.eCA secure_server.exampleCAKeys.nCA = pub) ∧
    (∀ cl : secure_client.ClientState, cl.eCA = secure_server.exampleCAKeys.eCA →
      cl.nCA = secure_server.exampleCAKeys.nCA →
      (0 ≤ secure_server.exampleCAKeys.eServer ∧
        secure_server.exampleCAKeys.eServer < secure_server.exampleCAKeys.nCA) →
      (0 ≤ secure_server.exampleCAKeys.nServer ∧
        secure_server.exampleCAKeys.nServer < secure_server.exampleCAKeys.nCA) →
      (secure_client.main_recoverPublicKey cl
        (secure_server.main_signPublicKey secure_server.exampleCAKeys).1
        (secure_server.main_signPublicKey secure_server.exampleCAKeys).2).eServer =
          secure_server.exampleCAKeys.eServer ∧
      (secure_client.main_recoverPublicKey cl
        (secure_server.main_signPublicKey secure_server.exampleCAKeys).1
        (secure_server.main_signPublicKey secure_server.exampleCAKeys).2).nServer =
          secure_server.exampleCAKeys.nServer)) :=
  ⟨⟨by decide, by decide, by decide, secure_server.set_CA_Keys_example⟩,
   C3_certificate_round_trip 100 [10007, 10009] [] 5000 secure_server.exampleServerKeys
     secure_server.exampleCAKeys (by decide) (by decide) (by decide)
     secure_server.set_CA_Keys_example⟩

/-- Claim C4, at the failing input. When `get_prime` draws 5003 and 5009 for the server key
and 5003 and 5009 again for the CA key, `set_CA_Keys`, run after `set_server_keys` from the
initial state (`nCA = 0`), returns with `nCA = nServer = 25060027`: the loop
`while(nCA < nServer)` stops on equal moduli, so `nCA` is not strictly greater than
`nServer`. The record `PUBLIC_KEY` then carries `repeatSquare(nServer, dCA, nCA) = 0`. -/
theorem C4_equal_moduli_at_failing_input :
    secure_server.main_setKeys 100 [5003, 5009, 5003, 5009] 5000 5000 =
      some (secure_server.exampleEqualModuli, []) ∧
    secure_server.exampleEqualModuli.nCA = secure_server.exampleEqualModuli.nServer ∧
    ¬ (secure_server.exampleEqualModuli.nServer < secure_server.exampleEqualModuli.nCA) ∧
    (secure_server.main_signPublicKey secure_server.exampleEqualModuli).2 = 0 :=
  ⟨secure_server.main_setKeys_of_steps 100 _ _ _ 5000 5000 secure_server.exampleServerKeys _
    (secure_server.set_server_keys_example _ _) secure_server.set_CA_Keys_example_equal,
   by decide, by decide, by decide⟩

/-- Claim C10. For every server key pair produced by `set_server_keys`, when the client
holds the server's true public key `(eServer, nServer)`, for every nonce value `get_nonce`
can return (1000..5000), the value the server stores after processing the client's `NONCE`
record, `repeatSquare(repeatSquare(nonce, eServer, nServer), dServer, nServer)`, equals the
client's nonce. -/
theorem C10_nonce_agreement (fuel : Nat) (draws rest : List Int) (seed : Int)
    (s0 s : secure_server.ServerState) (cl : secure_client.ClientState) (num : Int)
    (hdraws : ∀ y ∈ draws, 5000 ≤ y ∧ y ≤ 15000) (hseed : 5000 ≤ seed ∧ seed ≤ 10000)
    (hkeys : secure_server.set_server_keys fuel draws seed s0 = some (s, rest))
    (hce : cl.eServer = s.eServer) (hcn : cl.nServer = s.nServer)
    (hnum : 1000 ≤ num ∧ num ≤ 5000) :
    (secure_server.main_receiveNonce s (secure_client.main_sendNonce cl num).1).nonce =
      (secure_client.main_sendNonce cl num).2.nonce ∧
    (secure_client.main_sendNonce cl num).2.nonce = num ∧
    secure_server.repeatSquare (secure_server.repeatSquare num s.eServer s.nServer)
      s.dServer s.nServer = num := by
  have hkey := (secure_server.set_server_keys_spec fuel draws rest seed s0 s hdraws hseed.1
    hkeys).1
  have hn : 5000 < s.nServer := by
    obtain ⟨p, q, _, _, _, hpr, hqr, hn, _⟩ := hkey
    have h1 : (5000 : Int) ≤ (p : Int) := by exact_mod_cast hpr.1
    have h2 : (5000 : Int) ≤ (q : Int) := by exact_mod_cast hqr.1
    rw [hn]
    nlinarith
  have hrt := hkey.round_trip num (by omega) (by omega)
  refine ⟨?_, rfl, hrt⟩
  show secure_server.repeatSquare
    (secure_client.repeatSquare num cl.eServer cl.nServer) s.dServer s.nServer = num
  rw [client_repeatSquare_eq, hce, hcn]
  exact hrt

/-- Witness of C10: the key of `exampleServerKeys` and the nonce 4000. -/
theorem C10_witness :
    ((∀ y ∈ [(5003 : Int), 5009], 5000 ≤ y ∧ y ≤ 15000) ∧
      ((5000 : Int) ≤ 5000 ∧ (5000 : Int) ≤ 10000) ∧
      secure_server.set_server_keys 100 [5003, 5009] 5000 secure_server.ServerState.start =
        some (secure_server.exampleServerKeys, []) ∧
      ((1000 : Int) ≤ 4000 ∧ (4000 : Int) ≤ 5000)) ∧
    ((secure_server.main_receiveNonce secure_server.exampleServerKeys
        (secure_client.main_sendNonce
          { eServer := 5001, nServer := 25060027, eCA := 5005, nCA := 100160063, nonce := 0 }
          4000).1).nonce =
      (secure_client.main_sendNonce
          { eServer := 5001, nServer := 25060027, eCA := 5005, nCA := 100160063, nonce := 0 }
          4000).2.nonce ∧
    (secure_client.main_sendNonce
          { eServer := 5001, nServer := 25060027, eCA := 5005, nCA := 100160063, nonce := 0 }
          4000).2.nonce = 4000 ∧
    secure_server.repeatSquare
      (secure_server.repeatSquare 4000 secure_server.exampleServerKeys.eServer
        secure_server.exampleServerKeys.nServer)
      secure_server.exampleServerKeys.dServer secure_server.exampleServerKeys.nServer = 4000) :=
  ⟨⟨by decide, by decide, secure_server.set_server_keys_example _ _, by decide⟩,
   C10_nonce_agreement 100 [5003, 5009] [] 5000 secure_server.ServerState.start
     secure_server.exampleServerKeys
     { eServer := 5001, nServer := 25060027, eCA := 5005, nCA := 100160063, nonce := 0 } 4000
     (by decide) (by decide) (secure_server.set_server_keys_example _ _) rfl rfl (by decide)⟩

/-! ## The public exponent and the primes -/

namespace secure_server

/-- The guard of `get_e`: the candidate is tested by `euclidean` when it is below `local_n`
or differs from both `p` and `q`. A candidate that fails the guard equals `p` or `q`. -/
theorem get_e_guard_fails (p q n c : Int) (h : ¬ (c < n ∨ (c ≠ q ∧ c ≠ p))) :
    c = p ∨ c = q := by
  by_contra hne
  exact h (Or.inr ⟨fun h1 => hne (Or.inr h1), fun h1 => hne (Or.inl h1)⟩)

/-- The search of `get_e` in general: if `c + t` is the first candidate from `c` on that
passes the guard and is coprime with `z`, the loop returns it, given enough fuel. -/
theorem get_eLoop_first_accepted (p q z n : Int) (hz : 0 ≤ z) (t : Nat) :
    ∀ (fuel : Nat) (c : Int), 0 < c →
      (∀ j : Nat, j < t →
        ¬ ((c + j < n ∨ (c + j ≠ q ∧ c + j ≠ p)) ∧ Int.gcd z (c + j) = 1)) →
      ((c + t < n ∨ (c + t ≠ q ∧ c + t ≠ p)) ∧ Int.gcd z (c + t) = 1) →
      t + (c + t).toNat + 1 ≤ fuel →
      get_eLoop fuel p q z n c = some (c + t) := by
  induction t with
  | zero =>
    intro fuel c hc _ hacc hf
    obtain ⟨fuel, rfl⟩ : ∃ f1, fuel = f1 + 1 := ⟨fuel - 1, by omega⟩
    simp only [Nat.cast_zero, add_zero] at hacc
    rw [get_eLoop, if_pos hacc.1, euclidean_eq fuel z c hz hc (by omega)]
    simp [hacc.2]
  | succ t ih =>
    intro fuel c hc hnot hacc hf
    obtain ⟨fuel, rfl⟩ : ∃ f1, fuel = f1 + 1 := ⟨fuel - 1, by omega⟩
    have h0 := hnot 0 (by omega)
    simp only [Nat.cast_zero, add_zero] at h0
    have hcast : c + ((t + 1 : Nat) : Int) = (c + 1) + (t : Int) := by push_cast; ring
    rw [hcast] at hacc hf ⊢
    have hrec : get_eLoop fuel p q z n (c + 1) = some (c + 1 + (t : Int)) := by
      apply ih fuel (c + 1) (by omega) _ hacc (by omega)
      intro j hj
      have := hnot (j + 1) (by omega)
      have hc2 : c + ((j + 1 : Nat) : Int) = c + 1 + (j : Int) := by push_cast; ring
      rwa [hc2] at this
    rw [get_eLoop]
    by_cases hg : c < n ∨ (c ≠ q ∧ c ≠ p)
    · have hn0 : Int.gcd z c ≠ 1 := fun h1 => h0 ⟨hg, h1⟩
      rw [if_pos hg, euclidean_eq fuel z c hz hc (by omega)]
      simp only [hn0, decide_False]
      exact hrec
    · rw [if_neg hg]
      exact hrec

/-- From every positive candidate on there is a value that passes the guard of `get_e` and
is coprime with `z ≥ 1`: of three distinct values that are `1` modulo `z`, at most two equal
`p` or `q`. -/
theorem exists_accepted_from (p q z n c : Int) (hz : 1 ≤ z) (hc : 0 < c) :
    ∃ t : Nat, (c + t < n ∨ (c + t ≠ q ∧ c + t ≠ p)) ∧ Int.gcd z (c + t) = 1 := by
  have hcop : ∀ m : Int, Int.gcd z (z * m + 1) = 1 := by
    intro m
    apply Int.isCoprime_iff_gcd_eq_one.mp
    have h1 : IsCoprime z 1 := isCoprime_one_right
    have h2 := h1.add_mul_left_right m
    rwa [add_comm] at h2
  have hzc : 0 < z * c := mul_pos (by omega) hc
  have hle : c ≤ z * c := by nlinarith
  -- three candidates `z * (c + i) + 1`, `i = 0, 1, 2`, written as offsets from `c`
  have key : ∀ i : Int, 0 ≤ i → ∃ t : Nat, c + (t : Int) = z * (c + i) + 1 := by
    intro i hi
    have : 0 ≤ z * i := mul_nonneg (by omega) hi
    refine ⟨(z * (c + i) + 1 - c).toNat, ?_⟩
    rw [Int.toNat_of_nonneg (by nlinarith)]
    ring
  obtain ⟨t0, ht0⟩ := key 0 le_rfl
  obtain ⟨t1, ht1⟩ := key 1 (by norm_num)
  obtain ⟨t2, ht2⟩ := key 2 (by norm_num)
  have e1 : z * (c + 1) + 1 = z * (c + 0) + 1 + z := by ring
  have e2 : z * (c + 2) + 1 = z * (c + 0) + 1 + 2 * z := by ring
  by_cases h0 : c + (t0 : Int) ≠ q ∧ c + (t0 : Int) ≠ p
  · exact ⟨t0, Or.inr h0, by rw [ht0]; exact hcop _⟩
  · by_cases h1 : c + (t1 : Int) ≠ q ∧ c + (t1 : Int) ≠ p
    · exact ⟨t1, Or.inr h1, by rw [ht1]; exact hcop _⟩
    · refine ⟨t2, Or.inr ?_, by rw [ht2]; exact hcop _⟩
      rw [ht0] at h0
      rw [ht1, e1] at h1
      rw [ht2, e2]
      constructor <;> intro h2 <;> omega

/-- Termination of `get_e` in general: for `z ≥ 1` and a positive seed the search returns
the first candidate that passes the guard and is coprime with `z`. -/
theorem get_e_returns_accepted (p q z n seed : Int) (hz : 1 ≤ z) (hs : 0 < seed) :
    ∃ (fuel : Nat) (t : Nat), get_e fuel p q z n seed = some (seed + t) ∧
      Int.gcd z (seed + t) = 1 ∧
      ∀ j : Nat, j < t →
        ¬ ((seed + j < n ∨ (seed + j ≠ q ∧ seed + j ≠ p)) ∧ Int.gcd z (seed + j) = 1) := by
  classical
  have hex := exists_accepted_from p q z n seed hz hs
  refine ⟨Nat.find hex + (seed + (Nat.find hex : Nat)).toNat + 1, Nat.find hex, ?_,
    (Nat.find_spec hex).2, fun j hj => Nat.find_min hex hj⟩
  exact get_eLoop_first_accepted p q z n (by omega) _ _ seed hs
    (fun j hj => Nat.find_min hex hj) (Nat.find_spec hex) le_rfl

/-- The value returned by `get_e` does not depend on the fuel. -/
theorem get_e_fuel (f g : Nat) (p q z n seed e1 e2 : Int)
    (h1 : get_e f p q z n seed = some e1) (h2 : get_e g p q z n seed = some e2) : e1 = e2 := by
  have a := get_e_mono f (max f g) p q z n seed e1 (le_max_left _ _) h1
  have b := get_e_mono g (max f g) p q z n seed e2 (le_max_right _ _) h2
  exact Option.some.inj (a.symm.trans b)

end secure_server

/-- Claim C16, at the failing input. With the distinct primes `p = 5003`, `q = 5009` of the
range (`n = p * q`, `z = (p - 1) * (q - 1)`) and the seed 5003 of `[5000, 10000]`, `get_e`
returns 5003, which is `p`: the candidate is below `n`, so the guard
`local_e < local_n || (local_e != q && local_e != p)` lets it through to `euclidean`, and
5003 is coprime with `z`. -/
theorem C16_get_e_returns_p_at_failing_input :
    secure_server.get_e 100 5003 5009 ((5003 - 1) * (5009 - 1)) (5003 * 5009) 5003
      = some 5003 ∧
    (∀ fuel e, secure_server.get_e fuel 5003 5009 ((5003 - 1) * (5009 - 1)) (5003 * 5009) 5003
      = some e → e = 5003) ∧
    Nat.Prime 5003 ∧ Nat.Prime 5009 :=
  ⟨by decide,
   fun fuel e h => secure_server.get_e_fuel fuel 100 _ _ _ _ _ _ _ h (by decide),
   by norm_num, by norm_num⟩

/-- Claim C18. With `p = 61`, `q = 53` (`n = 3233`, `z = 3120`): `euclidean(17)` is true,
`extended_euclidean(17)` returns 2753, `repeatSquare(65, 17, 3233) = 2790` and
`repeatSquare(2790, 2753, 3233) = 65`. -/
theorem C18_textbook_scenario :
    ((61 : Int) * 53 = 3233 ∧ ((61 : Int) - 1) * (53 - 1) = 3120) ∧
    secure_server.euclidean 100 3120 17 = some true ∧
    (∀ fuel r, secure_server.euclidean fuel 3120 17 = some r → r = true) ∧
    secure_server.extended_euclidean 100 3120 17 = some 2753 ∧
    (∀ fuel d, secure_server.extended_euclidean fuel 3120 17 = some d → d = 2753) ∧
    secure_server.repeatSquare 65 17 3233 = 2790 ∧
    secure_server.repeatSquare 2790 2753 3233 = 65 :=
  ⟨by decide, by decide,
   fun fuel r h => by
     have := secure_server.euclidean_some fuel 3120 17 r (by decide) (by decide) h
     rw [this]; decide,
   by decide,
   fun fuel d h => secure_server.extended_euclidean_fuel fuel 100 3120 17 d 2753 h (by decide),
   by decide, by decide⟩

/-- Claim C19. For every `z ≥ 1` and every starting seed `s ≥ 1`: for every candidate
`c ≥ 1`, `euclidean(c)` returns a value, and the value is true exactly when
`gcd(z, c) = 1`; and `get_e`, called as the key setters call it, with the product `p * q`
of the two current primes (`p, q ≥ 2`), terminates and returns the least integer `e ≥ s`
with `gcd(e, z) = 1`. -/
theorem C19_exponent_search (p q z s : Int) (hp : 2 ≤ p) (hq : 2 ≤ q) (hz : 1 ≤ z)
    (hs : 1 ≤ s) :
    (∀ c : Int, 1 ≤ c →
      secure_server.euclidean c.toNat z c = some (decide (Int.gcd z c = 1)) ∧
      ∀ fuel r, secure_server.euclidean fuel z c = some r → (r = true ↔ Int.gcd z c = 1)) ∧
    ∃ (fuel : Nat) (e : Int), secure_server.get_e fuel p q z (p * q) s = some e ∧
      (∀ f e1, secure_server.get_e f p q z (p * q) s = some e1 → e1 = e) ∧
      s ≤ e ∧ Int.gcd e z = 1 ∧
      ∀ c : Int, s ≤ c → c < e → Int.gcd c z ≠ 1 := by
  constructor
  · intro c hc
    refine ⟨secure_server.euclidean_eq _ z c (by omega) (by omega) le_rfl, ?_⟩
    intro fuel r h
    have := secure_server.euclidean_some fuel z c r (by omega) (by omega) h
    rw [this]
    simp
  · have hpn : p < p * q := by nlinarith
    have hqn : q < p * q := by nlinarith
    have hguard : ∀ c : Int, c < p * q ∨ (c ≠ q ∧ c ≠ p) := by
      intro c
      by_cases hc : c < p * q
      · exact Or.inl hc
      · exact Or.inr ⟨by omega, by omega⟩
    obtain ⟨fuel, t, hget, hco, hmin⟩ :=
      secure_server.get_e_returns p q z (p * q) s hz (by omega) hguard
    refine ⟨fuel, s + t, hget, fun f e1 h => secure_server.get_e_fuel f fuel _ _ _ _ _ _ _ h hget,
      by omega, by rw [Int.gcd_comm]; exact hco, ?_⟩
    intro c hsc hce hgc
    obtain ⟨j, hj⟩ : ∃ j : Nat, c = s + j := ⟨(c - s).toNat, by omega⟩
    have hjt : j < t := by omega
    have h1 := hmin j hjt
    rw [← hj, Int.gcd_comm] at h1
    exact h1 hgc

set_option maxRecDepth 100000 in
/-- Witness of C19 at the textbook values `p = 61`, `q = 53`, `z = 3120` and the seed 15:
the search returns 17. -/
theorem C19_witness :
    ((2 : Int) ≤ 61 ∧ (2 : Int) ≤ 53 ∧ (1 : Int) ≤ 3120 ∧ (1 : Int) ≤ 15) ∧
    secure_server.get_e 100 61 53 3120 (61 * 53) 15 = some 17 ∧
    ((∀ c : Int, 1 ≤ c →
      secure_server.euclidean c.toNat 3120 c = some (decide (Int.gcd 3120 c = 1)) ∧
      ∀ fuel r, secure_server.euclidean fuel 3120 c = some r →
        (r = true ↔ Int.gcd 3120 c = 1)) ∧
    ∃ (fuel : Nat) (e : Int), secure_server.get_e fuel 61 53 3120 (61 * 53) 15 = some e ∧
      (∀ f e1, secure_server.get_e f 61 53 3120 (61 * 53) 15 = some e1 → e1 = e) ∧
      15 ≤ e ∧ Int.gcd e 3120 = 1 ∧
      ∀ c : Int, 15 ≤ c → c < e → Int.gcd c 3120 ≠ 1) :=
  ⟨by decide, by decide,
   C19_exponent_search 61 53 3120 15 (by decide) (by decide) (by decide) (by decide)⟩

/-! ## No overflow in `repeatSquare` -/

namespace secure_server

/-- A value of the range of `long long` is held unchanged. -/
theorem wrap64_of_range (v : Int) (h0 : -(2 ^ 63) ≤ v) (h1 : v < 2 ^ 63) : wrap64 v = v := by
  unfold wrap64
  have e63 : (2 : Int) ^ 63 = 9223372036854775808 := by norm_num
  have e64 : (2 : Int) ^ 64 = 18446744073709551616 := by norm_num
  rw [e63] at h0 h1 ⊢
  rw [e64]
  omega

/-- The product of two values of `[0, n + 256)` with `n ≤ 15000 * 15000` is below
`2^63`. -/
theorem product_lt_two_pow_63 (a b n : Int) (hn : n ≤ 15000 * 15000)
    (ha0 : 0 ≤ a) (ha : a < n + 256) (hb0 : 0 ≤ b) (hb : b < n + 256) :
    0 ≤ a * b ∧ a * b < 2 ^ 63 := by
  have e63 : (2 : Int) ^ 63 = 9223372036854775808 := by norm_num
  rw [e63]
  have h1 : a ≤ 225000255 := by omega
  have h2 : b ≤ 225000255 := by omega
  have h3 : a * b ≤ 225000255 * 225000255 := mul_le_mul h1 h2 hb0 (by norm_num)
  exact ⟨mul_nonneg ha0 hb0, by omega⟩

/-- Loop invariant for the 64-bit computation: while the base and the accumulator stay in
`[0, n + 256)`, every product the loop forms is in `[0, 2^63)` and the 64-bit loop returns
what the exact loop returns. -/
theorem repeatSquareLoop64_eq (k : Nat) :
    ∀ (x e n y : Int), 2 ≤ n → n ≤ 15000 * 15000 → 0 ≤ x → x < n + 256 → 0 ≤ y →
      y < n + 256 →
      (∀ v ∈ repeatSquareProducts k x e n y, 0 ≤ v ∧ v < 2 ^ 63) ∧
      repeatSquareLoop64 k x e n y = repeatSquareLoop k x e n y := by
  induction k with
  | zero =>
    intro x e n y _ _ _ _ _ _
    exact ⟨fun v hv => by simp [repeatSquareProducts] at hv, rfl⟩
  | succ k ih =>
    intro x e n y hn2 hn hx0 hx hy0 hy
    by_cases hpos : e > 0
    · by_cases hpar : e.tmod 2 = 0
      · obtain ⟨p0, p1⟩ := product_lt_two_pow_63 x x n hn hx0 hx hx0 hx
        have hw : wrap64 (x * x) = x * x := wrap64_of_range _ (by linarith) p1
        have hr0 : 0 ≤ (x * x).tmod n := Int.tmod_nonneg _ p0
        have hr1 : (x * x).tmod n < n := Int.tmod_lt_of_pos _ (by omega)
        obtain ⟨i1, i2⟩ := ih ((x * x).tmod n) (e.tdiv 2) n y hn2 hn hr0 (by omega) hy0 hy
        simp only [repeatSquareProducts, repeatSquareLoop64, repeatSquareLoop, hpos, hpar,
          if_true, hw, List.mem_cons]
        refine ⟨?_, i2⟩
        rintro v (rfl | hv)
        · exact ⟨p0, p1⟩
        · exact i1 v hv
      · obtain ⟨p0, p1⟩ := product_lt_two_pow_63 x y n hn hx0 hx hy0 hy
        have hw : wrap64 (x * y) = x * y := wrap64_of_range _ (by linarith) p1
        have hr0 : 0 ≤ (x * y).tmod n := Int.tmod_nonneg _ p0
        have hr1 : (x * y).tmod n < n := Int.tmod_lt_of_pos _ (by omega)
        obtain ⟨i1, i2⟩ := ih x (e - 1) n ((x * y).tmod n) hn2 hn hx0 hx hr0 (by omega)
        simp only [repeatSquareProducts, repeatSquareLoop64, repeatSquareLoop, hpos, hpar,
          if_true, if_false, hw, List.mem_cons]
        refine ⟨?_, i2⟩
        rintro v (rfl | hv)
        · exact ⟨p0, p1⟩
        · exact i1 v hv
    · simp [repeatSquareProducts, repeatSquareLoop64, repeatSquareLoop, hpos]

end secure_server

/-- Claim C17. For every modulus `n` with `2 ≤ n ≤ 15000 * 15000` (the largest modulus the
key generators can produce), every base `x` with `0 ≤ x < n + 256` and every exponent
`e ≥ 0`, each intermediate product `x * x` and `x * y` formed inside `repeatSquare` is below
`2^63` (and not negative), so the signed 64-bit computation equals the exact-integer one,
for the server's copy and for the client's. -/
theorem C17_no_overflow_in_repeatSquare (x e n : Int)
    (hn : 2 ≤ n ∧ n ≤ 15000 * 15000) (hx : 0 ≤ x ∧ x < n + 256) (he : 0 ≤ e) :
    (∀ v ∈ secure_server.repeatSquareProducts e.toNat x e n 1, 0 ≤ v ∧ v < 2 ^ 63) ∧
    secure_server.repeatSquare64 x e n = secure_server.repeatSquare x e n ∧
    secure_server.repeatSquare64 x e n = secure_client.repeatSquare x e n := by
  obtain ⟨h1, h2⟩ := secure_server.repeatSquareLoop64_eq e.toNat x e n 1 hn.1 hn.2 hx.1 hx.2
    (by norm_num) (by omega)
  exact ⟨h1, h2, h2.trans (client_repeatSquare_eq x e n).symm⟩

/-- Witness of C17 at the largest modulus, `n = 15000 * 15000`, with the base `n + 255` and
the exponent 10007. -/
theorem C17_witness :
    (((2 : Int) ≤ 225000000 ∧ (225000000 : Int) ≤ 15000 * 15000) ∧
      ((0 : Int) ≤ 225000255 ∧ (225000255 : Int) < 225000000 + 256) ∧ (0 : Int) ≤ 10007) ∧
    ((∀ v ∈ secure_server.repeatSquareProducts (10007 : Int).toNat 225000255 10007 225000000 1,
        0 ≤ v ∧ v < 2 ^ 63) ∧
    secure_server.repeatSquare64 225000255 10007 225000000 =
      secure_server.repeatSquare 225000255 10007 225000000 ∧
    secure_server.repeatSquare64 225000255 10007 225000000 =
      secure_client.repeatSquare 225000255 10007 225000000) :=
  ⟨by decide, C17_no_overflow_in_repeatSquare 225000255 10007 225000000 (by decide)
    (by decide) (by decide)⟩

/-! ## Decimal text: printing and scanning -/

namespace cstd

/-- The digits are put in front of the accumulator. -/
theorem printDigits_append (k : Nat) :
    ∀ (n : Nat) (acc : List Int), printDigits k n acc = printDigits k n [] ++ acc := by
  induction k with
  | zero => intro n acc; rfl
  | succ k ih =>
    intro n acc
    by_cases h : n < 10
    · simp [printDigits, h]
    · simp only [printDigits, h, if_false]
      rw [ih (n / 10) (_ :: acc), ih (n / 10) [_]]
      simp

/-- Any bound above the number gives the digits of the number. -/
theorem printDigits_eq_printNat (k : Nat) :
    ∀ n : Nat, n < k → printDigits k n [] = printNat n := by
  induction k using Nat.strong_induction_on with
  | _ k ih =>
    intro n hn
    obtain ⟨k, rfl⟩ : ∃ k1, k = k1 + 1 := ⟨k - 1, by omega⟩
    unfold printNat
    by_cases h : n < 10
    · simp [printDigits, h]
    · have hdiv : n / 10 < n := Nat.div_lt_self (by omega) (by norm_num)
      simp only [printDigits, h, if_false]
      rw [printDigits_append k, printDigits_append n,
        ih k (by omega) (n / 10) (by omega), ih n (by omega) (n / 10) hdiv]

/-- A number below ten prints as one digit. -/
theorem printNat_lt_ten (n : Nat) (h : n < 10) : printNat n = [48 + (n : Int)] := by
  simp [printNat, printDigits, h]

/-- A number from ten on prints as its tenth part followed by its last digit. -/
theorem printNat_ge_ten (n : Nat) (h : 10 ≤ n) :
    printNat n = printNat (n / 10) ++ [48 + ((n % 10 : Nat) : Int)] := by
  have hdiv : n / 10 < n := Nat.div_lt_self (by omega) (by norm_num)
  have h10 : ¬ n < 10 := by omega
  unfold printNat
  simp only [printDigits, h10, if_false]
  rw [printDigits_append n, printDigits_eq_printNat n (n / 10) hdiv]
  rfl

/-- Every character of the text of a number is a decimal digit. -/
theorem printNat_digits (n : Nat) : ∀ c ∈ printNat n, 48 ≤ c ∧ c ≤ 57 := by
  induction n using Nat.strong_induction_on with
  | _ n ih =>
    by_cases h : n < 10
    · rw [printNat_lt_ten n h]
      intro c hc
      simp only [List.mem_singleton] at hc
      omega
    · rw [printNat_ge_ten n (by omega)]
      intro c hc
      rcases List.mem_append.mp hc with hc | hc
      · exact ih (n / 10) (Nat.div_lt_self (by omega) (by norm_num)) c hc
      · simp only [List.mem_singleton] at hc
        omega

/-- The text of a number is not empty. -/
theorem printNat_ne_nil (n : Nat) : printNat n ≠ [] := by
  by_cases h : n < 10
  · rw [printNat_lt_ten n h]; simp
  · rw [printNat_ge_ten n (by omega)]; simp

/-- Scanning a run of digits followed by something that is not a digit. -/
theorem scanDigits_append (l : List Int) :
    ∀ (rest : List Int) (acc : Int), (∀ c ∈ l, 48 ≤ c ∧ c ≤ 57) →
      (∀ c ∈ rest.head?, isdigit c = false) →
      scanDigits (l ++ rest) acc = (l.foldl (fun a c => a * 10 + (c - 48)) acc, rest) := by
  induction l with
  | nil =>
    intro rest acc _ hrest
    cases rest with
    | nil => rfl
    | cons c cs =>
      have := hrest c (by simp)
      simp [scanDigits, this]
  | cons d l ih =>
    intro rest acc hl hrest
    have hd := hl d (List.mem_cons_self _ _)
    have hdig : isdigit d = true := by simp [isdigit, hd.1, hd.2]
    simp only [List.cons_append, scanDigits, hdig, if_true, List.foldl_cons]
    exact ih rest _ (fun c hc => hl c (List.mem_cons_of_mem _ hc)) hrest

/-- The digits of a number, read back, give the number. -/
theorem foldl_printNat (n : Nat) :
    (printNat n).foldl (fun a c => a * 10 + (c - 48)) (0 : Int) = (n : Int) := by
  induction n using Nat.strong_induction_on with
  | _ n ih =>
    by_cases h : n < 10
    · rw [printNat_lt_ten n h]
      simp
    · rw [printNat_ge_ten n (by omega), List.foldl_append,
        ih (n / 10) (Nat.div_lt_self (by omega) (by norm_num))]
      simp only [List.foldl_cons, List.foldl_nil]
      have := Nat.div_add_mod n 10
      push_cast
      omega

/-- The conversion `%lld` reads back the text that `%lld` printed, when what follows does
not start with a digit. -/
theorem scanInteger_printDecimal (v : Int) (rest : List Int)
    (hrest : ∀ c ∈ rest.head?, isdigit c = false) :
    scanInteger (printDecimal v ++ rest) = some (v, rest) := by
  have key : ∀ n : Nat, ∃ d ds, printNat n = d :: ds ∧ isdigit d = true ∧ d ≠ 45 ∧ d ≠ 43 ∧
      scanDigits (d :: ds ++ rest) 0 = ((n : Int), rest) := by
    intro n
    cases hp : printNat n with
    | nil => exact absurd hp (printNat_ne_nil n)
    | cons d ds =>
      have hd := printNat_digits n d (by rw [hp]; exact List.mem_cons_self _ _)
      refine ⟨d, ds, rfl, by simp [isdigit, hd.1, hd.2], by omega, by omega, ?_⟩
      have := scanDigits_append (printNat n) rest 0 (printNat_digits n) hrest
      rw [foldl_printNat, hp] at this
      exact this
  unfold printDecimal
  by_cases hneg : v < 0
  · obtain ⟨d, ds, hp, hdig, _, _, hscan⟩ := key (-v).toNat
    rw [if_pos hneg, hp]
    simp only [List.cons_append, scanInteger, if_true, hdig]
    rw [← List.cons_append, hscan]
    simp only [Option.some.injEq, Prod.mk.injEq, and_true]
    omega
  · obtain ⟨d, ds, hp, hdig, h45, h43, hscan⟩ := key v.toNat
    rw [if_neg hneg, hp]
    simp only [List.cons_append, scanInteger, h45, h43, if_false, hdig, if_true]
    rw [← List.cons_append, hscan]
    simp only [Option.some.injEq, Prod.mk.injEq, and_true]
    omega

/-- The first character of the text of an integer is a digit or the minus sign, and
every character is one of the two. -/
theorem printDecimal_chars (v : Int) :
    (∃ d ds, printDecimal v = d :: ds ∧ isspace d = false ∧ d ≠ 0) ∧
    ∀ c ∈ printDecimal v, c ≠ 10 ∧ c ≠ 13 := by
  unfold printDecimal
  by_cases hneg : v < 0
  · rw [if_pos hneg]
    refine ⟨⟨45, _, rfl, by decide, by decide⟩, ?_⟩
    intro c hc
    rcases List.mem_cons.mp hc with rfl | hc
    · exact ⟨by decide, by decide⟩
    · have := printNat_digits _ c hc
      omega
  · rw [if_neg hneg]
    constructor
    · cases hp : printNat v.toNat with
      | nil => exact absurd hp (printNat_ne_nil _)
      | cons d ds =>
        have hd := printNat_digits v.toNat d (by rw [hp]; exact List.mem_cons_self _ _)
        refine ⟨d, ds, rfl, ?_, by omega⟩
        simp only [isspace, Bool.or_eq_false_iff, Bool.and_eq_false_iff, beq_eq_false_iff_ne,
          decide_eq_false_iff_not]
        exact ⟨by omega, Or.inr (by omega)⟩
    · intro c hc
      have := printNat_digits _ c hc
      omega

/-- A value of the range of `long long` is stored unchanged by `%lld`. -/
theorem storedValue_longLong (v : Int) (h0 : -(2 ^ 63) ≤ v) (h1 : v < 2 ^ 63) :
    storedValue true v = v := by
  have e63 : (2 : Int) ^ 63 = 9223372036854775808 := by norm_num
  rw [e63] at h0 h1
  simp only [storedValue, clamp64, if_true, e63]
  rw [if_neg (by omega), if_neg (by omega)]

/-- Library function `sscanf` with the format `%lld` reads back the text that `%lld`
printed for a value of the range of `long long`: one value is assigned, the value
printed. -/
theorem sscanf_printDecimal (v : Int) (h0 : -(2 ^ 63) ≤ v) (h1 : v < 2 ^ 63) :
    sscanf (printDecimal v) (ascii "%lld") = (1, [v]) := by
  have hfmt : directives (ascii "%lld") = [Directive.integer true] := by decide
  obtain ⟨⟨d, ds, hp, hsp, _⟩, _⟩ := printDecimal_chars v
  have hscan := scanInteger_printDecimal v [] (by simp)
  rw [List.append_nil, hp] at hscan
  unfold sscanf
  rw [hfmt, hp]
  simp only [sscanfRun, List.dropWhile, hsp, hscan, storedValue_longLong v h0 h1]
  rfl

/-- A record that is the text of an integer is not the empty record. -/
theorem strcmp_printDecimal (v : Int) : strcmp (printDecimal v) [] ≠ 0 := by
  obtain ⟨⟨d, ds, hp, _, hd⟩, _⟩ := printDecimal_chars v
  rw [hp]
  exact hd

/-- The line reader on a line without LF and CR, followed by LF. -/
theorem recvRecords_line (l : List Int) :
    ∀ (bytes line : List Int), (∀ c ∈ l, c ≠ 10 ∧ c ≠ 13) →
      recvRecords (l ++ 10 :: bytes) line = (line.reverse ++ l) :: recvRecords bytes [] := by
  induction l with
  | nil => intro bytes line _; simp [recvRecords]
  | cons c l ih =>
    intro bytes line hl
    have hc := hl c (List.mem_cons_self _ _)
    have hrec := ih bytes (c :: line) (fun x hx => hl x (List.mem_cons_of_mem _ hx))
    rw [List.cons_append, recvRecords, if_neg hc.1, if_pos hc.2, hrec]
    simp

end cstd

/-! ## Outbound framing -/

namespace secure_client

open cstd

/-- Function `cbc_encrypt` is one step of the chained encryption. -/
theorem chainedEncryption_cons (cl : ClientState) (c : Int) (chars : List Int) :
    chainedEncryption cl (c :: chars) =
      ((cbc_encrypt cl c).1 :: (chainedEncryption (cbc_encrypt cl c).2 chars).1,
       (chainedEncryption (cbc_encrypt cl c).2 chars).2) := rfl

/-- The chained encryption of a concatenation. -/
theorem chainedEncryption_append (a : List Int) :
    ∀ (cl : ClientState) (b : List Int),
      chainedEncryption cl (a ++ b) =
        ((chainedEncryption cl a).1 ++ (chainedEncryption (chainedEncryption cl a).2 b).1,
         (chainedEncryption (chainedEncryption cl a).2 b).2) := by
  induction a with
  | nil => intro cl b; rfl
  | cons c a ih =>
    intro cl b
    rw [List.cons_append, chainedEncryption_cons, ih, chainedEncryption_cons]
    rfl

/-- The chained encryption gives one ciphertext per character. -/
theorem chainedEncryption_length (chars : List Int) :
    ∀ cl : ClientState, (chainedEncryption cl chars).1.length = chars.length := by
  induction chars with
  | nil => intro cl; rfl
  | cons c chars ih =>
    intro cl
    simp only [chainedEncryption, List.length_cons, ih]

/-- The `for` loop over a token sends the chained encryption of its characters, one
decimal line per character. -/
theorem main_sendToken_eq (token : List Int) :
    ∀ cl : ClientState,
      main_sendToken cl token =
        ((chainedEncryption cl token).1.map (fun v => printDecimal v ++ ascii "\n"),
         (chainedEncryption cl token).2) := by
  induction token with
  | nil => intro cl; rfl
  | cons c token ih =>
    intro cl
    simp only [main_sendToken, ih, chainedEncryption_cons, List.map_cons]

/-- The loop over the tokens sends the chained encryption of the characters of
`t1, ' ', t2, ' ', ..., tk`: the space sent between two tokens is encrypted by the rule of
`cbc_encrypt`. -/
theorem main_sendTokens_eq (tokens : List (List Int)) :
    ∀ cl : ClientState,
      main_sendTokens cl tokens =
        ((chainedEncryption cl (messageChars tokens)).1.map
            (fun v => printDecimal v ++ ascii "\n"),
         (chainedEncryption cl (messageChars tokens)).2) := by
  induction tokens with
  | nil => intro cl; rfl
  | cons token tokens ih =>
    intro cl
    cases tokens with
    | nil => exact main_sendToken_eq token cl
    | cons next tokens =>
      simp only [main_sendTokens, messageChars, main_sendToken_eq, ih,
        chainedEncryption_append, List.map_append]
      rfl

/-- The number of characters of `t1, ' ', ..., tk`. -/
theorem messageChars_length (tokens : List (List Int)) (h : tokens ≠ []) :
    (messageChars tokens).length = (tokens.map List.length).sum + (tokens.length - 1) := by
  induction tokens with
  | nil => exact absurd rfl h
  | cons token tokens ih =>
    cases tokens with
    | nil => simp [messageChars]
    | cons next tokens =>
      have := ih (by simp)
      simp only [messageChars, List.length_append, List.length_cons, List.map_cons,
        List.sum_cons] at this ⊢
      omega

/-- The records that the body of the message loop sends for the content of the input
buffer. -/
theorem main_sendMessage_eq (cl : ClientState) (input_buffer : List Int) :
    main_sendMessage cl input_buffer =
      ((chainedEncryption cl (messageChars (strtokAll input_buffer))).1.map
          (fun v => printDecimal v ++ ascii "\n") ++ [ascii "\r\n"],
       (chainedEncryption cl (messageChars (strtokAll input_buffer))).2) := by
  unfold main_sendMessage
  rw [main_sendTokens_eq]

end secure_client

/-- Counterexample to C11 as stated. The user message `.HI` splits on spaces into the one
token `.HI`, but for it the client emits no record at all: the loop
`while ((strncmp(input_buffer, ".", 1) != 0))` is not entered and the client shuts down.
The same holds when the buffer ends with the newline that `fgets` stores. -/
theorem C11_counterexample :
    cstd.strtokAll (cstd.ascii ".HI") = [cstd.ascii ".HI"] ∧
    (secure_client.main_messagePhase
      { eServer := 5001, nServer := 25060027, eCA := 5005, nCA := 100160063, nonce := 4000 }
      [cstd.ascii ".HI\n"]).sent = [] ∧
    (secure_client.main_messagePhase
      { eServer := 5001, nServer := 25060027, eCA := 5005, nCA := 100160063, nonce := 4000 }
      [cstd.ascii ".HI"]).sent = [] ∧
    (secure_client.main_messagePhase
      { eServer := 5001, nServer := 25060027, eCA := 5005, nCA := 100160063, nonce := 4000 }
      [cstd.ascii ".HI"]).exit = secure_client.MessagePhaseExit.shutDown :=
  ⟨by decide, by decide, by decide, by decide⟩

/-- Claim C11, amended. For every user message, as held in `input_buffer`, that does not
begin with `.` and splits on spaces into `k ≥ 1` tokens `t1 .. tk`, the client emits, in
order, exactly one decimal ciphertext record per character of `t1, ' ', t2, ' ', ..., tk`,
each the chained encryption (XOR with the current nonce, then RSA, nonce := ciphertext) of
that character, with the separator space encrypted by the same rule as any other character,
followed by one empty record (the line `\r\n`); that is
(sum of token lengths) + (k - 1) + 1 records. It then goes on with the next input. -/
theorem C11_outbound_framing (cl : secure_client.ClientState) (input_buffer : List Int)
    (inputs : List (List Int))
    (hdot : cstd.strncmp input_buffer (cstd.ascii ".") 1 ≠ 0)
    (hk : 1 ≤ (cstd.strtokAll input_buffer).length) :
    (secure_client.main_messagePhase cl (input_buffer :: inputs)).sent =
      ((secure_client.chainedEncryption cl
          (secure_client.messageChars (cstd.strtokAll input_buffer))).1.map
        (fun v => cstd.printDecimal v ++ cstd.ascii "\n") ++ [cstd.ascii "\r\n"]) ++
      (secure_client.main_messagePhase
        (secure_client.chainedEncryption cl
          (secure_client.messageChars (cstd.strtokAll input_buffer))).2 inputs).sent ∧
    ((secure_client.chainedEncryption cl
          (secure_client.messageChars (cstd.strtokAll input_buffer))).1.map
        (fun v => cstd.printDecimal v ++ cstd.ascii "\n") ++ [cstd.ascii "\r\n"]).length =
      ((cstd.strtokAll input_buffer).map List.length).sum +
        ((cstd.strtokAll input_buffer).length - 1) + 1 := by
  constructor
  · rw [secure_client.main_messagePhase, if_pos hdot, secure_client.main_sendMessage_eq]
  · have hne : cstd.strtokAll input_buffer ≠ [] := by
      intro h0
      rw [h0] at hk
      simp at hk
    rw [List.length_append, List.length_map, secure_client.chainedEncryption_length,
      secure_client.messageChars_length _ hne]
    rfl

/-- Witness of the amended C11: the buffer `HI BOB` gives the two tokens `HI` and `BOB`,
hence five character records, one space record and the end-of-message marker. -/
theorem C11_witness :
    (cstd.strncmp (cstd.ascii "HI BOB") (cstd.ascii ".") 1 ≠ 0 ∧
      1 ≤ (cstd.strtokAll (cstd.ascii "HI BOB")).length) ∧
    ((secure_client.main_messagePhase
        { eServer := 5001, nServer := 25060027, eCA := 5005, nCA := 100160063, nonce := 4000 }
        (cstd.ascii "HI BOB" :: [])).sent =
      ((secure_client.chainedEncryption
          { eServer := 5001, nServer := 25060027, eCA := 5005, nCA := 100160063, nonce := 4000 }
          (secure_client.messageChars (cstd.strtokAll (cstd.ascii "HI BOB")))).1.map
        (fun v => cstd.printDecimal v ++ cstd.ascii "\n") ++ [cstd.ascii "\r\n"]) ++
      (secure_client.main_messagePhase
        (secure_client.chainedEncryption
          { eServer := 5001, nServer := 25060027, eCA := 5005, nCA := 100160063, nonce := 4000 }
          (secure_client.messageChars (cstd.strtokAll (cstd.ascii "HI BOB")))).2 []).sent ∧
    ((secure_client.chainedEncryption
          { eServer := 5001, nServer := 25060027, eCA := 5005, nCA := 100160063, nonce := 4000 }
          (secure_client.messageChars (cstd.strtokAll (cstd.ascii "HI BOB")))).1.map
        (fun v => cstd.printDecimal v ++ cstd.ascii "\n") ++ [cstd.ascii "\r\n"]).length =
      ((cstd.strtokAll (cstd.ascii "HI BOB")).map List.length).sum +
        ((cstd.strtokAll (cstd.ascii "HI BOB")).length - 1) + 1) :=
  ⟨⟨by decide, by decide⟩,
   C11_outbound_framing _ (cstd.ascii "HI BOB") [] (by decide) (by decide)⟩

/-! ## Message reassembly -/

namespace cstd

/-- The records that the line-reading loop makes of the bytes of one message: the decimal
lines, then the empty record of the line `\r\n`. -/
theorem recvRecords_message (ciphertexts : List Int) (bytes : List Int) :
    recvRecords ((ciphertexts.map (fun v => printDecimal v ++ ascii "\n") ++
        [ascii "\r\n"]).flatten ++ bytes) [] =
      ciphertexts.map printDecimal ++ [] :: recvRecords bytes [] := by
  induction ciphertexts with
  | nil =>
    show recvRecords (13 :: 10 :: bytes) [] = [] :: recvRecords bytes []
    simp [recvRecords]
  | cons v ciphertexts ih =>
    have hlf : ascii "\n" = [10] := by decide
    rw [hlf] at ih
    rw [List.map_cons, List.cons_append, List.flatten_cons, hlf, List.append_assoc,
      List.append_assoc, List.singleton_append,
      recvRecords_line _ _ _ (printDecimal_chars v).2, ih]
    rfl

/-- Tokenising the tokens joined by single spaces gives the tokens back, when they are
not empty and hold no space. -/
theorem strtokAll_intercalate (tokens : List (List Int)) (hne : tokens ≠ [])
    (htokens : ∀ token ∈ tokens, token ≠ [] ∧ (32 : Int) ∉ token) :
    strtokAll ([32].intercalate tokens) = tokens := by
  unfold strtokAll
  rw [List.splitOn_intercalate tokens 32 (fun l hl => (htokens l hl).2) hne, List.filter_eq_self]
  intro token htoken
  simpa using (htokens token htoken).1

end cstd

namespace secure_client

/-- The characters of `t1, ' ', ..., tk` are the tokens joined by single spaces. -/
theorem messageChars_eq_intercalate (tokens : List (List Int)) :
    messageChars tokens = [32].intercalate tokens := by
  induction tokens with
  | nil => rfl
  | cons token tokens ih =>
    cases tokens with
    | nil => simp [messageChars, List.intercalate]
    | cons next tokens =>
      rw [messageChars, ih]
      simp [List.intercalate]

/-- A character of `t1, ' ', ..., tk` is the space or a character of a token. -/
theorem mem_messageChars (tokens : List (List Int)) (c : Int) (hc : c ∈ messageChars tokens) :
    c = 32 ∨ ∃ token ∈ tokens, c ∈ token := by
  induction tokens with
  | nil => simp [messageChars] at hc
  | cons token tokens ih =>
    cases tokens with
    | nil => exact Or.inr ⟨token, List.mem_singleton_self _, hc⟩
    | cons next tokens =>
      rw [messageChars, List.mem_append, List.mem_cons] at hc
      rcases hc with h | h | h
      · exact Or.inr ⟨token, List.mem_cons_self _ _, h⟩
      · exact Or.inl h
      · rcases ih h with h32 | ⟨t, ht, hct⟩
        · exact Or.inl h32
        · exact Or.inr ⟨t, List.mem_cons_of_mem _ ht, hct⟩

end secure_client

namespace secure_server

open cstd

/-- The accumulator of the loop of `repeatSquare` stays below the modulus in absolute
value. -/
theorem repeatSquareLoop_abs_lt (k : Nat) :
    ∀ (x e n y : Int), 2 ≤ n → -n < y → y < n →
      -n < repeatSquareLoop k x e n y ∧ repeatSquareLoop k x e n y < n := by
  induction k with
  | zero =>
    intro x e n y _ h0 h1
    exact ⟨h0, h1⟩
  | succ k ih =>
    intro x e n y hn h0 h1
    by_cases hpos : e > 0
    · by_cases hpar : e.tmod 2 = 0
      · simp only [repeatSquareLoop, hpos, hpar, if_true]
        exact ih _ _ n y hn h0 h1
      · simp only [repeatSquareLoop, hpos, hpar, if_true, if_false]
        have hlt : (x * y).tmod n < n := Int.tmod_lt_of_pos _ (by omega)
        have hgt : -n < (x * y).tmod n := by
          by_cases hxy : 0 ≤ x * y
          · have := Int.tmod_nonneg n hxy
            omega
          · have hneg : (x * y).tmod n = -((-(x * y)).tmod n) := by
              rw [neg_tmod, neg_neg]
            have := Int.tmod_lt_of_pos (-(x * y)) (by omega : 0 < n)
            omega
        exact ih _ _ n _ hn hgt hlt
    · simp only [repeatSquareLoop, hpos, if_false]
      exact ⟨h0, h1⟩

/-- The value of `repeatSquare` is below the modulus in absolute value. -/
theorem repeatSquare_abs_lt (x e n : Int) (hn : 2 ≤ n) :
    -n < repeatSquare x e n ∧ repeatSquare x e n < n :=
  repeatSquareLoop_abs_lt e.toNat x e n 1 hn (by omega) (by omega)

/-- The modulus of a key pair is at most `15000 * 15000` and at least 2. -/
theorem IsKeyPair.modulus_range {e d n : Int} (h : IsKeyPair e d n) :
    2 ≤ n ∧ n ≤ 15000 * 15000 := by
  obtain ⟨p, q, _, _, _, hpr, hqr, hn, _⟩ := h
  have h1 := Nat.mul_le_mul hpr.1 hqr.1
  have h2 := Nat.mul_le_mul hpr.2 hqr.2
  have h3 : ((5000 * 5000 : ℕ) : Int) ≤ ((p * q : ℕ) : Int) := by exact_mod_cast h1
  have h4 : ((p * q : ℕ) : Int) ≤ ((15000 * 15000 : ℕ) : Int) := by exact_mod_cast h2
  push_cast at h3 h4
  rw [hn]
  omega

/-- The message loop of the server on the records of a chained encryption followed by the
end-of-message marker: when every masked value of the chain is below the modulus in
absolute value, the strings printed at the marker are the ciphertexts and the characters
that were encrypted, and the loop goes on with the last ciphertext as nonce. -/
theorem main_messageLoop_chain (charSigned : Bool) (chars : List Int) :
    ∀ (sv : ServerState) (cl : secure_client.ClientState)
      (encrypted_message decrypted_message : List Int) (records : List (List Int)),
      IsKeyPair sv.eServer sv.dServer sv.nServer →
      cl.eServer = sv.eServer → cl.nServer = sv.nServer → cl.nonce = sv.nonce →
      (∀ c ∈ chars, IsCharValue charSigned c) →
      secure_client.chainFits cl.eServer cl.nServer cl.nonce chars = true →
      (main_messageLoop charSigned sv encrypted_message decrypted_message
        ((secure_client.chainedEncryption cl chars).1.map printDecimal ++
          [] :: records)).printed =
        (encrypted_message ++
            ((secure_client.chainedEncryption cl chars).1.map printDecimal).flatten,
          decrypted_message ++ chars) ::
        (main_messageLoop charSigned
          { sv with nonce := (secure_client.chainedEncryption cl chars).2.nonce }
          [] [] records).printed := by
  induction chars with
  | nil =>
    intro sv cl em dm records _ _ _ hnonce _ _
    have hsv : ({ sv with nonce := cl.nonce } : ServerState) = sv := by rw [hnonce]
    show (main_messageLoop charSigned sv em dm ([] :: records)).printed =
      (em ++ [], dm ++ []) ::
        (main_messageLoop charSigned { sv with nonce := cl.nonce } [] [] records).printed
    rw [hsv, List.append_nil, List.append_nil, main_messageLoop, if_pos (show strcmp [] [] = 0 from rfl)]
  | cons c chars ih =>
    intro sv cl em dm records hkey hce hcn hnonce hchar hfit
    have hfit1 : -sv.nServer < Int.xor c cl.nonce ∧ Int.xor c cl.nonce < sv.nServer := by
      have h := hfit
      simp only [secure_client.chainFits, Bool.and_eq_true, decide_eq_true_eq] at h
      rw [hcn] at h
      exact h.1
    have hfit2 : secure_client.chainFits cl.eServer cl.nServer
        (secure_client.cbc_encrypt cl c).1 chars = true := by
      have h := hfit
      simp only [secure_client.chainFits, Bool.and_eq_true] at h
      exact h.2
    have hround := cbc_round_trip charSigned sv cl c hkey hce hcn hnonce
      (hchar c (List.mem_cons_self _ _)) hfit1
    have hih := ih (cbc_decrypt charSigned sv (secure_client.cbc_encrypt cl c).1).2
      (secure_client.cbc_encrypt cl c).2
      (em ++ printDecimal (secure_client.cbc_encrypt cl c).1)
      (dm ++ [(cbc_decrypt charSigned sv (secure_client.cbc_encrypt cl c).1).1]) records
      hkey hce hcn rfl (fun x hx => hchar x (List.mem_cons_of_mem _ hx)) hfit2
    have hrange : -(2 ^ 63) ≤ (secure_client.cbc_encrypt cl c).1 ∧
        (secure_client.cbc_encrypt cl c).1 < 2 ^ 63 := by
      have hmod := hkey.modulus_range
      rw [← hcn] at hmod
      have habs := repeatSquare_abs_lt (Int.xor c cl.nonce) cl.eServer cl.nServer hmod.1
      rw [← client_repeatSquare_eq] at habs
      have habs2 : -cl.nServer < (secure_client.cbc_encrypt cl c).1 ∧
          (secure_client.cbc_encrypt cl c).1 < cl.nServer := habs
      have e63 : (2 : Int) ^ 63 = 9223372036854775808 := by norm_num
      rw [e63]
      omega
    rw [secure_client.chainedEncryption_cons, List.map_cons, List.cons_append,
      main_messageLoop, if_neg (strcmp_printDecimal _),
      sscanf_printDecimal _ hrange.1 hrange.2]
    simp only [if_true, List.getD_cons_zero]
    rw [hih, hround]
    simp only [List.flatten_cons, List.append_assoc, List.singleton_append]
    rfl

end secure_server

set_option maxRecDepth 100000 in
/-- Counterexample to C12 as stated. With the server key generated from the draws 5003 and
5009 and the seed 5000, held by both sides, and the shared nonce 4603 (a value that
`get_nonce` can draw), the client sends the message `HI BOB`; the second masked value,
`'I' XOR 25059974 = 25060047`, is not below `nServer = 25060027`, and the plaintext that the server
has accumulated at the end-of-message marker is not `HI BOB`, whatever the signedness of
`char`. -/
theorem C12_counterexample :
    secure_server.set_server_keys 100 [5003, 5009] 5000 secure_server.ServerState.start =
      some (secure_server.exampleServerKeys, []) ∧
    ((1000 : Int) ≤ secure_client.get_nonce 4603 ∧ secure_client.get_nonce 4603 ≤ 5000) ∧
    cstd.strtokAll (cstd.ascii "HI BOB") = [cstd.ascii "HI", cstd.ascii "BOB"] ∧
    ∀ charSigned : Bool,
      ((secure_server.main_messageLoop charSigned
        { secure_server.exampleServerKeys with nonce := secure_client.get_nonce 4603 } [] []
        (cstd.recvRecords
          (secure_client.main_sendMessage
            { eServer := secure_server.exampleServerKeys.eServer,
              nServer := secure_server.exampleServerKeys.nServer,
              eCA := 0, nCA := 0, nonce := secure_client.get_nonce 4603 }
            (cstd.ascii "HI BOB")).1.flatten [])).printed.map Prod.snd) ≠
        [cstd.ascii "HI BOB"] :=
  ⟨secure_server.set_server_keys_example _ _, by decide, by decide, by
    intro charSigned
    cases charSigned <;> decide⟩

/-- Claim C12, amended. For every message made of non-empty tokens separated by single
spaces, with a server key pair produced by `set_server_keys` whose public part the client
holds, and both sides starting from the same nonce, if along the chained encryption of the
message every masked value (character XOR current nonce) is below `nServer` in absolute
value, then the plaintext buffer the server has accumulated from the client's records at
the moment it receives the end-of-message marker equals the original message (and the
ciphertext buffer holds the ciphertexts, in order). -/
theorem C12_message_reassembly (fuel : Nat) (draws rest : List Int) (seed : Int)
    (s0 s : secure_server.ServerState) (cl : secure_client.ClientState) (charSigned : Bool)
    (tokens : List (List Int))
    (hdraws : ∀ y ∈ draws, 5000 ≤ y ∧ y ≤ 15000) (hseed : 5000 ≤ seed ∧ seed ≤ 10000)
    (hkeys : secure_server.set_server_keys fuel draws seed s0 = some (s, rest))
    (hce : cl.eServer = s.eServer) (hcn : cl.nServer = s.nServer)
    (hne : tokens ≠ [])
    (htokens : ∀ token ∈ tokens, token ≠ [] ∧ (32 : Int) ∉ token ∧
      ∀ c ∈ token, secure_server.IsCharValue charSigned c)
    (hfit : secure_client.chainFits cl.eServer cl.nServer cl.nonce
      ([32].intercalate tokens) = true) :
    (secure_server.main_messageLoop charSigned { s with nonce := cl.nonce } [] []
      (cstd.recvRecords
        (secure_client.main_sendMessage cl ([32].intercalate tokens)).1.flatten [])).printed =
      [(((secure_client.chainedEncryption cl ([32].intercalate tokens)).1.map
          cstd.printDecimal).flatten, [32].intercalate tokens)] := by
  have hkey := (secure_server.set_server_keys_spec fuel draws rest seed s0 s hdraws hseed.1
    hkeys).1
  have hchar : ∀ c ∈ [32].intercalate tokens, secure_server.IsCharValue charSigned c := by
    intro c hc
    rw [← secure_client.messageChars_eq_intercalate] at hc
    rcases secure_client.mem_messageChars tokens c hc with h32 | ⟨token, htoken, hct⟩
    · rw [h32]
      cases charSigned <;> decide
    · exact (htokens token htoken).2.2 c hct
  have hrecv := cstd.recvRecords_message
    (secure_client.chainedEncryption cl ([32].intercalate tokens)).1 []
  rw [List.append_nil] at hrecv
  have hloop := secure_server.main_messageLoop_chain charSigned ([32].intercalate tokens)
    { s with nonce := cl.nonce } cl [] [] [] hkey hce hcn rfl hchar hfit
  rw [secure_client.main_sendMessage_eq,
    cstd.strtokAll_intercalate tokens hne (fun token htoken =>
      ⟨(htokens token htoken).1, (htokens token htoken).2.1⟩),
    secure_client.messageChars_eq_intercalate, hrecv]
  exact hloop

/-- Witness of the amended C12: the message `HI BOB` with the key of `exampleServerKeys`
and the shared nonce 4000. -/
theorem C12_witness :
    ((∀ y ∈ [(5003 : Int), 5009], 5000 ≤ y ∧ y ≤ 15000) ∧
      ((5000 : Int) ≤ 5000 ∧ (5000 : Int) ≤ 10000) ∧
      secure_server.set_server_keys 100 [5003, 5009] 5000 secure_server.ServerState.start =
        some (secure_server.exampleServerKeys, []) ∧
      [cstd.ascii "HI", cstd.ascii "BOB"] ≠ [] ∧
      (∀ token ∈ [cstd.ascii "HI", cstd.ascii "BOB"], token ≠ [] ∧ (32 : Int) ∉ token ∧
        ∀ c ∈ token, secure_server.IsCharValue true c) ∧
      secure_client.chainFits 5001 25060027 4000
        ([32].intercalate [cstd.ascii "HI", cstd.ascii "BOB"]) = true) ∧
    (secure_server.main_messageLoop true
      { secure_server.exampleServerKeys with nonce := 4000 } [] []
      (cstd.recvRecords
        (secure_client.main_sendMessage
          { eServer := 5001, nServer := 25060027, eCA := 0, nCA := 0, nonce := 4000 }
          ([32].intercalate [cstd.ascii "HI", cstd.ascii "BOB"])).1.flatten [])).printed =
      [(((secure_client.chainedEncryption
          { eServer := 5001, nServer := 25060027, eCA := 0, nCA := 0, nonce := 4000 }
          ([32].intercalate [cstd.ascii "HI", cstd.ascii "BOB"])).1.map
            cstd.printDecimal).flatten,
        [32].intercalate [cstd.ascii "HI", cstd.ascii "BOB"])] :=
  ⟨⟨by decide, by decide, secure_server.set_server_keys_example _ _, by decide, by decide,
    by decide⟩,
   C12_message_reassembly 100 [5003, 5009] [] 5000 secure_server.ServerState.start
     secure_server.exampleServerKeys
     { eServer := 5001, nServer := 25060027, eCA := 0, nCA := 0, nonce := 4000 } true
     [cstd.ascii "HI", cstd.ascii "BOB"]
     (by decide) (by decide) (secure_server.set_server_keys_example _ _) rfl rfl (by decide)
     (by decide) (by decide)⟩

/-! ## The handshake -/

namespace secure_client

open cstd

/-- The `CA` block does not end the loop as a failure of `recv` does. -/
theorem main_onCA_exit (cl : ClientState) (receive_buffer : List Int) :
    (main_onCA cl receive_buffer).2 ≠ some HandshakeExit.recvFailed := by
  unfold main_onCA
  simp only []
  split_ifs <;> simp

/-- The `PUBLIC_KEY` block does not end the loop as a failure of `recv` does. -/
theorem main_onPublicKey_exit (num : Int) (cl : ClientState) (receive_buffer : List Int) :
    (main_onPublicKey num cl receive_buffer).2.2 ≠ some HandshakeExit.recvFailed := by
  unfold main_onPublicKey
  simp only []
  split_ifs <;> simp

/-- The `ACK` block does not end the loop as a failure of `recv` does. -/
theorem main_onAck_exit (receive_buffer : List Int) :
    main_onAck receive_buffer ≠ some HandshakeExit.recvFailed := by
  unfold main_onAck
  simp only []
  split_ifs <;> simp

/-- The body of the handshake loop leaves the loop by `exit(1)` after a diagnostic or by
`break`; the failure of `recv` belongs to the reading of the next record. -/
theorem main_handshakeRecord_exit (num : Int) (cl : ClientState) (receive_buffer : List Int) :
    (main_handshakeRecord num cl receive_buffer).2.2 ≠ some HandshakeExit.recvFailed := by
  unfold main_handshakeRecord
  have h1 := main_onCA_exit cl receive_buffer
  rcases hca : main_onCA cl receive_buffer with ⟨cl1, x⟩
  rw [hca] at h1
  cases x with
  | some x => simpa using h1
  | none =>
    simp only []
    have h2 := main_onPublicKey_exit num cl1 receive_buffer
    rcases hpk : main_onPublicKey num cl1 receive_buffer with ⟨sent, cl2, y⟩
    rw [hpk] at h2
    cases y with
    | some y => simpa using h2
    | none => exact main_onAck_exit receive_buffer

/-- The handshake loop on a sequence of records that extends one on which the loop was
still running. -/
theorem main_handshake_append (num : Nat → Int) (pre : List (List Int)) :
    ∀ (i : Nat) (cl : ClientState) (records : List (List Int)),
      (main_handshake num i cl pre).exit = HandshakeExit.recvFailed →
      main_handshake num i cl (pre ++ records) =
        { main_handshake num (i + pre.length) (main_handshake num i cl pre).state records with
          sent := (main_handshake num i cl pre).sent ++
            (main_handshake num (i + pre.length) (main_handshake num i cl pre).state
              records).sent } := by
  induction pre with
  | nil =>
    intro i cl records _
    rfl
  | cons receive_buffer pre ih =>
    intro i cl records h
    rw [List.cons_append, main_handshake]
    rw [main_handshake] at h
    rcases hrec : main_handshakeRecord (num i) cl receive_buffer with ⟨sent, cl1, x⟩
    rw [hrec] at h
    cases x with
    | some x =>
      simp only at h
      have hx := main_handshakeRecord_exit (num i) cl receive_buffer
      rw [hrec, h] at hx
      exact absurd rfl hx
    | none =>
      simp only at h
      have hih := ih (i + 1) cl1 records h
      have hlen : i + (receive_buffer :: pre).length = i + 1 + pre.length := by
        rw [List.length_cons]
        omega
      rw [hlen, main_handshake, hrec]
      simp only [hih, List.append_assoc]

/-- A record that begins with `CA` and from which `sscanf` does not convert two integers
ends the handshake loop by `exit(1)` after the diagnostic of the `CA` block, and nothing is
sent for it. -/
theorem main_handshake_malformed_CA (num : Nat → Int) (i : Nat) (cl : ClientState)
    (receive_buffer : List Int) (records : List (List Int))
    (hCA : strncmp receive_buffer (ascii "CA") 2 = 0)
    (hparse : (sscanf receive_buffer (ascii "CA %lld %lld")).1 ≠ 2) :
    (main_handshake num i cl (receive_buffer :: records)).exit =
      HandshakeExit.exit1 "ERROR:  retireval of CA keys was unsuccessful. Exiting." ∧
    (main_handshake num i cl (receive_buffer :: records)).sent = [] := by
  have hrec : main_handshakeRecord (num i) cl receive_buffer =
      ([], { cl with
              eCA := (sscanf receive_buffer (ascii "CA %lld %lld")).2.getD 0 cl.eCA,
              nCA := (sscanf receive_buffer (ascii "CA %lld %lld")).2.getD 1 cl.nCA },
        some (HandshakeExit.exit1
          "ERROR:  retireval of CA keys was unsuccessful. Exiting.")) := by
    unfold main_handshakeRecord main_onCA
    simp only [if_pos hCA, if_pos hparse]
  rw [main_handshake, hrec]
  exact ⟨rfl, rfl⟩

end secure_client

namespace secure_server

open cstd

/-- When the `ACK` block does not leave the loop, a record that begins with `ACK` carries
the code 226. -/
theorem main_onAck_false (receive_buffer : List Int) (h : main_onAck receive_buffer = false)
    (hACK : strncmp receive_buffer (ascii "ACK") 3 = 0) :
    (sscanf receive_buffer (ascii "ACK %d")).1 = 1 ∧
      (sscanf receive_buffer (ascii "ACK %d")).2.getD 0 0 = 226 := by
  unfold main_onAck at h
  rw [if_pos hACK] at h
  by_contra hcode
  simp only [if_neg hcode] at h
  exact absurd h (by decide)

/-- The `NONCE` block leaves the loop only for a record that begins with `NONCE` and holds
an integer: the state then has the decrypted nonce and `ACK 220` is sent. Otherwise the
state is unchanged. -/
theorem main_onNonce_spec (s : ServerState) (receive_buffer : List Int) :
    ((main_onNonce s receive_buffer).2.2 = true →
      strncmp receive_buffer (ascii "NONCE") 5 = 0 ∧
      (sscanf receive_buffer (ascii "NONCE %lld")).1 = 1 ∧
      (main_onNonce s receive_buffer).1 = [ascii "ACK 220\n"] ∧
      (main_onNonce s receive_buffer).2.1 =
        main_receiveNonce64 s ((sscanf receive_buffer (ascii "NONCE %lld")).2.getD 0 0)) ∧
    ((main_onNonce s receive_buffer).2.2 = false → (main_onNonce s receive_buffer).2.1 = s) := by
  by_cases h1 : strncmp receive_buffer (ascii "NONCE") 5 = 0
  · by_cases h2 : (sscanf receive_buffer (ascii "NONCE %lld")).1 = 1
    · have heq : main_onNonce s receive_buffer =
          ([ascii "ACK 220\n"],
            main_receiveNonce64 s ((sscanf receive_buffer (ascii "NONCE %lld")).2.getD 0 0),
            true) := by
        simp only [main_onNonce, if_pos h1, if_pos h2]
      rw [heq]
      exact ⟨fun _ => ⟨h1, h2, rfl, rfl⟩, fun h => Bool.noConfusion h⟩
    · have heq : main_onNonce s receive_buffer = ([], s, false) := by
        simp only [main_onNonce, if_pos h1, if_neg h2]
      rw [heq]
      exact ⟨fun h => Bool.noConfusion h, fun _ => rfl⟩
  · have heq : main_onNonce s receive_buffer = ([], s, false) := by
      simp only [main_onNonce, if_neg h1]
    rw [heq]
    exact ⟨fun h => Bool.noConfusion h, fun _ => rfl⟩

end secure_server

set_option maxRecDepth 100000 in
/-- Claim C13 at its failing input. The server, holding the keys of `exampleCAKeys`,
receives the record `ACK 999` and then the record `12345`. The handshake loop is left by
the `break` that follows the diagnostic
`ERROR:  Failed to recieve a positive ACK from client`, and the message loop then reads the
record `12345`, decrypts it with `cbc_decrypt` as a ciphertext character and stores it as
the nonce: the session is not aborted. -/
theorem C13_server_decrypts_after_bad_ack :
    cstd.strncmp (cstd.ascii "ACK 999") (cstd.ascii "ACK") 3 = 0 ∧
    cstd.sscanf (cstd.ascii "ACK 999") (cstd.ascii "ACK %d") = (1, [999]) ∧
    ∀ charSigned : Bool,
      (secure_server.main_session charSigned secure_server.exampleCAKeys
        [cstd.ascii "ACK 999", cstd.ascii "12345"]).handshakeExit =
        secure_server.HandshakeExit.ackFailed ∧
      (secure_server.main_session charSigned secure_server.exampleCAKeys
        [cstd.ascii "ACK 999", cstd.ascii "12345"]).messages.map
          (fun run => (run.decrypted, run.state.nonce)) =
        some ([(secure_server.cbc_decrypt charSigned secure_server.exampleCAKeys 12345).1],
          12345) :=
  ⟨by decide, by decide, by
    intro charSigned
    cases charSigned <;> decide⟩

set_option maxRecDepth 100000 in
/-- Claim C14 at its failing input. The client receives the records that the server sends
for the keys of `exampleCAKeys`, draws the nonce 4000, and then receives `ACK 999`. The
handshake loop is left by the `break` that follows the diagnostic
`ERROR:   failed to receive a positive ACK from the server`; the client then enters the
message phase, reads the user input `HI` (with its newline) and emits three ciphertext
records and the end-of-message marker. -/
theorem C14_client_enters_message_phase_after_bad_ack :
    cstd.strncmp (cstd.ascii "ACK 999") (cstd.ascii "ACK") 3 = 0 ∧
    cstd.sscanf (cstd.ascii "ACK 999") (cstd.ascii "ACK %d") = (1, [999]) ∧
    (secure_client.main_handshake (fun _ => 4000) 0 secure_client.ClientState.start
      [cstd.ascii "CA 5005 100160063", cstd.ascii "PUBLIC_KEY 63802374 69059591",
        cstd.ascii "ACK 999"]).exit = secure_client.HandshakeExit.ackFailed ∧
    (secure_client.main (fun _ => 4000)
      [cstd.ascii "CA 5005 100160063", cstd.ascii "PUBLIC_KEY 63802374 69059591",
        cstd.ascii "ACK 999"] [cstd.ascii "HI\n"]).enteredMessagePhase = true ∧
    (secure_client.main (fun _ => 4000)
      [cstd.ascii "CA 5005 100160063", cstd.ascii "PUBLIC_KEY 63802374 69059591",
        cstd.ascii "ACK 999"] [cstd.ascii "HI\n"]).sent =
      [cstd.ascii "ACK 226\n", cstd.ascii "NONCE 20290083\n", cstd.ascii "12628679\n",
        cstd.ascii "19611679\n", cstd.ascii "14075913\n", cstd.ascii "\r\n"] :=
  ⟨by decide, by decide, by decide, by decide, by decide⟩

/-- Claim C15. For every received record that begins with `CA` but from which `sscanf`
does not convert two integers, at whatever point of the handshake it arrives, the client's
handshake loop ends by `exit(1)` after the diagnostic
`ERROR:  retireval of CA keys was unsuccessful. Exiting.`; nothing is sent for that record
or after it, whatever records follow, and the message phase is not entered. -/
theorem C15_malformed_CA_record_is_fatal (num : Nat → Int) (pre : List (List Int))
    (receive_buffer : List Int) (records inputs : List (List Int))
    (hpre : (secure_client.main_handshake num 0 secure_client.ClientState.start pre).exit =
      secure_client.HandshakeExit.recvFailed)
    (hCA : cstd.strncmp receive_buffer (cstd.ascii "CA") 2 = 0)
    (hparse : (cstd.sscanf receive_buffer (cstd.ascii "CA %lld %lld")).1 ≠ 2) :
    (secure_client.main_handshake num 0 secure_client.ClientState.start
      (pre ++ receive_buffer :: records)).exit =
      secure_client.HandshakeExit.exit1
        "ERROR:  retireval of CA keys was unsuccessful. Exiting." ∧
    (secure_client.main num (pre ++ receive_buffer :: records) inputs).sent =
      (secure_client.main_handshake num 0 secure_client.ClientState.start pre).sent ∧
    (secure_client.main num (pre ++ receive_buffer :: records) inputs).enteredMessagePhase =
      false := by
  have happ := secure_client.main_handshake_append num pre 0 secure_client.ClientState.start
    (receive_buffer :: records) hpre
  have hbad := secure_client.main_handshake_malformed_CA num (0 + pre.length)
    (secure_client.main_handshake num 0 secure_client.ClientState.start pre).state
    receive_buffer records hCA hparse
  have hexit : (secure_client.main_handshake num 0 secure_client.ClientState.start
      (pre ++ receive_buffer :: records)).exit =
      secure_client.HandshakeExit.exit1
        "ERROR:  retireval of CA keys was unsuccessful. Exiting." := by
    rw [happ]
    exact hbad.1
  have hsent : (secure_client.main_handshake num 0 secure_client.ClientState.start
      (pre ++ receive_buffer :: records)).sent =
      (secure_client.main_handshake num 0 secure_client.ClientState.start pre).sent := by
    rw [happ]
    show _ ++ _ = _
    rw [hbad.2, List.append_nil]
  refine ⟨hexit, ?_, ?_⟩
  · unfold secure_client.main
    simp only [hexit]
    exact hsent
  · unfold secure_client.main
    simp only [hexit]

/-- Witness of C15: the record `CA 123` arrives first; a `PUBLIC_KEY` record and a user
input are waiting. -/
theorem C15_witness :
    ((secure_client.main_handshake (fun _ => 4000) 0 secure_client.ClientState.start []).exit =
        secure_client.HandshakeExit.recvFailed ∧
      cstd.strncmp (cstd.ascii "CA 123") (cstd.ascii "CA") 2 = 0 ∧
      (cstd.sscanf (cstd.ascii "CA 123") (cstd.ascii "CA %lld %lld")).1 ≠ 2) ∧
    ((secure_client.main_handshake (fun _ => 4000) 0 secure_client.ClientState.start
      ([] ++ cstd.ascii "CA 123" :: [cstd.ascii "PUBLIC_KEY 63802374 69059591"])).exit =
      secure_client.HandshakeExit.exit1
        "ERROR:  retireval of CA keys was unsuccessful. Exiting." ∧
    (secure_client.main (fun _ => 4000)
      ([] ++ cstd.ascii "CA 123" :: [cstd.ascii "PUBLIC_KEY 63802374 69059591"])
      [cstd.ascii "HI\n"]).sent =
      (secure_client.main_handshake (fun _ => 4000) 0 secure_client.ClientState.start
        []).sent ∧
    (secure_client.main (fun _ => 4000)
      ([] ++ cstd.ascii "CA 123" :: [cstd.ascii "PUBLIC_KEY 63802374 69059591"])
      [cstd.ascii "HI\n"]).enteredMessagePhase = false) :=
  ⟨⟨rfl, by decide, by decide⟩,
   C15_malformed_CA_record_is_fatal (fun _ => 4000) [] (cstd.ascii "CA 123")
     [cstd.ascii "PUBLIC_KEY 63802374 69059591"] [cstd.ascii "HI\n"] rfl (by decide)
     (by decide)⟩

namespace secure_server

open cstd

/-- When the handshake loop on a byte stream ends with an accepted nonce, the last pass ran
on a buffer that begins with `NONCE` and holds an integer, and on every pass before it the
`ACK` block did not leave the loop. -/
theorem main_handshakeStream_accepted (bytes : List Int) :
    ∀ (s : ServerState) (receive_buffer : List Int) (i : Nat),
      (main_handshakeStream s receive_buffer i bytes).exit = StreamExit.nonceAccepted →
      ∃ (pre : List (List Int)) (line : List Int),
        (main_handshakeStream s receive_buffer i bytes).processed = pre ++ [line] ∧
        (∀ a ∈ pre, main_onAck a = false) ∧
        strncmp line (ascii "NONCE") 5 = 0 ∧
        (sscanf line (ascii "NONCE %lld")).1 = 1 ∧
        (main_handshakeStream s receive_buffer i bytes).state =
          main_receiveNonce64 s ((sscanf line (ascii "NONCE %lld")).2.getD 0 0) ∧
        (main_handshakeStream s receive_buffer i bytes).sent = [ascii "ACK 220\n"] := by
  induction bytes with
  | nil =>
    intro s receive_buffer i h
    rw [main_handshakeStream] at h ⊢
    by_cases hnul : (0 : Int) ∉ receive_buffer
    · rw [if_pos hnul] at h
      simp at h
    · rw [if_neg hnul] at h ⊢
      by_cases hack : main_onAck (cString receive_buffer) = true
      · rw [if_pos hack] at h
        simp at h
      · rw [if_neg hack] at h ⊢
        have hspec := main_onNonce_spec s (cString receive_buffer)
        rcases hn : main_onNonce s (cString receive_buffer) with ⟨sent, s1, flag⟩
        rw [hn] at h hspec
        cases flag with
        | true =>
          obtain ⟨h1, h2, h3, h4⟩ := hspec.1 rfl
          exact ⟨[], cString receive_buffer, rfl,
            fun a ha => absurd ha (List.not_mem_nil a), h1, h2, h4, h3⟩
        | false => simp at h
  | cons b bytes ih =>
    intro s receive_buffer i h
    rw [main_handshakeStream] at h ⊢
    by_cases hover : RBUFFER_SIZE ≤ i
    · rw [if_pos hover] at h
      simp at h
    · rw [if_neg hover] at h ⊢
      by_cases hlf : b = 10
      · rw [if_pos hlf] at h ⊢
        simp only [] at h ⊢
        by_cases hack : main_onAck (cString (receive_buffer.set i 0)) = true
        · rw [if_pos hack] at h
          simp at h
        · rw [if_neg hack] at h ⊢
          have hack0 : main_onAck (cString (receive_buffer.set i 0)) = false := by
            simpa using hack
          have hspec := main_onNonce_spec s (cString (receive_buffer.set i 0))
          rcases hn : main_onNonce s (cString (receive_buffer.set i 0)) with ⟨sent, s1, flag⟩
          rw [hn] at h hspec
          cases flag with
          | true =>
            obtain ⟨h1, h2, h3, h4⟩ := hspec.1 rfl
            exact ⟨[], cString (receive_buffer.set i 0), rfl,
              fun a ha => absurd ha (List.not_mem_nil a), h1, h2, h4, h3⟩
          | false =>
            have hs1 : s1 = s := hspec.2 rfl
            simp only at h ⊢
            rw [hs1] at h ⊢
            obtain ⟨pre, line, hproc, hpre, h1, h2, h3, h4⟩ := ih s _ 0 h
            refine ⟨cString (receive_buffer.set i 0) :: pre, line, ?_, ?_, h1, h2, h3, h4⟩
            · rw [hproc, List.cons_append]
            · intro a ha
              rcases List.mem_cons.mp ha with rfl | ha
              · exact hack0
              · exact hpre a ha
      · rw [if_neg hlf] at h ⊢
        by_cases hcr : b ≠ 13
        · rw [if_pos hcr] at h ⊢
          exact ih s _ _ h
        · rw [if_neg hcr] at h ⊢
          exact ih s _ _ h

end secure_server

set_option maxRecDepth 100000 in
/-- Two runs of the handshake loop on a byte stream, from a zero-filled array. The line
`ACK 4294967522` is read by `%d` as the code 226 (the low 32 bits), so the loop goes on and
the `NONCE` line that follows is accepted. The bytes `NONCE 5` without a line feed, after
which `recv` fails, are left in the array and the blocks run on them: the nonce is
accepted. -/
theorem main_handshakeStream_examples :
    cstd.sscanf (cstd.ascii "ACK 4294967522") (cstd.ascii "ACK %d") = (1, [226]) ∧
    (secure_server.main_handshakeStream secure_server.exampleCAKeys
      (List.replicate secure_server.RBUFFER_SIZE 0) 0
      (cstd.ascii "ACK 4294967522\nNONCE 5\n")).exit =
      secure_server.StreamExit.nonceAccepted ∧
    (secure_server.main_handshakeStream secure_server.exampleCAKeys
      (List.replicate secure_server.RBUFFER_SIZE 0) 0
      (cstd.ascii "NONCE 5")).exit = secure_server.StreamExit.nonceAccepted ∧
    (secure_server.main_handshakeStream secure_server.exampleCAKeys
      (List.replicate secure_server.RBUFFER_SIZE 0) 0
      (cstd.ascii "NONCE 5")).processed = [cstd.ascii "NONCE 5"] :=
  ⟨by decide, by decide, by decide, by decide⟩

set_option maxRecDepth 100000 in
/-- Counterexample to C20 as stated. The server, holding the keys of `exampleCAKeys`,
receives the line `NONCE 5` as the first bytes of the connection: the blocks of the loop
run once, on the buffer `NONCE 5`, no `ACK 226` has been received, yet the nonce is
accepted: it is decrypted and stored as the session nonce, `ACK 220` is sent and the
handshake loop is left for the message phase. -/
theorem C20_counterexample :
    (secure_server.main_handshakeStream secure_server.exampleCAKeys
      (List.replicate secure_server.RBUFFER_SIZE 0) 0 (cstd.ascii "NONCE 5\n")).processed =
      [cstd.ascii "NONCE 5"] ∧
    (∀ a ∈ [cstd.ascii "NONCE 5"], cstd.strncmp a (cstd.ascii "ACK") 3 ≠ 0) ∧
    (secure_server.main_handshakeStream secure_server.exampleCAKeys
      (List.replicate secure_server.RBUFFER_SIZE 0) 0 (cstd.ascii "NONCE 5\n")).exit =
      secure_server.StreamExit.nonceAccepted ∧
    (secure_server.main_handshakeStream secure_server.exampleCAKeys
      (List.replicate secure_server.RBUFFER_SIZE 0) 0 (cstd.ascii "NONCE 5\n")).sent =
      [cstd.ascii "ACK 220\n"] ∧
    (secure_server.main_handshakeStream secure_server.exampleCAKeys
      (List.replicate secure_server.RBUFFER_SIZE 0) 0 (cstd.ascii "NONCE 5\n")).state.nonce =
      secure_server.repeatSquare64 5 secure_server.exampleCAKeys.dServer
        secure_server.exampleCAKeys.nServer :=
  ⟨by decide, by decide, by decide, by decide, by decide⟩

/-- Claim C20, amended. On every connection of a server that holds a positive modulus, and
for every sequence of bytes received, from whatever the array `receive_buffer` holds at the
start: the server accepts a nonce (decrypts it, stores the session nonce, replies
`ACK 220` and moves to the message phase) only if on every earlier pass of the handshake
loop whose buffer began with `ACK`, `sscanf` stored the code 226 in `ack_value`; it does
not require that there was such a pass. The buffer of the accepting pass begins with
`NONCE` and holds an integer, and the nonce stored is `repeatSquare` of the value that
`sscanf` stored, computed on 64-bit `long long` values (`main_receiveNonce64`). -/
theorem C20_nonce_accepted_only_after_good_acks (s : secure_server.ServerState)
    (receive_buffer bytes : List Int)
    (hmod : 0 < s.nServer) (hbuf : receive_buffer.length = secure_server.RBUFFER_SIZE)
    (h : (secure_server.main_handshakeStream s receive_buffer 0 bytes).exit =
      secure_server.StreamExit.nonceAccepted) :
    ∃ (pre : List (List Int)) (line : List Int),
      (secure_server.main_handshakeStream s receive_buffer 0 bytes).processed =
        pre ++ [line] ∧
      (∀ a ∈ pre, cstd.strncmp a (cstd.ascii "ACK") 3 = 0 →
        (cstd.sscanf a (cstd.ascii "ACK %d")).1 = 1 ∧
          (cstd.sscanf a (cstd.ascii "ACK %d")).2.getD 0 0 = 226) ∧
      cstd.strncmp line (cstd.ascii "NONCE") 5 = 0 ∧
      (cstd.sscanf line (cstd.ascii "NONCE %lld")).1 = 1 ∧
      (secure_server.main_handshakeStream s receive_buffer 0 bytes).state =
        secure_server.main_receiveNonce64 s
          ((cstd.sscanf line (cstd.ascii "NONCE %lld")).2.getD 0 0) ∧
      (secure_server.main_handshakeStream s receive_buffer 0 bytes).sent =
        [cstd.ascii "ACK 220\n"] := by
  obtain ⟨pre, line, hproc, hpre, h1, h2, h3, h4⟩ :=
    secure_server.main_handshakeStream_accepted bytes s receive_buffer 0 h
  exact ⟨pre, line, hproc,
    fun a ha hACK => secure_server.main_onAck_false a (hpre a ha) hACK, h1, h2, h3, h4⟩

set_option maxRecDepth 100000 in
/-- Witness of the amended C20: the lines `ACK 226`, `NONCE 5` and one ciphertext, received
into a zero-filled array. -/
theorem C20_witness :
    ((0 : Int) < secure_server.exampleCAKeys.nServer ∧
      (List.replicate secure_server.RBUFFER_SIZE (0 : Int)).length =
        secure_server.RBUFFER_SIZE ∧
      (secure_server.main_handshakeStream secure_server.exampleCAKeys
        (List.replicate secure_server.RBUFFER_SIZE 0) 0
        (cstd.ascii "ACK 226\nNONCE 5\n1\n")).exit =
        secure_server.StreamExit.nonceAccepted) ∧
    ∃ (pre : List (List Int)) (line : List Int),
      (secure_server.main_handshakeStream secure_server.exampleCAKeys
        (List.replicate secure_server.RBUFFER_SIZE 0) 0
        (cstd.ascii "ACK 226\nNONCE 5\n1\n")).processed = pre ++ [line] ∧
      (∀ a ∈ pre, cstd.strncmp a (cstd.ascii "ACK") 3 = 0 →
        (cstd.sscanf a (cstd.ascii "ACK %d")).1 = 1 ∧
          (cstd.sscanf a (cstd.ascii "ACK %d")).2.getD 0 0 = 226) ∧
      cstd.strncmp line (cstd.ascii "NONCE") 5 = 0 ∧
      (cstd.sscanf line (cstd.ascii "NONCE %lld")).1 = 1 ∧
      (secure_server.main_handshakeStream secure_server.exampleCAKeys
        (List.replicate secure_server.RBUFFER_SIZE 0) 0
        (cstd.ascii "ACK 226\nNONCE 5\n1\n")).state =
        secure_server.main_receiveNonce64 secure_server.exampleCAKeys
          ((cstd.sscanf line (cstd.ascii "NONCE %lld")).2.getD 0 0) ∧
      (secure_server.main_handshakeStream secure_server.exampleCAKeys
        (List.replicate secure_server.RBUFFER_SIZE 0) 0
        (cstd.ascii "ACK 226\nNONCE 5\n1\n")).sent = [cstd.ascii "ACK 220\n"] :=
  ⟨⟨by decide, by decide, by decide⟩,
   C20_nonce_accepted_only_after_good_acks secure_server.exampleCAKeys
     (List.replicate secure_server.RBUFFER_SIZE 0) (cstd.ascii "ACK 226\nNONCE 5\n1\n")
     (by decide) (by decide) (by decide)⟩

/-! ## Conditional character round trip -/

/-- The XOR of two nonnegative integers is nonnegative. -/
theorem int_xor_nonneg (a s : Int) (ha : 0 ≤ a) (hs : 0 ≤ s) : 0 ≤ Int.xor a s := by
  obtain ⟨a1, rfl⟩ := Int.eq_ofNat_of_zero_le ha
  obtain ⟨s1, rfl⟩ := Int.eq_ofNat_of_zero_le hs
  exact Int.ofNat_nonneg _

/-- The client's copy of the 64-bit loop is the server's. -/
theorem client_repeatSquareLoop64_eq (k : Nat) :
    ∀ (x e n y : Int),
      secure_client.repeatSquareLoop64 k x e n y =
        secure_server.repeatSquareLoop64 k x e n y := by
  induction k with
  | zero => intro x e n y; rfl
  | succ k ih =>
    intro x e n y
    simp only [secure_client.repeatSquareLoop64, secure_server.repeatSquareLoop64, ih]

/-- The client's copy of the 64-bit `repeatSquare` is the server's. -/
theorem client_repeatSquare64_eq (x e n : Int) :
    secure_client.repeatSquare64 x e n = secure_server.repeatSquare64 x e n := by
  unfold secure_client.repeatSquare64 secure_server.repeatSquare64
  exact client_repeatSquareLoop64_eq _ _ _ _ _

namespace secure_server

/-- The product of two residues modulo `n` is in `[0, 2^63)` when `(n - 1)^2 < 2^63`. -/
theorem residue_product_lt (a b n : Int) (hn : (n - 1) * (n - 1) < 2 ^ 63)
    (ha0 : 0 ≤ a) (ha : a < n) (hb0 : 0 ≤ b) (hb : b < n) :
    0 ≤ a * b ∧ a * b < 2 ^ 63 := by
  have h1 : a ≤ n - 1 := by omega
  have h2 : b ≤ n - 1 := by omega
  have h3 : a * b ≤ (n - 1) * (n - 1) := mul_le_mul h1 h2 hb0 (by omega)
  exact ⟨mul_nonneg ha0 hb0, lt_of_le_of_lt h3 hn⟩

/-- While the base and the accumulator are residues modulo `n` and `(n - 1)^2 < 2^63`, the
64-bit loop returns what the exact loop returns. -/
theorem repeatSquareLoop64_eq_of_residues (k : Nat) :
    ∀ (x e n y : Int), 2 ≤ n → (n - 1) * (n - 1) < 2 ^ 63 → 0 ≤ x → x < n → 0 ≤ y → y < n →
      repeatSquareLoop64 k x e n y = repeatSquareLoop k x e n y := by
  induction k with
  | zero =>
    intro x e n y _ _ _ _ _ _
    rfl
  | succ k ih =>
    intro x e n y hn2 hn hx0 hx hy0 hy
    by_cases hpos : e > 0
    · by_cases hpar : e.tmod 2 = 0
      · obtain ⟨p0, p1⟩ := residue_product_lt x x n hn hx0 hx hx0 hx
        have hw : wrap64 (x * x) = x * x := wrap64_of_range _ (by linarith) p1
        have hr0 : 0 ≤ (x * x).tmod n := Int.tmod_nonneg _ p0
        have hr1 : (x * x).tmod n < n := Int.tmod_lt_of_pos _ (by omega)
        have i2 := ih ((x * x).tmod n) (e.tdiv 2) n y hn2 hn hr0 hr1 hy0 hy
        simp only [repeatSquareLoop64, repeatSquareLoop, hpos, hpar, if_true, hw]
        exact i2
      · obtain ⟨p0, p1⟩ := residue_product_lt x y n hn hx0 hx hy0 hy
        have hw : wrap64 (x * y) = x * y := wrap64_of_range _ (by linarith) p1
        have hr0 : 0 ≤ (x * y).tmod n := Int.tmod_nonneg _ p0
        have hr1 : (x * y).tmod n < n := Int.tmod_lt_of_pos _ (by omega)
        have i2 := ih x (e - 1) n ((x * y).tmod n) hn2 hn hx0 hx hr0 hr1
        simp only [repeatSquareLoop64, repeatSquareLoop, hpos, hpar, if_true, if_false, hw]
        exact i2
    · simp [repeatSquareLoop64, repeatSquareLoop, hpos]

/-- For a base that is a residue modulo `n`, with `(n - 1)^2 < 2^63`, the 64-bit
`repeatSquare` returns what the exact one returns. -/
theorem repeatSquare64_eq_of_residue (x e n : Int) (hn2 : 2 ≤ n)
    (hn : (n - 1) * (n - 1) < 2 ^ 63) (hx0 : 0 ≤ x) (hx : x < n) :
    repeatSquare64 x e n = repeatSquare x e n :=
  repeatSquareLoop64_eq_of_residues e.toNat x e n 1 hn2 hn hx0 hx (by norm_num) (by omega)

/-- On nonnegative data `repeatSquare` returns a residue modulo `n`. -/
theorem repeatSquare_residue (x e n : Int) (hx : 0 ≤ x) (he : 0 ≤ e) (hn : 2 ≤ n) :
    0 ≤ repeatSquare x e n ∧ repeatSquare x e n < n := by
  rw [repeatSquare_eq_pow x e n hx he hn]
  exact ⟨Int.emod_nonneg _ (by omega), Int.emod_lt_of_pos _ (by omega)⟩

end secure_server

set_option maxRecDepth 100000 in
/-- Counterexample to C21 as stated, in two parts.

Overflow: with the distinct primes `p = 65537`, `q = 65539` (`n = 4295229443`) and the
exponents `e = 5`, `d = 2577059021` (`e * d` is `1` modulo `(p - 1) * (q - 1)`), the
character code 65 and the shared nonce 0, the masked value 65 is below `n`; the ciphertext
is `65^5 = 1160290625`, and squaring it in `repeatSquare` exceeds `2^63`, so the 64-bit
computation of `cbc_decrypt` returns a character other than 65.

Sign of the exponents: with `p = 61`, `q = 53` and `e = -17`, `d = -2753` (`e * d = 46801`
is `1` modulo `3120`, for the `%` of C++ and for the mathematical remainder alike),
`repeatSquare` never enters its loop `while(e > 0)`: `cbc_encrypt` returns 1 and
`cbc_decrypt` returns the character 1, not 65. -/
theorem C21_counterexample :
    ((Nat.Prime 65537 ∧ Nat.Prime 65539 ∧ (65537 : Nat) ≠ 65539) ∧
      ((5 : Int) * 2577059021) % (((65537 : Int) - 1) * ((65539 : Int) - 1)) = 1 ∧
      (((0 : Int) ≤ 65 ∧ (65 : Int) ≤ 127) ∧ (0 : Int) ≤ 0 ∧
        Int.xor 65 0 < (65537 : Int) * 65539) ∧
      (secure_client.cbc_encrypt64
        { eServer := 5, nServer := 65537 * 65539, eCA := 0, nCA := 0, nonce := 0 } 65).1 =
        1160290625 ∧
      ∀ charSigned : Bool,
        (secure_server.cbc_decrypt64 charSigned
          { dCA := 0, eCA := 0, nCA := 0, eServer := 5, dServer := 2577059021,
            nServer := 65537 * 65539, p := 65537, q := 65539, z := 65536 * 65538, nonce := 0 }
          (secure_client.cbc_encrypt64
            { eServer := 5, nServer := 65537 * 65539, eCA := 0, nCA := 0, nonce := 0 }
            65).1).1 ≠ 65) ∧
    ((Nat.Prime 61 ∧ Nat.Prime 53 ∧ (61 : Nat) ≠ 53) ∧
      (Int.tmod ((-17 : Int) * (-2753)) (((61 : Int) - 1) * ((53 : Int) - 1)) = 1 ∧
        ((-17 : Int) * (-2753)) % (((61 : Int) - 1) * ((53 : Int) - 1)) = 1) ∧
      (((0 : Int) ≤ 65 ∧ (65 : Int) ≤ 127) ∧ (0 : Int) ≤ 0 ∧
        Int.xor 65 0 < (61 : Int) * 53) ∧
      (secure_client.cbc_encrypt64
        { eServer := -17, nServer := 61 * 53, eCA := 0, nCA := 0, nonce := 0 } 65).1 = 1 ∧
      ∀ charSigned : Bool,
        (secure_server.cbc_decrypt64 charSigned
          { dCA := 0, eCA := 0, nCA := 0, eServer := -17, dServer := -2753,
            nServer := 61 * 53, p := 61, q := 53, z := 3120, nonce := 0 }
          (secure_client.cbc_encrypt64
            { eServer := -17, nServer := 61 * 53, eCA := 0, nCA := 0, nonce := 0 }
            65).1).1 ≠ 65) :=
  ⟨⟨⟨by norm_num, by norm_num, by decide⟩, by decide, ⟨by decide, by decide, by decide⟩,
    by decide, by
      intro charSigned
      cases charSigned <;> decide⟩,
   ⟨⟨by norm_num, by norm_num, by decide⟩, ⟨by decide, by decide⟩,
    ⟨by decide, by decide, by decide⟩, by decide, by
      intro charSigned
      cases charSigned <;> decide⟩⟩

/-- Claim C21, amended. For all distinct primes `p`, `q` with `n = p * q` and
`(n - 1)^2 < 2^63` (no product of two residues modulo `n` overflows a `long long`), every
`e > 0` and `d > 0` with `(e * d) mod ((p - 1) * (q - 1)) = 1`, every character code `a` in
`0 .. 127` and every shared nonce `s ≥ 0` such that `a XOR s < n`: `cbc_decrypt` applied to
the output of `cbc_encrypt`, both computed on 64-bit `long long` values, returns the
character `a`, and both sides' nonces afterwards equal the ciphertext. On these inputs the
64-bit computations return what the exact ones return. -/
theorem C21_conditional_char_round_trip (p q : ℕ) (e d a s : Int) (charSigned : Bool)
    (sv : secure_server.ServerState) (cl : secure_client.ClientState)
    (hp : p.Prime) (hq : q.Prime) (hpq : p ≠ q)
    (hbound : ((p : Int) * (q : Int) - 1) * ((p : Int) * (q : Int) - 1) < 2 ^ 63)
    (he : 0 < e) (hd : 0 < d)
    (hed : (e * d) % (((p : Int) - 1) * ((q : Int) - 1)) = 1)
    (ha : 0 ≤ a ∧ a ≤ 127) (hs : 0 ≤ s) (hfit : Int.xor a s < (p : Int) * (q : Int))
    (hcl : cl.eServer = e ∧ cl.nServer = (p : Int) * (q : Int) ∧ cl.nonce = s)
    (hsv : sv.dServer = d ∧ sv.nServer = (p : Int) * (q : Int) ∧ sv.nonce = s) :
    (secure_server.cbc_decrypt64 charSigned sv (secure_client.cbc_encrypt64 cl a).1).1 = a ∧
    (secure_client.cbc_encrypt64 cl a).2.nonce = (secure_client.cbc_encrypt64 cl a).1 ∧
    (secure_server.cbc_decrypt64 charSigned sv (secure_client.cbc_encrypt64 cl a).1).2.nonce =
      (secure_client.cbc_encrypt64 cl a).1 ∧
    secure_client.cbc_encrypt64 cl a = secure_client.cbc_encrypt cl a ∧
    secure_server.cbc_decrypt64 charSigned sv (secure_client.cbc_encrypt64 cl a).1 =
      secure_server.cbc_decrypt charSigned sv (secure_client.cbc_encrypt cl a).1 := by
  obtain ⟨hce, hcn, hcs⟩ := hcl
  obtain ⟨hsd, hsn, hss⟩ := hsv
  have hn2 : (2 : Int) ≤ (p : Int) * (q : Int) := by
    have h := Nat.mul_le_mul hp.two_le hq.two_le
    have h4 : ((2 * 2 : Nat) : Int) ≤ ((p * q : Nat) : Int) := by exact_mod_cast h
    push_cast at h4
    omega
  have hx0 : 0 ≤ Int.xor a s := int_xor_nonneg a s ha.1 hs
  have hchar : secure_server.IsCharValue charSigned a := by
    cases charSigned
    · show 0 ≤ a ∧ a ≤ 255
      omega
    · show -128 ≤ a ∧ a ≤ 127
      omega
  have henc : secure_client.repeatSquare64 (Int.xor a s) e ((p : Int) * (q : Int)) =
      secure_server.repeatSquare (Int.xor a s) e ((p : Int) * (q : Int)) := by
    rw [client_repeatSquare64_eq]
    exact secure_server.repeatSquare64_eq_of_residue _ _ _ hn2 hbound hx0 hfit
  have hres := secure_server.repeatSquare_residue (Int.xor a s) e ((p : Int) * (q : Int)) hx0
    (le_of_lt he) hn2
  have hdec : secure_server.repeatSquare64
      (secure_server.repeatSquare (Int.xor a s) e ((p : Int) * (q : Int))) d
      ((p : Int) * (q : Int)) =
      secure_server.repeatSquare
        (secure_server.repeatSquare (Int.xor a s) e ((p : Int) * (q : Int))) d
        ((p : Int) * (q : Int)) :=
    secure_server.repeatSquare64_eq_of_residue _ _ _ hn2 hbound hres.1 hres.2
  have hround := secure_server.repeatSquare_round_trip p q e d (Int.xor a s) hp hq hpq
    (le_of_lt he) (le_of_lt hd) hed hx0 hfit
  have hE : secure_client.cbc_encrypt64 cl a = secure_client.cbc_encrypt cl a := by
    show (secure_client.repeatSquare64 (Int.xor a cl.nonce) cl.eServer cl.nServer, _) =
      (secure_client.repeatSquare (Int.xor a cl.nonce) cl.eServer cl.nServer, _)
    rw [hce, hcn, hcs, henc, client_repeatSquare_eq]
  have hE1 : (secure_client.cbc_encrypt cl a).1 =
      secure_server.repeatSquare (Int.xor a s) e ((p : Int) * (q : Int)) := by
    show secure_client.repeatSquare (Int.xor a cl.nonce) cl.eServer cl.nServer = _
    rw [hce, hcn, hcs, client_repeatSquare_eq]
  have hD : secure_server.cbc_decrypt64 charSigned sv (secure_client.cbc_encrypt64 cl a).1 =
      secure_server.cbc_decrypt charSigned sv (secure_client.cbc_encrypt cl a).1 := by
    rw [hE, hE1]
    show (secure_server.toChar charSigned (Int.xor (secure_server.repeatSquare64 _
        sv.dServer sv.nServer) sv.nonce), _) =
      (secure_server.toChar charSigned (Int.xor (secure_server.repeatSquare _
        sv.dServer sv.nServer) sv.nonce), _)
    rw [hsd, hsn, hdec]
  refine ⟨?_, rfl, rfl, hE, hD⟩
  rw [hD, hE1]
  show secure_server.toChar charSigned
    (Int.xor (secure_server.repeatSquare _ sv.dServer sv.nServer) sv.nonce) = a
  rw [hsd, hsn, hss, hround, int_xor_xor_cancel]
  exact toChar_of_isCharValue charSigned a hchar

set_option maxRecDepth 100000 in
/-- Witness of the amended C21: the textbook key `p = 61`, `q = 53`, `e = 17`, `d = 2753`,
the character `'A'` and the nonce 1000. -/
theorem C21_witness :
    (Nat.Prime 61 ∧ Nat.Prime 53 ∧ (61 : Nat) ≠ 53 ∧
      ((((61 : Nat) : Int) * ((53 : Nat) : Int) - 1) *
        (((61 : Nat) : Int) * ((53 : Nat) : Int) - 1) < 2 ^ 63) ∧
      (0 : Int) < 17 ∧ (0 : Int) < 2753 ∧
      ((17 : Int) * 2753) % ((((61 : Nat) : Int) - 1) * (((53 : Nat) : Int) - 1)) = 1 ∧
      ((0 : Int) ≤ 65 ∧ (65 : Int) ≤ 127) ∧ (0 : Int) ≤ 1000 ∧
      Int.xor 65 1000 < ((61 : Nat) : Int) * ((53 : Nat) : Int)) ∧
    ((secure_server.cbc_decrypt64 true
        { dCA := 0, eCA := 0, nCA := 0, eServer := 17, dServer := 2753,
          nServer := ((61 : Nat) : Int) * ((53 : Nat) : Int), p := 61, q := 53, z := 3120,
          nonce := 1000 }
        (secure_client.cbc_encrypt64
          { eServer := 17, nServer := ((61 : Nat) : Int) * ((53 : Nat) : Int), eCA := 0,
            nCA := 0, nonce := 1000 } 65).1).1 = 65 ∧
      (secure_client.cbc_encrypt64
          { eServer := 17, nServer := ((61 : Nat) : Int) * ((53 : Nat) : Int), eCA := 0,
            nCA := 0, nonce := 1000 } 65).2.nonce =
        (secure_client.cbc_encrypt64
          { eServer := 17, nServer := ((61 : Nat) : Int) * ((53 : Nat) : Int), eCA := 0,
            nCA := 0, nonce := 1000 } 65).1 ∧
      (secure_server.cbc_decrypt64 true
        { dCA := 0, eCA := 0, nCA := 0, eServer := 17, dServer := 2753,
          nServer := ((61 : Nat) : Int) * ((53 : Nat) : Int), p := 61, q := 53, z := 3120,
          nonce := 1000 }
        (secure_client.cbc_encrypt64
          { eServer := 17, nServer := ((61 : Nat) : Int) * ((53 : Nat) : Int), eCA := 0,
            nCA := 0, nonce := 1000 } 65).1).2.nonce =
        (secure_client.cbc_encrypt64
          { eServer := 17, nServer := ((61 : Nat) : Int) * ((53 : Nat) : Int), eCA := 0,
            nCA := 0, nonce := 1000 } 65).1 ∧
      secure_client.cbc_encrypt64
          { eServer := 17, nServer := ((61 : Nat) : Int) * ((53 : Nat) : Int), eCA := 0,
            nCA := 0, nonce := 1000 } 65 =
        secure_client.cbc_encrypt
          { eServer := 17, nServer := ((61 : Nat) : Int) * ((53 : Nat) : Int), eCA := 0,
            nCA := 0, nonce := 1000 } 65 ∧
      secure_server.cbc_decrypt64 true
        { dCA := 0, eCA := 0, nCA := 0, eServer := 17, dServer := 2753,
          nServer := ((61 : Nat) : Int) * ((53 : Nat) : Int), p := 61, q := 53, z := 3120,
          nonce := 1000 }
        (secure_client.cbc_encrypt64
          { eServer := 17, nServer := ((61 : Nat) : Int) * ((53 : Nat) : Int), eCA := 0,
            nCA := 0, nonce := 1000 } 65).1 =
        secure_server.cbc_decrypt true
          { dCA := 0, eCA := 0, nCA := 0, eServer := 17, dServer := 2753,
            nServer := ((61 : Nat) : Int) * ((53 : Nat) : Int), p := 61, q := 53, z := 3120,
            nonce := 1000 }
          (secure_client.cbc_encrypt
            { eServer := 17, nServer := ((61 : Nat) : Int) * ((53 : Nat) : Int), eCA := 0,
              nCA := 0, nonce := 1000 } 65).1) :=
  ⟨⟨by norm_num, by norm_num, by decide, by norm_num, by decide, by decide, by decide,
    by decide, by decide, by decide⟩,
   C21_conditional_char_round_trip 61 53 17 2753 65 1000 true _ _ (by norm_num) (by norm_num)
     (by decide) (by norm_num) (by decide) (by decide) (by decide) (by decide) (by decide)
     (by decide) ⟨rfl, rfl, rfl⟩ ⟨rfl, rfl, rfl⟩⟩

/-! ## Bound on the public exponent -/

namespace secure_server

/-- The prime 10007 does not divide `p - 1` for a prime `p` of the range of `get_prime`:
`p - 1 = 10007` would make `p` even. -/
theorem coprime_10007_pred (p : ℕ) (hp : p.Prime) (hpr : 5000 ≤ p ∧ p ≤ 15000) :
    Nat.Coprime 10007 (p - 1) := by
  have h10007 : Nat.Prime 10007 := by norm_num
  rw [Nat.Prime.coprime_iff_not_dvd h10007]
  rintro ⟨k, hk⟩
  have hk1 : k = 1 := by
    rcases k with _ | _ | k
    · omega
    · rfl
    · omega
  subst hk1
  have h8 : p = 10008 := by omega
  subst h8
  exact absurd hp (by norm_num)

/-- The candidate 10007 is coprime with the totient of every two primes of the range of
`get_prime`. -/
theorem gcd_totient_10007 (p q : ℕ) (hp : p.Prime) (hq : q.Prime)
    (hpr : 5000 ≤ p ∧ p ≤ 15000) (hqr : 5000 ≤ q ∧ q ≤ 15000) :
    Int.gcd (((p : Int) - 1) * ((q : Int) - 1)) 10007 = 1 := by
  have h1 : ((p : Int) - 1) * ((q : Int) - 1) = (((p - 1) * (q - 1) : ℕ) : Int) := by
    have hp1 : 1 ≤ p := by omega
    have hq1 : 1 ≤ q := by omega
    push_cast [Nat.cast_sub hp1, Nat.cast_sub hq1]
    ring
  have h2 : (10007 : Int) = ((10007 : ℕ) : Int) := rfl
  rw [h1, h2, Int.gcd_natCast_natCast]
  exact (Nat.Coprime.mul_right (coprime_10007_pred p hp hpr)
    (coprime_10007_pred q hq hqr)).symm

end secure_server

/-- Claim C22. For all primes `p`, `q` of `[5000, 15000]` with `z = (p - 1) * (q - 1)` (and
the modulus `n = p * q` that the key setters pass) and every seed of `[5000, 10000]`,
`get_e` returns a value, and every value `e` it returns satisfies `seed ≤ e ≤ 10007`; hence
`e < z`, `e` is smaller than the product of any two primes of the range, and `e` survives
signing with the private key and verification with the public key of any CA key pair. -/
theorem C22_public_exponent_bound (p q : ℕ) (seed : Int) (hp : p.Prime) (hq : q.Prime)
    (hpr : 5000 ≤ p ∧ p ≤ 15000) (hqr : 5000 ≤ q ∧ q ≤ 15000)
    (hseed : 5000 ≤ seed ∧ seed ≤ 10000) :
    (∃ fuel e,
      secure_server.get_e fuel p q (((p : Int) - 1) * ((q : Int) - 1)) ((p : Int) * q) seed
        = some e) ∧
    ∀ fuel e,
      secure_server.get_e fuel p q (((p : Int) - 1) * ((q : Int) - 1)) ((p : Int) * q) seed
        = some e →
      (seed ≤ e ∧ e ≤ 10007) ∧ e < ((p : Int) - 1) * ((q : Int) - 1) ∧
      (∀ p1 q1 : ℕ, 5000 ≤ p1 → 5000 ≤ q1 → e < (p1 : Int) * (q1 : Int)) ∧
      ∀ eCA dCA nCA : Int, secure_server.IsKeyPair eCA dCA nCA →
        secure_server.repeatSquare (secure_server.repeatSquare e dCA nCA) eCA nCA = e := by
  obtain ⟨hz, hpn, hqn⟩ := secure_server.key_range_facts p q hpr.1 hqr.1
  have hguard : ∀ c : Int, c < (p : Int) * q ∨ (c ≠ (q : Int) ∧ c ≠ (p : Int)) := by
    intro c
    by_cases hc : c < (p : Int) * q
    · exact Or.inl hc
    · exact Or.inr ⟨by omega, by omega⟩
  obtain ⟨f1, t, hget, hco, hmin⟩ := secure_server.get_e_returns p q
    (((p : Int) - 1) * ((q : Int) - 1)) ((p : Int) * q) seed (by omega) (by omega) hguard
  have ht : seed + (t : Int) ≤ 10007 := by
    by_contra hgt
    have hj : (10007 - seed).toNat < t := by omega
    have h := hmin (10007 - seed).toNat hj
    have hval : seed + ((10007 - seed).toNat : Int) = 10007 := by omega
    rw [hval] at h
    exact h (secure_server.gcd_totient_10007 p q hp hq hpr hqr)
  have hprod : ∀ p1 q1 : ℕ, 5000 ≤ p1 → 5000 ≤ q1 →
      (25000000 : Int) ≤ (p1 : Int) * (q1 : Int) := by
    intro p1 q1 h1 h2
    have h := Nat.mul_le_mul h1 h2
    have h3 : ((5000 * 5000 : ℕ) : Int) ≤ ((p1 * q1 : ℕ) : Int) := by exact_mod_cast h
    push_cast at h3
    omega
  have hzlow : (24990001 : Int) ≤ ((p : Int) - 1) * ((q : Int) - 1) := by
    have h1 : 4999 ≤ p - 1 := by omega
    have h2 : 4999 ≤ q - 1 := by omega
    have h := Nat.mul_le_mul h1 h2
    have h3 : ((4999 * 4999 : ℕ) : Int) ≤ (((p - 1) * (q - 1) : ℕ) : Int) := by
      exact_mod_cast h
    have hp1 : 1 ≤ p := by omega
    have hq1 : 1 ≤ q := by omega
    push_cast [Nat.cast_sub hp1, Nat.cast_sub hq1] at h3
    omega
  refine ⟨⟨f1, seed + t, hget⟩, ?_⟩
  intro fuel e h
  have he : e = seed + t := secure_server.get_e_fuel fuel f1 _ _ _ _ _ _ _ h hget
  subst he
  refine ⟨⟨by omega, ht⟩, by omega, ?_, ?_⟩
  · intro p1 q1 h1 h2
    have := hprod p1 q1 h1 h2
    omega
  · intro eCA dCA nCA hkey
    have hn : (25000000 : Int) ≤ nCA := by
      obtain ⟨p1, q1, _, _, _, hp1, hq1, hn1, _⟩ := hkey
      rw [hn1]
      exact hprod p1 q1 hp1.1 hq1.1
    exact hkey.round_trip_sign _ (by omega) (by omega)

/-- Witness of C22: the primes 5003 and 5009 and the seed 5000. -/
theorem C22_witness :
    (Nat.Prime 5003 ∧ Nat.Prime 5009 ∧ (5000 ≤ 5003 ∧ 5003 ≤ 15000) ∧
      (5000 ≤ 5009 ∧ 5009 ≤ 15000) ∧ ((5000 : Int) ≤ 5000 ∧ (5000 : Int) ≤ 10000)) ∧
    ((∃ fuel e,
      secure_server.get_e fuel ((5003 : ℕ) : Int) ((5009 : ℕ) : Int)
        ((((5003 : ℕ) : Int) - 1) * (((5009 : ℕ) : Int) - 1))
        (((5003 : ℕ) : Int) * ((5009 : ℕ) : Int)) 5000 = some e) ∧
    ∀ fuel e,
      secure_server.get_e fuel ((5003 : ℕ) : Int) ((5009 : ℕ) : Int)
        ((((5003 : ℕ) : Int) - 1) * (((5009 : ℕ) : Int) - 1))
        (((5003 : ℕ) : Int) * ((5009 : ℕ) : Int)) 5000 = some e →
      ((5000 : Int) ≤ e ∧ e ≤ 10007) ∧
      e < (((5003 : ℕ) : Int) - 1) * (((5009 : ℕ) : Int) - 1) ∧
      (∀ p1 q1 : ℕ, 5000 ≤ p1 → 5000 ≤ q1 → e < (p1 : Int) * (q1 : Int)) ∧
      ∀ eCA dCA nCA : Int, secure_server.IsKeyPair eCA dCA nCA →
        secure_server.repeatSquare (secure_server.repeatSquare e dCA nCA) eCA nCA = e) :=
  ⟨⟨by norm_num, by norm_num, by decide, by decide, by decide⟩,
   C22_public_exponent_bound 5003 5009 5000 (by norm_num) (by norm_num) (by decide)
     (by decide) (by decide)⟩
